import Mathlib

/-!
# Run registry backend: lumisection range compaction and differential update

A shallow embedding of `src/controllers/lumisection.js`:

* JSON documents (`JVal`, `Obj`) with the object operations the controller uses
  (property read, spread-with-override, `delete`);
* `getLumisectionRanges` (the range compactor) and
  `getNewLumisectionRanges` (the differential updater), both transcribed loop by loop.

Arrays are lists, JavaScript objects are association lists in insertion order, numbers are
integers.
-/

namespace RunRegistry

/-! ## JSON values and objects -/

/-- JSON values as stored in a lumisection document. -/
inductive JVal where
  | null
  | bool (b : Bool)
  | num (n : Int)
  | str (s : String)
  | arr (xs : List JVal)
  | obj (kvs : List (String × JVal))

/-- A JavaScript object: its own enumerable properties in insertion order.  A key is looked up
from the front, so a key listed twice denotes its first binding. -/
abbrev Obj := List (String × JVal)

/-- Property read `o[k]`; `none` stands for `undefined`. -/
def getProp : Obj → String → Option JVal
  | [], _ => none
  | (k', w) :: rest, k => if k = k' then some w else getProp rest k

/-- The own keys of an object. -/
def keysOf (o : Obj) : List String := o.map Prod.fst

/-- The property `k` takes the value `v` at the position it already has in `o`. -/
def overrideProp (o : Obj) (k : String) (v : JVal) : Obj :=
  o.map (fun kv => if kv.1 = k then (k, v) else kv)

/-- Object spread with one overriding property, `{ ...o, k: v }`: an existing key keeps its
position and takes the new value, a fresh key is appended. -/
def setProp (o : Obj) (k : String) (v : JVal) : Obj :=
  if k ∈ keysOf o then overrideProp o k v else o ++ [(k, v)]

/-- The statement `delete o.k` (on a copy). -/
def deleteProp (o : Obj) (k : String) : Obj := o.filter (fun kv => decide (kv.1 ≠ k))

/-- Spreading a possibly `undefined` element, `{ ...xs[i] }`: `undefined` contributes no
property. -/
def spread (o : Option Obj) : Obj := o.getD []

mutual
/-- Modelled from the spec: `deepEqual` comes from the Node `assert` module, which is not part of
the sources.  The spec asks for structural deep equality that is order-independent for document
keys: scalars are equal when identical, arrays when equal element by element, objects when they
have the same keys and deep-equal values under every key. -/
def JVal.deq : JVal → JVal → Bool
  | .null, .null => true
  | .bool a, .bool b => a == b
  | .num a, .num b => a == b
  | .str a, .str b => a == b
  | .arr xs, .arr ys => deqList xs ys
  | .obj a, .obj b => deqProps [] a b && b.all (fun kv => decide (kv.1 ∈ keysOf a))
  | _, _ => false
termination_by structural x => x
/-- Element-wise deep equality of two arrays. -/
def deqList : List JVal → List JVal → Bool
  | [], [] => true
  | x :: xs, y :: ys => JVal.deq x y && deqList xs ys
  | _, _ => false
termination_by structural x => x
/-- Every property of the first object, other than the keys in `seen` (keys already visited), is
a property of the second object with a deep-equal value. -/
def deqProps : List String → List (String × JVal) → List (String × JVal) → Bool
  | _, [], _ => true
  | seen, (k, v) :: rest, b =>
    (if k ∈ seen then true
     else match getProp b k with
       | some w => JVal.deq v w
       | none => false) && deqProps (k :: seen) rest b
termination_by structural _ x => x
end

/-- The call `deepEqual(actual, expected)` on two objects; `true` when it does not throw. -/
def deepEqual (actual expected : Obj) : Bool := JVal.deq (.obj actual) (.obj expected)

/-- Modelled from the spec: the package `get-attributes-specified-from-array` is not part of the
sources.  The spec restricts a document to exactly the whitelisted keys: the result has, for every
whitelisted key the document owns, that key with the document's value, and nothing else. -/
def getAttributesSpecifiedFromArray (o : Obj) (attributes : List String) : Obj :=
  attributes.foldl
    (fun acc k => match getProp o k with
      | some v => setProp acc k v
      | none => acc) []

/-! ## Array helpers -/

/-- The last element `a[a.length - 1]`, spread into a fresh object. -/
def lastRange (a : List Obj) : Obj := spread a.getLast?

/-- The assignment `a[a.length - 1] = o` on a non-empty array. -/
def setLastRange (a : List Obj) (o : Obj) : List Obj := a.set (a.length - 1) o

/-- A range with its `start` and `end` removed: the value the range carries. -/
def rangeValues (r : Obj) : Obj := deleteProp (deleteProp r "start") "end"

/-! ## `getLumisectionRanges` -/

/-- The whitelisting step of `getLumisectionRanges`: all attributes when the first whitelist
entry is the star, else each document restricted to the whitelist. -/
def whitelistAll (lumisections : List Obj) (lumisection_attributes : List String) : List Obj :=
  if lumisection_attributes[0]? ≠ some "*" then
    lumisections.map (fun lumisection =>
      getAttributesSpecifiedFromArray lumisection lumisection_attributes)
  else lumisections

/-- One iteration of the loop of `getLumisectionRanges` at index `i` (inside the loop
`i < lumisections.length`, so `lumisections[i]` exists). -/
def rangesStep (lumisections : List Obj) (ls_ranges : List Obj) (i : Nat) : List Obj :=
  let previous_range := lastRange ls_ranges
  let previous_range_copy := rangeValues previous_range
  let current_range := spread lumisections[i]?
  if deepEqual previous_range_copy current_range then ls_ranges
  else
    (setLastRange ls_ranges (setProp previous_range "end" (.num i))) ++
      [setProp current_range "start" (.num (i + 1))]

/-- The function `getLumisectionRanges(lumisections, lumisection_attributes)`. -/
def getLumisectionRanges (lumisections : List Obj) (lumisection_attributes : List String) :
    List Obj :=
  let lumisections := whitelistAll lumisections lumisection_attributes
  let ls_ranges : List Obj := [setProp (spread lumisections[0]?) "start" (.num 1)]
  let ls_ranges :=
    (List.range' 1 (lumisections.length - 1)).foldl (rangesStep lumisections) ls_ranges
  setLastRange ls_ranges (setProp (lastRange ls_ranges) "end" (.num lumisections.length))

/-! ## `getNewLumisectionRanges` -/

/-- How a call of a JavaScript function ends: it returns a value, it returns `undefined`
(control falls off the end of the body), or it throws. -/
inductive Completion (α : Type) where
  | returned (value : α)
  | returnedUndefined
  | threw (error : String)

/-- One iteration of the loop of `getNewLumisectionRanges` at index `i`. -/
def newRangesStep (previous_lumisections new_lumisections : List Obj)
    (lumisection_whitelist : List String) (new_ls_ranges : List Obj) (i : Nat) : List Obj :=
  let current_previous_lumisection :=
    getAttributesSpecifiedFromArray (spread previous_lumisections[i]?) lumisection_whitelist
  let current_new_lumisection :=
    getAttributesSpecifiedFromArray (spread new_lumisections[i]?) lumisection_whitelist
  if deepEqual current_previous_lumisection current_new_lumisection then
    if new_ls_ranges.length > 0 then
      let previous_range := lastRange new_ls_ranges
      setLastRange new_ls_ranges (setProp previous_range "end" (.num i))
    else new_ls_ranges
  else
    if new_ls_ranges.length = 0 then
      new_ls_ranges ++ [setProp current_new_lumisection "start" (.num 1)]
    else
      let previous_range := lastRange new_ls_ranges
      let previous_range_copy := rangeValues previous_range
      if deepEqual previous_range_copy current_new_lumisection then new_ls_ranges
      else
        (setLastRange new_ls_ranges (setProp previous_range "end" (.num i))) ++
          [setProp current_new_lumisection "start" (.num (i + 1))]

/-- The function `getNewLumisectionRanges(previous_lumisections, new_lumisections,
lumisection_whitelist)`.  The body is guarded by the length test and has no `else`: with unequal
lengths control falls off the end and the call returns `undefined`. -/
def getNewLumisectionRanges (previous_lumisections new_lumisections : List Obj)
    (lumisection_whitelist : List String) : Completion (List Obj) :=
  if new_lumisections.length = previous_lumisections.length then
    let new_ls_ranges :=
      (List.range new_lumisections.length).foldl
        (newRangesStep previous_lumisections new_lumisections lumisection_whitelist) []
    let new_ls_ranges :=
      if new_ls_ranges.length > 0 then
        setLastRange new_ls_ranges
          (setProp (lastRange new_ls_ranges) "end" (.num new_lumisections.length))
      else new_ls_ranges
    .returned new_ls_ranges
  else .returnedUndefined

/-- The write-back of one range as C6 words it: the value carried by the range is written to
every slice numbered `start..end` (slice `n` is the element at index `n - 1`). -/
def overwriteWithRange (slices : List Obj) (r : Obj) : List Obj :=
  match getProp r "start", getProp r "end" with
  | some (.num s), some (.num e) =>
    slices.enum.map (fun p => if s ≤ (p.1 : Int) + 1 ∧ (p.1 : Int) + 1 ≤ e then rangeValues r else p.2)
  | _, _ => slices

/-- The ranges written back in order. -/
def overwriteWithRanges (slices : List Obj) (ranges : List Obj) : List Obj :=
  ranges.foldl overwriteWithRange slices

/-! ## The loop invariant of the range compactor -/

/-- The closed range `r` covers the slices `lo..e` of `S`: it records these bounds, it carries the
value of slice `lo` (less any `start` and `end` key), and every later slice of the range passed
the `deepEqual` test of the loop against the carried value. -/
def GoodRange (S : List Obj) (lo e : Nat) (r : Obj) : Prop :=
  getProp r "start" = some (.num lo) ∧ getProp r "end" = some (.num e) ∧
  1 ≤ lo ∧ lo ≤ e ∧ e ≤ S.length ∧
  (∃ d, S[lo - 1]? = some d ∧ rangeValues r = rangeValues d) ∧
  ∀ j, lo < j → j ≤ e → ∃ d, S[j - 1]? = some d ∧ deepEqual (rangeValues r) d = true

/-- The ranges `R` compact the slices `lo..hi` of `S`: consecutive good ranges, each followed by a
slice that failed the `deepEqual` test against the value the range carries. -/
def RangesFrom (S : List Obj) : Nat → List Obj → Nat → Prop
  | _, [], _ => False
  | lo, [r], hi => GoodRange S lo hi r
  | lo, r :: r' :: rest, hi =>
    ∃ e, GoodRange S lo e r ∧ (∃ d, S[e]? = some d ∧ deepEqual (rangeValues r) d = false) ∧
      RangesFrom S (e + 1) (r' :: rest) hi

/-! ## Properties of a list of ranges -/

/-- The ranges partition the slice numbers `1..n` exactly: the first range starts at 1, each
further range starts right after the end of the one before it, every range has `start ≤ end`, and
the last range ends at `n`. -/
def PartitionsSlices (R : List Obj) (n : Nat) : Prop :=
  (∃ r, R.head? = some r ∧ getProp r "start" = some (.num 1)) ∧
  List.Chain' (fun r r' => ∃ e : Int,
    getProp r "end" = some (.num e) ∧ getProp r' "start" = some (.num (e + 1))) R ∧
  (∀ r ∈ R, ∃ s e : Int,
    getProp r "start" = some (.num s) ∧ getProp r "end" = some (.num e) ∧ s ≤ e) ∧
  (∃ r, R.getLast? = some r ∧ getProp r "end" = some (.num n))

/-- Every slice `i` (1-indexed) inside a range has a document deep-equal to the value the range
carries. -/
def CarriesSliceValues (S : List Obj) (R : List Obj) : Prop :=
  ∀ r ∈ R, ∃ s e : Nat,
    getProp r "start" = some (.num s) ∧ getProp r "end" = some (.num e) ∧ 1 ≤ s ∧
    ∀ i, s ≤ i → i ≤ e → ∃ d, S[i - 1]? = some d ∧ deepEqual d (rangeValues r) = true

/-- No two adjacent ranges carry deep-equal values. -/
def AdjacentValuesDiffer (R : List Obj) : Prop :=
  List.Chain' (fun r r' => deepEqual (rangeValues r) (rangeValues r') = false) R

/-- A range boundary sits exactly where the loop test fails: inside a range every slice after
the first is deep-equal to the value carried by the range, and the slice at which the next range
starts is not. -/
def BoundariesWhereValueChanges (S : List Obj) (R : List Obj) : Prop :=
  (∀ r ∈ R, ∃ s e : Nat,
    getProp r "start" = some (.num s) ∧ getProp r "end" = some (.num e) ∧
    ∀ i, s < i → i ≤ e → ∃ d, S[i - 1]? = some d ∧ deepEqual (rangeValues r) d = true) ∧
  List.Chain' (fun r r' => ∃ s' : Nat, getProp r' "start" = some (.num s') ∧
    ∃ d, S[s' - 1]? = some d ∧ deepEqual (rangeValues r) d = false) R

/-- No document has a property named `start` or `end`, the two names a range uses for its
bounds. -/
def NoRangeKeys (S : List Obj) : Prop :=
  ∀ d ∈ S, getProp d "start" = none ∧ getProp d "end" = none

/-! ## Sample documents -/

/-- The document `{a: n}`. -/
def docA (n : Int) : Obj := [("a", .num n)]

/-- The document `{a: n, b: m}`. -/
def docAB (n m : Int) : Obj := [("a", .num n), ("b", .num m)]

/-- The document `{start: n}`, whose only key collides with a range bound. -/
def docStart (n : Int) : Obj := [("start", .num n)]

/-- The scenario of the spec: `[{a:1},{a:1},{a:2},{a:2},{a:2}]`. -/
def scenarioSlices : List Obj := [docA 1, docA 1, docA 2, docA 2, docA 2]

/-! ## `calculate_new_runs` (`src/cron/1.get_runs.js`) -/

/-- A run as fetched from the OMS feed: its run number (a JSON number, on which the unary plus of
the source is the identity) and its other attributes. -/
structure FetchedRun where
  run_number : Int
  attributes : Obj

/-- A row of the `Run` table, the materialised current state of a run. -/
structure RunRow where
  run_number : Int
  rr_attributes : Obj
  oms_attributes : Obj
  deleted : Bool
  version : Nat

/-- The function `calculate_new_runs(fetched_runs, last_saved_runs)`: the three `forEach` loops,
with the flags `exists` and `already_saved` as fold accumulators. -/
def calculate_new_runs (fetched_runs : List FetchedRun) (last_saved_runs : List RunRow) :
    List FetchedRun :=
  fetched_runs.foldl
    (fun new_runs fetched_run =>
      let exists_ := last_saved_runs.foldl
        (fun found existing_run =>
          if fetched_run.run_number = existing_run.run_number then true else found) false
      if !exists_ then
        let already_saved := new_runs.foldl
          (fun found run => if fetched_run.run_number = run.run_number then true else found) false
        if !already_saved then new_runs ++ [fetched_run] else new_runs
      else new_runs) []

/-- The difference of runs in the words of C17: walking `fetched` in order, a run is kept when
its run number is not among `seen`, and a kept run number counts as seen from then on. -/
def differenceOfRuns (seen : List Int) : List FetchedRun → List FetchedRun
  | [] => []
  | r :: rest =>
    if r.run_number ∈ seen then differenceOfRuns seen rest
    else r :: differenceOfRuns (r.run_number :: seen) rest

/-! ## `get_lumisections_for_dataset`: the gap-filling step -/

/-- A row of the merged query of `get_lumisections_for_dataset`: a slice number and the merged
document of that slice (`triplets`). -/
structure MergedRow where
  lumisection_number : Int
  triplets : Obj

/-- The empty triplet `{ status: 'EMPTY', comment: '', cause: '' }`. -/
def emptyTriplet : JVal :=
  .obj [("status", .str "EMPTY"), ("comment", .str ""), ("cause", .str "")]

/-- The test `typeof v === 'object'` on a property read: true of objects, arrays and `null`,
false of `undefined` (no such property) and of booleans, numbers and strings. -/
def typeofIsObject : Option JVal → Bool
  | some (.obj _) => true
  | some (.arr _) => true
  | some .null => true
  | _ => false

/-- The list `components_present_in_dataset`: every key of every merged document, each pushed
once, in order of first appearance. -/
def componentsPresent (merged_lumisections : List MergedRow) : List String :=
  merged_lumisections.foldl
    (fun components row =>
      (keysOf row.triplets).foldl
        (fun components component =>
          if component ∈ components then components else components ++ [component])
        components) []

/-- The assignment `a[i] = o` on an array that may have holes (`none`): inside the array it
replaces the element, at the end it appends, beyond the end it leaves holes in between. -/
def assignIndex (a : List (Option Obj)) (i : Nat) (o : Obj) : List (Option Obj) :=
  if i < a.length then a.set i (some o)
  else a ++ List.replicate (i - a.length) none ++ [some o]

/-- The record emitted for a slice that has the merged document `triplets`: every component
present, with the document's value when that value is of type object and the empty triplet
otherwise. -/
def filledRecord (components_present_in_dataset : List String) (triplets : Obj) : Obj :=
  components_present_in_dataset.foldl
    (fun record component =>
      if typeofIsObject (getProp triplets component) then
        match getProp triplets component with
        | some v => setProp record component v
        | none => record
      else setProp record component emptyTriplet) []

/-- The record emitted for a gap: every component present, with the empty triplet. -/
def emptyRecord (components_present_in_dataset : List String) : Obj :=
  components_present_in_dataset.foldl
    (fun record component => setProp record component emptyTriplet) []

/-- The loop variables of the gap-filling loop. -/
structure GapState where
  lumisections_with_empty_wholes : List (Option Obj)
  current_merged_lumisection_element : Nat

/-- One iteration of the gap-filling loop at index `i`.  Reading
`merged_lumisections[current_merged_lumisection_element]` past the end gives `undefined`, whose
destructuring throws a `TypeError`. -/
def gapStep (merged_lumisections : List MergedRow) (components_present_in_dataset : List String)
    (st : GapState) (i : Nat) : Completion GapState :=
  match merged_lumisections[st.current_merged_lumisection_element]? with
  | none => .threw "TypeError: cannot destructure undefined"
  | some row =>
    if (i : Int) + 1 = row.lumisection_number then
      .returned
        { lumisections_with_empty_wholes :=
            assignIndex st.lumisections_with_empty_wholes i
              (filledRecord components_present_in_dataset row.triplets)
          current_merged_lumisection_element := st.current_merged_lumisection_element + 1 }
    else
      .returned
        { lumisections_with_empty_wholes :=
            assignIndex st.lumisections_with_empty_wholes i
              (emptyRecord components_present_in_dataset)
          current_merged_lumisection_element := st.current_merged_lumisection_element }

/-- The gap-filling loop over the indices still to visit; a throw ends it. -/
def gapLoop (merged_lumisections : List MergedRow) (components_present_in_dataset : List String) :
    List Nat → GapState → Completion GapState
  | [], st => .returned st
  | i :: rest, st =>
    match gapStep merged_lumisections components_present_in_dataset st i with
    | .returned st' => gapLoop merged_lumisections components_present_in_dataset rest st'
    | .returnedUndefined => .returnedUndefined
    | .threw e => .threw e

/-- The gap-filling step of `get_lumisections_for_dataset` with its loop variables on exit: no
iteration when there is no merged row, else `i` runs from 0 below the slice number of the last
row. -/
def fillGapsState (merged_lumisections : List MergedRow) : Completion GapState :=
  let components_present_in_dataset := componentsPresent merged_lumisections
  match merged_lumisections.getLast? with
  | none =>
    .returned { lumisections_with_empty_wholes := [], current_merged_lumisection_element := 0 }
  | some last =>
    gapLoop merged_lumisections components_present_in_dataset
      (List.range last.lumisection_number.toNat)
      { lumisections_with_empty_wholes := [], current_merged_lumisection_element := 0 }

/-- The value returned by the gap-filling step: the array `lumisections_with_empty_wholes`. -/
def fillGaps (merged_lumisections : List MergedRow) : Completion (List (Option Obj)) :=
  match fillGapsState merged_lumisections with
  | .returned st => .returned st.lumisections_with_empty_wholes
  | .returnedUndefined => .returnedUndefined
  | .threw e => .threw e

/-- The merged rows are ordered by strictly increasing slice number. -/
def StrictlyIncreasing (rows : List MergedRow) : Prop :=
  rows.Pairwise (fun a b => a.lumisection_number < b.lumisection_number)

/-- Every merged row has a positive slice number. -/
def PositiveSlices (rows : List MergedRow) : Prop :=
  ∀ row ∈ rows, 0 < row.lumisection_number

/-- The triplet `{ status: s, comment: '', cause: '' }`. -/
def triplet (s : String) : JVal :=
  .obj [("status", .str s), ("comment", .str ""), ("cause", .str "")]

/-- Invariant of the gap-filling loop that holds for any merged rows.  After `i` of the `N`
iterations: the output has `i` entries; the cursor is at most the number of rows, and is a valid
index as long as an iteration is left; every entry is present (no hole) and is either the empty
record or the filled record of a row with that slice number. -/
def GapInv (rows : List MergedRow) (N : Nat) (i : Nat) (st : GapState) : Prop :=
  st.lumisections_with_empty_wholes.length = i ∧
  st.current_merged_lumisection_element ≤ rows.length ∧
  (st.current_merged_lumisection_element < rows.length ∨ N ≤ i) ∧
  ∀ j, j < i → ∃ e, st.lumisections_with_empty_wholes[j]? = some (some e) ∧
    (e = emptyRecord (componentsPresent rows) ∨
      ∃ row ∈ rows, row.lumisection_number = (j : Int) + 1 ∧
        e = filledRecord (componentsPresent rows) row.triplets)

/-- Invariant of the gap-filling loop for rows in strictly increasing positive order.  After `i`
iterations the cursor separates the rows with slice number at most `i` from the rows with a
larger one, and the entry of every slice that has a row is the filled record of that row. -/
def GapOrderInv (rows : List MergedRow) (i : Nat) (st : GapState) : Prop :=
  (∀ c row, c < st.current_merged_lumisection_element → rows[c]? = some row →
    row.lumisection_number ≤ (i : Int)) ∧
  (∀ c row, st.current_merged_lumisection_element ≤ c → rows[c]? = some row →
    (i : Int) < row.lumisection_number) ∧
  ∀ j, j < i → ∀ row ∈ rows, row.lumisection_number = (j : Int) + 1 →
    st.lumisections_with_empty_wholes[j]? =
      some (some (filledRecord (componentsPresent rows) row.triplets))

/-! ## The store: tables, transactions and the steps that can fail -/

/-- A row of the `Event` table: the version the log assigned, the actor and the comment. -/
structure EventRow where
  version : Nat
  by_ : String
  comment : Option String

/-- A row of `LumisectionEvent` (or of `OMSLumisectionEvent`). -/
structure LumisectionEventRow where
  run_number : Int
  name : String
  lumisection_metadata_id : Nat
  version : Nat

/-- A row of `LumisectionEventAssignation` (or of `OMSLumisectionEventAssignation`). -/
structure LumisectionEventAssignationRow where
  version : Nat
  lumisection_number : Int

/-- A row of `RunEvent`. -/
structure RunEventRow where
  run_number : Int
  oms_metadata : Obj
  rr_metadata : Obj
  version : Nat
  deleted : Bool

/-- A row of `JSONBDeduplication`: an interned document and its identifier. -/
structure JSONBDeduplicationRow where
  id : Nat
  jsonb : Obj

/-- The tables written through a transaction. -/
structure Tables where
  Event : List EventRow
  LumisectionEvent : List LumisectionEventRow
  LumisectionEventAssignation : List LumisectionEventAssignationRow
  OMSLumisectionEvent : List LumisectionEventRow
  OMSLumisectionEventAssignation : List LumisectionEventAssignationRow
  RunEvent : List RunEventRow
  Run : List RunRow

/-- No row in any table. -/
def Tables.empty : Tables :=
  { Event := [], LumisectionEvent := [], LumisectionEventAssignation := [],
    OMSLumisectionEvent := [], OMSLumisectionEventAssignation := [], RunEvent := [], Run := [] }

/-- Modelled from the spec: the models and the database connection (`../models`, sequelize) are
not part of the sources.  The store holds the committed tables, the interned documents (written
outside any transaction), the next value of the version sequence (never reused, also after a
rollback) and, for every open transaction, its identifier and the rows it has written and not
yet committed. -/
structure Database where
  committed : Tables
  JSONBDeduplication : List JSONBDeduplicationRow
  nextVersion : Nat
  transactions : List (Nat × Tables)

/-- The database steps of the controllers, each of which may fail.  A failing bulk insert may
have inserted the first `inserted` rows before failing. -/
inductive DbStep where
  | transactionBegin
  | eventCreate
  | findOrCreateJSONB
  | lsEventCreate
  | bulkCreate (inserted : Nat)
  | runEventCreate
  | runProjection
  | createOfflineWaitingDatasets
  | commit
  | fillDatasetTripletCache
deriving DecidableEq

/-- The upsert `INSERT ... ON CONFLICT (run_number) DO UPDATE` of one `Run` row. -/
def upsertRun (runs : List RunRow) (row : RunRow) : List RunRow :=
  if runs.any (fun r => decide (r.run_number = row.run_number)) then
    runs.map (fun r => if r.run_number = row.run_number then row else r)
  else runs ++ [row]

/-- The tables as seen after the rows `pending` are added to `base`. -/
def Tables.append (base pending : Tables) : Tables :=
  { Event := base.Event ++ pending.Event
    LumisectionEvent := base.LumisectionEvent ++ pending.LumisectionEvent
    LumisectionEventAssignation :=
      base.LumisectionEventAssignation ++ pending.LumisectionEventAssignation
    OMSLumisectionEvent := base.OMSLumisectionEvent ++ pending.OMSLumisectionEvent
    OMSLumisectionEventAssignation :=
      base.OMSLumisectionEventAssignation ++ pending.OMSLumisectionEventAssignation
    RunEvent := base.RunEvent ++ pending.RunEvent
    Run := pending.Run.foldl upsertRun base.Run }

/-- The rows an open transaction has written so far; `none` when the transaction is not open. -/
def Database.pendingOf (db : Database) (t : Nat) : Option Tables :=
  (db.transactions.find? (fun p => decide (p.1 = t))).map Prod.snd

/-- The greatest of the numbers, 0 when there is none (`COALESCE(MAX(...), 0)`). -/
def maxOf (numbers : List Nat) : Nat := numbers.foldl max 0

/-- An identifier that no open transaction has. -/
def Database.freshTransaction (db : Database) : Nat :=
  maxOf (db.transactions.map Prod.fst) + 1

/-- The call `sequelize.transaction()`: a fresh transaction with nothing written. -/
def Database.begin (db : Database) : Nat × Database :=
  (db.freshTransaction,
    { db with transactions := db.transactions ++ [(db.freshTransaction, Tables.empty)] })

/-- A write through the open transaction `t`. -/
def Database.write (db : Database) (t : Nat) (f : Tables → Tables) : Database :=
  { db with transactions := db.transactions.map (fun p => if p.1 = t then (p.1, f p.2) else p) }

/-- The call `transaction.rollback()`: the rows written through `t` are dropped. -/
def Database.rollback (db : Database) (t : Nat) : Database :=
  { db with transactions := db.transactions.filter (fun p => decide (p.1 ≠ t)) }

/-- The call `transaction.commit()`: the rows written through `t` join the committed tables. -/
def Database.commit (db : Database) (t : Nat) : Database :=
  match db.pendingOf t with
  | none => db
  | some pending =>
    { db with
      committed := db.committed.append pending
      transactions := db.transactions.filter (fun p => decide (p.1 ≠ t)) }

/-- The tables a statement sees inside transaction `t`: the committed rows and its own. -/
def Database.view (db : Database) (t : Nat) : Tables :=
  match db.pendingOf t with
  | none => db.committed
  | some pending => db.committed.append pending

/-- Modelled from the spec: `findOrCreateJSONB` (`./JSONBDeduplication`) is not part of the
sources.  It interns a document: the stored row of a document deep-equal to it, or a new row with
a fresh identifier.  The result is the row and the table afterwards. -/
def internDocument (documents : List JSONBDeduplicationRow) (document : Obj) :
    JSONBDeduplicationRow × List JSONBDeduplicationRow :=
  match documents.find? (fun row => deepEqual row.jsonb document) with
  | some row => (row, documents)
  | none =>
    let row : JSONBDeduplicationRow :=
      { id := maxOf (documents.map (fun r => r.id)) + 1, jsonb := document }
    (row, documents ++ [row])

/-- The call `findOrCreateJSONB(document)`: it is made without a transaction, so it writes the
table of interned documents directly. -/
def findOrCreateJSONB (db : Database) (document : Obj) : JSONBDeduplicationRow × Database :=
  ((internDocument db.JSONBDeduplication document).1,
    { db with JSONBDeduplication := (internDocument db.JSONBDeduplication document).2 })

/-! ## Requests -/

/-- An incoming request: the properties `req.email` and `req.comment` set by the caller, and the
headers read by `req.get(name)`; `none` stands for `undefined`. -/
structure Request where
  email : Option String
  comment : Option String
  headers : List (String × String)

/-- The call `req.get(name)`. -/
def Request.get (req : Request) (name : String) : Option String :=
  (req.headers.find? (fun h => decide (h.1 = name))).map Prod.snd

/-- The truthiness of a string-or-undefined value: `undefined` and the empty string are falsy. -/
def truthy : Option String → Bool
  | some s => decide (s ≠ "")
  | none => false

/-- The expression `a || b`. -/
def jsOr (a b : Option String) : Option String := if truthy a then a else b

/-- The message thrown when the request names no actor. -/
def missingActorMessage : String :=
  "The email of the author\x27s action should be stated in request\x27s header \x27email\x27"

/-! ## `update_or_create_lumisection` -/

/-- The pair of models `LSEvent`, `LSEventAssignation` a caller passes: the run-registry tables
(`LumisectionEvent`, `LumisectionEventAssignation`) or the OMS ones. -/
inductive LSModels where
  | rr
  | oms
deriving DecidableEq

/-- The rows of the event table behind `LSEvent`. -/
def LSModels.events (m : LSModels) (tables : Tables) : List LumisectionEventRow :=
  match m with
  | .rr => tables.LumisectionEvent
  | .oms => tables.OMSLumisectionEvent

/-- The rows of the assignment table behind `LSEventAssignation`. -/
def LSModels.assignations (m : LSModels) (tables : Tables) :
    List LumisectionEventAssignationRow :=
  match m with
  | .rr => tables.LumisectionEventAssignation
  | .oms => tables.OMSLumisectionEventAssignation

/-- The call `LSEvent.create(row)`. -/
def LSModels.insertEvent (m : LSModels) (row : LumisectionEventRow) (tables : Tables) : Tables :=
  match m with
  | .rr => { tables with LumisectionEvent := tables.LumisectionEvent ++ [row] }
  | .oms => { tables with OMSLumisectionEvent := tables.OMSLumisectionEvent ++ [row] }

/-- The call `LSEventAssignation.bulkCreate(rows)`. -/
def LSModels.insertAssignations (m : LSModels) (rows : List LumisectionEventAssignationRow)
    (tables : Tables) : Tables :=
  match m with
  | .rr =>
    { tables with LumisectionEventAssignation := tables.LumisectionEventAssignation ++ rows }
  | .oms =>
    { tables with
      OMSLumisectionEventAssignation := tables.OMSLumisectionEventAssignation ++ rows }

/-- The slice numbers visited by `for (let i = start; i <= end; i++)`. -/
def sliceNumbers (start_lumisection end_lumisection : Int) : List Int :=
  (List.range (end_lumisection - start_lumisection + 1).toNat).map
    (fun (k : Nat) => start_lumisection + (k : Int))

/-- The array `lumisection_entries` built by the loop of `update_or_create_lumisection`. -/
def lumisection_entries (version : Nat) (start_lumisection end_lumisection : Int) :
    List LumisectionEventAssignationRow :=
  (sliceNumbers start_lumisection end_lumisection).map
    (fun i => { version := version, lumisection_number := i })

/-- The body of the `try` block of `update_or_create_lumisection` after the transaction `t` is
known; `none` in the first component means that a step threw.  A step throws when its failure is
injected; the first write also throws when `t` is not an open transaction. -/
def lumisectionTry (run_number : Int) (dataset_name : String) (lumisection_metadata : Obj)
    (start_lumisection end_lumisection : Int) (by_ : String) (comment : Option String)
    (LSEvent : LSModels) (t : Nat) (local_transaction : Bool) (fault : Option DbStep)
    (db : Database) : Option LumisectionEventRow × Database :=
  let version := db.nextVersion
  let db0 : Database := { db with nextVersion := db.nextVersion + 1 }
  if fault = some .eventCreate ∨ (db.pendingOf t).isNone then (none, db0)
  else
    let db1 := db0.write t
      (fun tables =>
        { tables with
          Event := tables.Event ++ [{ version := version, by_ := by_, comment := comment }] })
    if fault = some .findOrCreateJSONB then (none, db1)
    else
      let deduplicated_jsonb := (findOrCreateJSONB db1 lumisection_metadata).1
      let db2 := (findOrCreateJSONB db1 lumisection_metadata).2
      let lumisectionEvent : LumisectionEventRow :=
        { run_number := run_number, name := dataset_name,
          lumisection_metadata_id := deduplicated_jsonb.id, version := version }
      if fault = some .lsEventCreate then (none, db2)
      else
        let db3 := db2.write t (LSEvent.insertEvent lumisectionEvent)
        let lumisection_entries :=
          lumisection_entries version start_lumisection end_lumisection
        match fault with
        | some (.bulkCreate inserted) =>
          (none, db3.write t (LSEvent.insertAssignations (lumisection_entries.take inserted)))
        | _ =>
          let db4 := db3.write t (LSEvent.insertAssignations lumisection_entries)
          if local_transaction then
            if fault = some .commit then (none, db4)
            else (some lumisectionEvent, db4.commit t)
          else (some lumisectionEvent, db4)

/-- The function `update_or_create_lumisection`.  The arguments `LSEvent` and
`LSEventAssignation` are the one argument `LSEvent`; `transaction = none` stands for an
`undefined` transaction; `fault` names the database step that fails, if any. -/
def update_or_create_lumisection (run_number : Int) (dataset_name : String)
    (lumisection_metadata : Obj) (start_lumisection end_lumisection : Int) (req : Request)
    (LSEvent : LSModels) (transaction : Option Nat) (fault : Option DbStep) (db : Database) :
    Completion LumisectionEventRow × Database :=
  let by_ := jsOr req.email (req.get "email")
  let comment := jsOr req.comment (req.get "comment")
  match by_ with
  | none => (.threw missingActorMessage, db)
  | some author =>
    if author = "" then (.threw missingActorMessage, db)
    else
      let message := "Error updating/saving dataset " ++ dataset_name ++ " of run " ++
        toString run_number ++ " lumisections"
      match transaction with
      | none =>
        if fault = some .transactionBegin then
          (.threw "TypeError: cannot read property rollback of undefined", db)
        else
          let (t, db0) := db.begin
          match lumisectionTry run_number dataset_name lumisection_metadata start_lumisection
              end_lumisection author comment LSEvent t true fault db0 with
          | (some lumisectionEvent, db1) => (.returned lumisectionEvent, db1)
          | (none, db1) => (.threw message, db1.rollback t)
      | some t =>
        match lumisectionTry run_number dataset_name lumisection_metadata start_lumisection
            end_lumisection author comment LSEvent t false fault db with
        | (some lumisectionEvent, db1) => (.returned lumisectionEvent, db1)
        | (none, db1) => (.threw message, db1)


/-- The tables an operation wrote to, as its transaction shows them: the committed tables when
the operation ran in a transaction of its own (committed by now), the view of the transaction of
the caller otherwise. -/
def Database.visible (db : Database) (transaction : Option Nat) : Tables :=
  match transaction with
  | none => db.committed
  | some t => db.view t

/-- The committed tables and every open transaction are as before: nothing written through a
transaction since `before` is left, neither committed nor pending. -/
def Undone (before after : Database) : Prop :=
  after.committed = before.committed ∧ after.transactions = before.transactions

/-- Outside transaction `t` nothing changed: the committed tables and every other open
transaction are as before. -/
def SameOutside (t : Nat) (before after : Database) : Prop :=
  after.committed = before.committed ∧
  after.transactions.filter (fun p => decide (p.1 ≠ t)) =
    before.transactions.filter (fun p => decide (p.1 ≠ t))

/-- The four database steps of `update_or_create_lumisection` between the actor check and the
commit. -/
def lumisectionSteps (inserted : Nat) : List DbStep :=
  [.eventCreate, .findOrCreateJSONB, .lsEventCreate, .bulkCreate inserted]

/-- A request that names the actor `a@cern.ch` in its `email` header. -/
def sampleRequest : Request :=
  { email := none, comment := none, headers := [("email", "a@cern.ch")] }

/-- A request that names no actor. -/
def anonymousRequest : Request := { email := none, comment := none, headers := [] }

/-- An empty store whose next version is 7. -/
def emptyStore : Database :=
  { committed := Tables.empty, JSONBDeduplication := [], nextVersion := 7, transactions := [] }

/-! ## The merged query of `get_lumisections_for_dataset` -/

/-- Modelled from the spec: the operator `||` on two `jsonb` documents, the step function of the
aggregate `mergejsonb` (defined in the database schema, not part of the sources).  The result
has the keys of both documents; under a key of both, the value of the right one. -/
def jsonbConcat (left right : Obj) : Obj :=
  left.filter (fun kv => decide (kv.1 ∉ keysOf right)) ++ right

/-- Modelled from the spec: the aggregate `mergejsonb(doc ORDER BY version)` over documents given
in ascending version order: last write wins per key, a later document overwrites only the keys
it specifies. -/
def mergejsonb (documents : List Obj) : Obj := documents.foldl jsonbConcat []

/-- A row of the inner `SELECT` of the merged query (`updated_lumisectionEvents`). -/
structure UpdatedLumisectionEvent where
  version : Nat
  lumisection_metadata : Obj
  lumisection_number : Int

/-- The inner `SELECT`: `LumisectionEvent` joined with `LumisectionEventAssignation` on the
version and with `JSONBDeduplication` on the document identifier, for one run and dataset. -/
def updated_lumisectionEvents (tables : Tables) (documents : List JSONBDeduplicationRow)
    (run_number : Int) (name : String) : List UpdatedLumisectionEvent :=
  (tables.LumisectionEvent.filter
      (fun e => decide (e.name = name) && decide (e.run_number = run_number))).flatMap
    (fun e =>
      (tables.LumisectionEventAssignation.filter
          (fun a => decide (a.version = e.version))).flatMap
        (fun a =>
          (documents.filter (fun d => decide (d.id = e.lumisection_metadata_id))).map
            (fun d =>
              { version := e.version, lumisection_metadata := d.jsonb,
                lumisection_number := a.lumisection_number })))

/-- The documents of one slice in ascending version order, as the aggregate receives them. -/
def documentsOfSlice (rows : List UpdatedLumisectionEvent) (n : Int) : List Obj :=
  ((rows.filter (fun r => decide (r.lumisection_number = n))).insertionSort
      (fun a b => a.version ≤ b.version)).map (fun r => r.lumisection_metadata)

/-- The merged query: one row per slice number (`GROUP BY`), in ascending order of slice number
(`ORDER BY`), with the documents of the slice merged in ascending version order. -/
def merged_lumisections (tables : Tables) (documents : List JSONBDeduplicationRow)
    (run_number : Int) (name : String) : List MergedRow :=
  let rows := updated_lumisectionEvents tables documents run_number name
  (((rows.map (fun r => r.lumisection_number)).dedup).insertionSort (fun a b => a ≤ b)).map
    (fun n => { lumisection_number := n, triplets := mergejsonb (documentsOfSlice rows n) })

/-- The function `get_lumisections_for_dataset(run_number, name)` on the committed tables. -/
def get_lumisections_for_dataset (db : Database) (run_number : Int) (name : String) :
    Completion (List (Option Obj)) :=
  fillGaps (merged_lumisections db.committed db.JSONBDeduplication run_number name)

/-! ## `update_or_create_run` -/

/-- The rows the projection statement of `update_or_create_run` upserts into `Run`: for every run
number with a `RunEvent` newer than the newest `Run` row, the metadata of all its events merged in
ascending version order. -/
def runProjectionRows (view : Tables) : List RunRow :=
  let updated_runnumbers :=
    ((view.RunEvent.filter
        (fun e => decide (e.version > maxOf (view.Run.map (fun r => r.version))))).map
      (fun e => e.run_number)).dedup
  let updated_runs := view.RunEvent.filter (fun e => decide (e.run_number ∈ updated_runnumbers))
  let deleted :=
    ((view.RunEvent.find?
        (fun e => decide (e.version = maxOf (updated_runs.map (fun e => e.version))))).map
      (fun e => e.deleted)).getD false
  updated_runnumbers.map
    (fun n =>
      let events := (updated_runs.filter (fun e => decide (e.run_number = n))).insertionSort
        (fun a b => a.version ≤ b.version)
      { run_number := n
        rr_attributes := mergejsonb (events.map (fun e => e.rr_metadata))
        oms_attributes := mergejsonb (events.map (fun e => e.oms_metadata))
        deleted := deleted
        version := maxOf (view.RunEvent.map (fun e => e.version)) })

/-- The body of the `try` block of `update_or_create_run` after the transaction `t` is known;
`none` in the first component means that a step threw.  A step throws when its failure is
injected; the first write also throws when `t` is not an open transaction. -/
def runTry (run_number : Int) (oms_metadata rr_metadata : Obj) (by_ : String)
    (comment : Option String) (t : Nat) (local_transaction : Bool) (fault : Option DbStep)
    (db : Database) : Option RunEventRow × Database :=
  let version := db.nextVersion
  let db0 : Database := { db with nextVersion := db.nextVersion + 1 }
  if fault = some .eventCreate ∨ (db.pendingOf t).isNone then (none, db0)
  else
    let db1 := db0.write t
      (fun tables =>
        { tables with
          Event := tables.Event ++ [{ version := version, by_ := by_, comment := comment }] })
    let runEvent : RunEventRow :=
      { run_number := run_number, oms_metadata := oms_metadata, rr_metadata := rr_metadata,
        version := version, deleted := false }
    if fault = some .runEventCreate then (none, db1)
    else
      let db2 := db1.write t
        (fun tables => { tables with RunEvent := tables.RunEvent ++ [runEvent] })
      if fault = some .runProjection then (none, db2)
      else
        let db3 := db2.write t
          (fun tables => { tables with Run := tables.Run ++ runProjectionRows (db2.view t) })
        if local_transaction then
          if fault = some .commit then (none, db3)
          else (some runEvent, db3.commit t)
        else (some runEvent, db3)

/-- The function `update_or_create_run`; `transaction = none` stands for an `undefined`
transaction, `fault` names the database step that fails, if any. -/
def update_or_create_run (run_number : Int) (oms_metadata rr_metadata : Obj) (req : Request)
    (transaction : Option Nat) (fault : Option DbStep) (db : Database) :
    Completion RunEventRow × Database :=
  let by_ := jsOr req.email (req.get "email")
  let comment := jsOr req.comment (req.get "comment")
  match by_ with
  | none => (.threw missingActorMessage, db)
  | some author =>
    if author = "" then (.threw missingActorMessage, db)
    else
      let message := "Error updating/saving run " ++ toString run_number
      match transaction with
      | none =>
        if fault = some .transactionBegin then
          (.threw "TypeError: cannot read property rollback of undefined", db)
        else
          let (t, db0) := db.begin
          match runTry run_number oms_metadata rr_metadata author comment t true fault db0 with
          | (some runEvent, db1) => (.returned runEvent, db1)
          | (none, db1) => (.threw message, db1.rollback t)
      | some t =>
        match runTry run_number oms_metadata rr_metadata author comment t false fault db with
        | (some runEvent, db1) => (.returned runEvent, db1)
        | (none, db1) => (.threw message, db1)

/-! ## `moveRun` -/

/-- Whether the characters `s` start with the characters `p`. -/
def startsWithChars : List Char → List Char → Bool
  | _, [] => true
  | [], _ :: _ => false
  | c :: s, d :: p => decide (c = d) && startsWithChars s p

/-- Whether the characters `p` occur in `s` as a contiguous run. -/
def includesChars : List Char → List Char → Bool
  | [], p => p.isEmpty
  | c :: s, p => startsWithChars (c :: s) p || includesChars s p

/-- The call `s.includes(p)` on strings. -/
def stringIncludes (s p : String) : Bool := includesChars s.toList p.toList

/-- The characters of `s` before the first occurrence of `p` (all of `s` when there is none). -/
def charsBefore : List Char → List Char → List Char
  | [], _ => []
  | c :: s, p => if startsWithChars (c :: s) p then [] else c :: charsBefore s p

/-- The expression `s.split(p)[0]`. -/
def splitFirst (s p : String) : String := String.mk (charsBefore s.toList p.toList)

/-- The property read `value.status`: the property of an object, `undefined` on any other value
except `null`, on which the read throws a `TypeError`. -/
def statusOf : JVal → Completion (Option JVal)
  | .obj o => .returned (getProp o "status")
  | .null => .threw "TypeError: cannot read property status of null"
  | _ => .returned none

/-- The comparison `status === 'NO VALUE FOUND' || status === ''`. -/
def statusIsEmpty : Option JVal → Bool
  | some (.str s) => decide (s = "NO VALUE FOUND") || decide (s = "")
  | _ => false

/-- The loop of `moveRun` over `Object.entries(rr_attributes)`; the first throw ends it. -/
def tripletCheck (to_state : String) : Obj → Completion Unit
  | [] => .returned ()
  | (run_property, value) :: rest =>
    if stringIncludes run_property "_triplet" then
      if to_state = "SIGNOFF" then
        match statusOf value with
        | .threw e => .threw e
        | .returnedUndefined => .returnedUndefined
        | .returned status =>
          if statusIsEmpty status then
            .threw ("The status of " ++ splitFirst run_property "_triplet" ++
              " must not be empty")
          else tripletCheck to_state rest
      else tripletCheck to_state rest
    else tripletCheck to_state rest

/-- The strict comparison `property === s` of a property read with a string. -/
def isString (property : Option JVal) (s : String) : Bool :=
  match property with
  | some (.str s') => decide (s' = s)
  | _ => false

/-- The validation of `moveRun` that reads the run: the state test, the triplet loop and the
class test, in this order. -/
def moveRunChecks (to_state : String) (rr_attributes : Obj) : Completion Unit :=
  if isString (getProp rr_attributes "state") to_state then
    .threw ("Run\x27s state is already in state " ++ to_state)
  else
    match tripletCheck to_state rr_attributes with
    | .threw e => .threw e
    | .returnedUndefined => .returnedUndefined
    | .returned _ =>
      if isString (getProp rr_attributes "class") "" then
        .threw "The class of run must not be empty "
      else .returned ()

/-- The call `Run.findByPk(run_number)` on the committed tables; `none` stands for `null`. -/
def findByPk (db : Database) (run_number : Int) : Option RunRow :=
  db.committed.Run.find? (fun r => decide (r.run_number = run_number))

/-- The body of the `try` block of `moveRun` after its transaction `t` is open.  The helpers
`create_offline_waiting_datasets` and `fill_dataset_triplet_cache` are not part of the sources and
write tables outside this development: each is a step that may fail. -/
def moveRunTry (to_state : String) (run_number : Int) (req : Request) (t : Nat)
    (fault : Option DbStep) (db : Database) : Option RunRow × Database :=
  match update_or_create_run run_number [] [("state", .str to_state)] req (some t) fault db with
  | (.returned _, db1) =>
    if (to_state = "SIGNOFF" ∨ to_state = "COMPLETED") ∧
        fault = some .createOfflineWaitingDatasets then (none, db1)
    else if fault = some .commit then (none, db1)
    else
      let db2 := db1.commit t
      if fault = some .fillDatasetTripletCache then (none, db2)
      else
        match findByPk db2 run_number with
        | some saved_run => (some saved_run, db2)
        | none => (none, db2)
  | (_, db1) => (none, db1)

/-- The handler `moveRun` for the target state `to_state` and the run `run_number` of the
request body; the response sent with `res.json` is the value returned. -/
def moveRun (to_state : String) (run_number : Int) (req : Request) (fault : Option DbStep)
    (db : Database) : Completion RunRow × Database :=
  if !(["SIGNOFF", "OPEN", "COMPLETED"].contains to_state) then
    (.threw "The final state must be SIGNOFF, OPEN OR COMPLETED, no other option is valid", db)
  else
    match findByPk db run_number with
    | none => (.threw "TypeError: cannot read property rr_attributes of null", db)
    | some run =>
      match moveRunChecks to_state run.rr_attributes with
      | .threw e => (.threw e, db)
      | .returnedUndefined => (.returnedUndefined, db)
      | .returned _ =>
        if fault = some .transactionBegin then
          (.threw "TypeError: cannot read property rollback of undefined", db)
        else
          let (t, db0) := db.begin
          match moveRunTry to_state run_number req t fault db0 with
          | (some saved_run, db1) => (.returned saved_run, db1)
          | (none, db1) =>
            (.threw "Error SIGNING OFF run, creating the datasets from run in OFFLINE",
              db1.rollback t)

/-! ## The `create_*_lumisections` functions -/

/-- The arguments of one call of `update_or_create_lumisection` issued by a `create_*` function:
the stored document, the two slice bounds as read from the range, and the pair of models. -/
structure LumisectionCall where
  lumisection_metadata : Obj
  start_lumisection : Option JVal
  end_lumisection : Option JVal
  LSEvent : LSModels

/-- The callback mapped over `lumisection_ranges`: `start` and `end` are read from the range, the
document is the range with both deleted. -/
def rangeCalls (LSEvent : LSModels) (lumisection_ranges : List Obj) : List LumisectionCall :=
  lumisection_ranges.map
    (fun lumisection_range =>
      { lumisection_metadata := rangeValues lumisection_range
        start_lumisection := getProp lumisection_range "start"
        end_lumisection := getProp lumisection_range "end"
        LSEvent := LSEvent })

/-- The calls issued by `create_oms_lumisections`; the whitelist `oms_lumisection_whitelist`
comes from the configuration, which is not part of the sources. -/
def create_oms_lumisections (lumisections : List Obj) (oms_lumisection_whitelist : List String) :
    List LumisectionCall :=
  rangeCalls .oms (getLumisectionRanges lumisections oms_lumisection_whitelist)

/-- The calls issued by `create_rr_lumisections`; the whitelist `rr_lumisection_whitelist` comes
from the configuration. -/
def create_rr_lumisections (lumisections : List Obj) (rr_lumisection_whitelist : List String) :
    List LumisectionCall :=
  rangeCalls .rr (getLumisectionRanges lumisections rr_lumisection_whitelist)

/-- The calls issued by `create_signed_off_dataset_lumisections`, whose whitelist is the star. -/
def create_signed_off_dataset_lumisections (lumisections : List Obj) : List LumisectionCall :=
  rangeCalls .rr (getLumisectionRanges lumisections ["*"])

/-- The slice numbers one issued call assigns: the loop of `update_or_create_lumisection` over
its numeric bounds. -/
def callSlices (call : LumisectionCall) : List Int :=
  match call.start_lumisection, call.end_lumisection with
  | some (.num s), some (.num e) => sliceNumbers s e
  | _, _ => []

/-! ## Sample stores -/

/-- A store with two lumisection events on dataset `online` of run 1: version 5 writes
`{dt: GOOD, csc: BAD}` to the slices 2 and 3, version 6 writes `{dt: BAD}` to the slices 3
and 5. -/
def sampleStore : Database :=
  { committed :=
      { Tables.empty with
        LumisectionEvent :=
          [{ run_number := 1, name := "online", lumisection_metadata_id := 1, version := 5 },
           { run_number := 1, name := "online", lumisection_metadata_id := 2, version := 6 }]
        LumisectionEventAssignation :=
          [{ version := 5, lumisection_number := 2 }, { version := 5, lumisection_number := 3 },
           { version := 6, lumisection_number := 3 }, { version := 6, lumisection_number := 5 }] }
    JSONBDeduplication :=
      [{ id := 1, jsonb := [("dt", triplet "GOOD"), ("csc", triplet "BAD")] },
       { id := 2, jsonb := [("dt", triplet "BAD")] }]
    nextVersion := 7
    transactions := [] }

/-- A store whose only event, version 5, writes the document `{a: 5}`, with a number for a
value, to slice 1. -/
def scalarStore : Database :=
  { committed :=
      { Tables.empty with
        LumisectionEvent :=
          [{ run_number := 1, name := "online", lumisection_metadata_id := 1, version := 5 }]
        LumisectionEventAssignation := [{ version := 5, lumisection_number := 1 }] }
    JSONBDeduplication := [{ id := 1, jsonb := [("a", .num 5)] }]
    nextVersion := 6
    transactions := [] }

/-- A store whose only event, version 5, writes `{dt: GOOD}` to the slices 0 and 1. -/
def sliceZeroStore : Database :=
  { committed :=
      { Tables.empty with
        LumisectionEvent :=
          [{ run_number := 1, name := "online", lumisection_metadata_id := 1, version := 5 }]
        LumisectionEventAssignation :=
          [{ version := 5, lumisection_number := 0 }, { version := 5, lumisection_number := 1 }] }
    JSONBDeduplication := [{ id := 1, jsonb := [("dt", triplet "GOOD")] }]
    nextVersion := 6
    transactions := [] }

/-- The reading of C13 as stated: the entry at the position of every merged row has exactly the
components present as keys, with the merged document's value under every key the document has
and the empty triplet under every key it lacks. -/
def KeepsMergedValues (rows : List MergedRow) (out : List (Option Obj)) : Prop :=
  ∀ row ∈ rows, ∀ n : Nat, 1 ≤ n → row.lumisection_number = (n : Int) →
    ∃ e, out[n - 1]? = some (some e) ∧
      ∀ k, getProp e k =
        if k ∈ componentsPresent rows then
          (match getProp row.triplets k with
           | some v => some v
           | none => some emptyTriplet)
        else none

/-- What the code does: the entry at the position of every merged row has exactly the components
present as keys, with the merged document's value under every key whose value is of type object
(an object, an array or `null`) and the empty triplet under every other key (absent from the
document, or holding a boolean, a number or a string). -/
def KeepsObjectValues (rows : List MergedRow) (out : List (Option Obj)) : Prop :=
  ∀ row ∈ rows, ∀ n : Nat, 1 ≤ n → row.lumisection_number = (n : Int) →
    ∃ e, out[n - 1]? = some (some e) ∧
      ∀ k, getProp e k =
        if k ∈ componentsPresent rows then
          (if typeofIsObject (getProp row.triplets k) then getProp row.triplets k
           else some emptyTriplet)
        else none

/-- A `_triplet` attribute value whose status is `'NO VALUE FOUND'` or `''`. -/
def tripletStatusEmpty : JVal → Bool
  | .obj o => statusIsEmpty (getProp o "status")
  | _ => false

/-- The four conditions under which C18 has `moveRun` reject a request: the target state is not
one of the three states; the run is in the target state already; the target state is `SIGNOFF`
and some attribute whose name contains `_triplet` has status `'NO VALUE FOUND'` or `''`; the
class of the run is the empty string. -/
def MoveRunRejects (to_state : String) (rr_attributes : Obj) : Prop :=
  to_state ∉ ["SIGNOFF", "OPEN", "COMPLETED"] ∨
  isString (getProp rr_attributes "state") to_state = true ∨
  (to_state = "SIGNOFF" ∧ ∃ kv ∈ rr_attributes,
    stringIncludes kv.1 "_triplet" = true ∧ tripletStatusEmpty kv.2 = true) ∨
  isString (getProp rr_attributes "class") "" = true

/-- No attribute whose name contains `_triplet` is `null`. -/
def NoNullTriplets (rr_attributes : Obj) : Prop :=
  ∀ kv ∈ rr_attributes, stringIncludes kv.1 "_triplet" = true → kv.2 ≠ .null

/-- A store with the run 5, in state `OPEN`, of class `Cosmics`, with a good `dt_triplet`,
written by the one run event of version 7. -/
def runStore : Database :=
  { committed :=
      { Tables.empty with
        Event := [{ version := 7, by_ := "a@cern.ch", comment := none }]
        RunEvent :=
          [{ run_number := 5, oms_metadata := [],
             rr_metadata := [("state", .str "OPEN"), ("class", .str "Cosmics"),
               ("dt_triplet", triplet "GOOD")],
             version := 7, deleted := false }]
        Run :=
          [{ run_number := 5,
             rr_attributes := [("state", .str "OPEN"), ("class", .str "Cosmics"),
               ("dt_triplet", triplet "GOOD")],
             oms_attributes := [], deleted := false, version := 7 }] }
    JSONBDeduplication := []
    nextVersion := 8
    transactions := [] }

/-- The row of the run 5 in `runStore`. -/
def runRow : RunRow :=
  { run_number := 5,
    rr_attributes := [("state", .str "OPEN"), ("class", .str "Cosmics"),
      ("dt_triplet", triplet "GOOD")],
    oms_attributes := [], deleted := false, version := 7 }

/-- The initial loop variables of the gap-filling loop: an empty array and the cursor 0. -/
def gapStart : GapState :=
  { lumisections_with_empty_wholes := [], current_merged_lumisection_element := 0 }

/-- Merged rows for the slices 2, 3 and 5. -/
def sampleRows : List MergedRow :=
  [{ lumisection_number := 2, triplets := [("dt", triplet "GOOD")] },
   { lumisection_number := 3, triplets := [("dt", triplet "BAD")] },
   { lumisection_number := 5, triplets := [("csc", triplet "GOOD")] }]

/-- Invariant of the loop of `getNewLumisectionRanges` once a range is open, after the indices
below `i`: the first range starts at 1, each further range starts right after the end of the one
before it, every closed range has `start ≤ end`, and the open (last) range starts at most at
`i`. -/
def OpenPartition (R : List Obj) (i : Nat) : Prop :=
  ∃ init opn, R = init ++ [opn] ∧
    (∃ r, R.head? = some r ∧ getProp r "start" = some (.num 1)) ∧
    List.Chain' (fun r r' => ∃ e : Int,
      getProp r "end" = some (.num e) ∧ getProp r' "start" = some (.num (e + 1))) R ∧
    (∀ r ∈ init, ∃ s e : Int,
      getProp r "start" = some (.num s) ∧ getProp r "end" = some (.num e) ∧ s ≤ e) ∧
    ∃ s : Int, getProp opn "start" = some (.num s) ∧ s ≤ (i : Int)

/-! ## Object lemmas -/

theorem getProp_nil (k : String) : getProp [] k = none := rfl

theorem getProp_cons (k0 : String) (w : JVal) (rest : Obj) (k : String) :
    getProp ((k0, w) :: rest) k = if k = k0 then some w else getProp rest k := rfl

theorem keysOf_cons (k0 : String) (w : JVal) (rest : Obj) :
    keysOf ((k0, w) :: rest) = k0 :: keysOf rest := rfl

theorem deleteProp_nil (k : String) : deleteProp [] k = [] := rfl

theorem deleteProp_cons (k0 : String) (w : JVal) (rest : Obj) (k : String) :
    deleteProp ((k0, w) :: rest) k =
      if k0 = k then deleteProp rest k else (k0, w) :: deleteProp rest k := by
  by_cases h : k0 = k <;> simp [deleteProp, List.filter_cons, h]

theorem overrideProp_cons (k0 : String) (w : JVal) (rest : Obj) (k : String) (v : JVal) :
    overrideProp ((k0, w) :: rest) k v =
      if k0 = k then (k, v) :: overrideProp rest k v else (k0, w) :: overrideProp rest k v := by
  by_cases h : k0 = k <;> simp [overrideProp, h]

theorem setProp_eq (o : Obj) (k : String) (v : JVal) :
    setProp o k v = if k ∈ keysOf o then overrideProp o k v else o ++ [(k, v)] := rfl

theorem getProp_eq_none_iff (o : Obj) (k : String) : getProp o k = none ↔ k ∉ keysOf o := by
  induction o with
  | nil => simp [getProp_nil, keysOf]
  | cons kv rest ih =>
    obtain ⟨k', w⟩ := kv
    rw [getProp_cons, keysOf_cons]
    by_cases h : k = k'
    · simp [h]
    · simp [h, ih]

theorem getProp_overrideProp (o : Obj) (k k' : String) (v : JVal) :
    getProp (overrideProp o k v) k' =
      if k' = k then (if k ∈ keysOf o then some v else none) else getProp o k' := by
  induction o with
  | nil => simp [overrideProp, getProp_nil, keysOf]
  | cons kv rest ih =>
    obtain ⟨k0, w⟩ := kv
    rw [overrideProp_cons, keysOf_cons]
    by_cases h0 : k0 = k
    · subst h0
      rw [if_pos rfl, getProp_cons, getProp_cons]
      by_cases h : k' = k0
      · simp [h]
      · simp [h, ih]
    · rw [if_neg h0, getProp_cons, getProp_cons, ih]
      by_cases h : k' = k
      · subst h
        have h1 : ¬ k' = k0 := fun e => h0 e.symm
        simp [h1]
      · by_cases h2 : k' = k0
        · subst h2; simp [h]
        · simp [h, h2]

theorem getProp_append (o o' : Obj) (k : String) :
    getProp (o ++ o') k = (getProp o k).orElse (fun _ => getProp o' k) := by
  induction o with
  | nil => simp [getProp_nil]
  | cons kv rest ih =>
    obtain ⟨k0, w⟩ := kv
    rw [List.cons_append, getProp_cons, getProp_cons]
    by_cases h : k = k0
    · simp [h]
    · simp [h, ih]

theorem getProp_setProp_same (o : Obj) (k : String) (v : JVal) :
    getProp (setProp o k v) k = some v := by
  rw [setProp_eq]
  by_cases h : k ∈ keysOf o
  · rw [if_pos h, getProp_overrideProp]; simp [h]
  · rw [if_neg h, getProp_append, (getProp_eq_none_iff o k).2 h]
    simp [getProp_cons]

theorem getProp_setProp_ne (o : Obj) (k k' : String) (v : JVal) (h : k' ≠ k) :
    getProp (setProp o k v) k' = getProp o k' := by
  rw [setProp_eq]
  by_cases hm : k ∈ keysOf o
  · rw [if_pos hm, getProp_overrideProp]; simp [h]
  · rw [if_neg hm, getProp_append]
    cases hg : getProp o k' <;> simp [getProp_cons, getProp_nil, h]

theorem deleteProp_overrideProp (o : Obj) (k : String) (v : JVal) :
    deleteProp (overrideProp o k v) k = deleteProp o k := by
  induction o with
  | nil => rfl
  | cons kv rest ih =>
    obtain ⟨k0, w⟩ := kv
    rw [overrideProp_cons]
    by_cases h0 : k0 = k
    · rw [if_pos h0, deleteProp_cons, deleteProp_cons, if_pos rfl, if_pos h0, ih]
    · rw [if_neg h0, deleteProp_cons, deleteProp_cons, if_neg h0, if_neg h0, ih]

theorem deleteProp_append (o o' : Obj) (k : String) :
    deleteProp (o ++ o') k = deleteProp o k ++ deleteProp o' k := by
  simp [deleteProp]

theorem deleteProp_setProp_same (o : Obj) (k : String) (v : JVal) :
    deleteProp (setProp o k v) k = deleteProp o k := by
  rw [setProp_eq]
  by_cases h : k ∈ keysOf o
  · rw [if_pos h]; exact deleteProp_overrideProp o k v
  · rw [if_neg h, deleteProp_append, deleteProp_cons, if_pos rfl, deleteProp_nil, List.append_nil]

theorem mem_keysOf_deleteProp (o : Obj) (k k' : String) :
    k ∈ keysOf (deleteProp o k') ↔ k ∈ keysOf o ∧ k ≠ k' := by
  induction o with
  | nil => simp [deleteProp_nil, keysOf]
  | cons kv rest ih =>
    obtain ⟨k0, w⟩ := kv
    rw [deleteProp_cons, keysOf_cons]
    by_cases h0 : k0 = k'
    · rw [if_pos h0, ih]
      subst h0
      constructor
      · rintro ⟨h1, h2⟩; exact ⟨List.mem_cons_of_mem _ h1, h2⟩
      · rintro ⟨h1, h2⟩
        rcases List.mem_cons.1 h1 with h3 | h3
        · exact absurd h3 h2
        · exact ⟨h3, h2⟩
    · rw [if_neg h0, keysOf_cons, List.mem_cons, List.mem_cons, ih]
      constructor
      · rintro (h1 | ⟨h1, h2⟩)
        · exact ⟨Or.inl h1, h1 ▸ h0⟩
        · exact ⟨Or.inr h1, h2⟩
      · rintro ⟨h1 | h1, h2⟩
        · exact Or.inl h1
        · exact Or.inr ⟨h1, h2⟩

theorem deleteProp_overrideProp_ne (o : Obj) (k k' : String) (v : JVal) (h : k ≠ k') :
    deleteProp (overrideProp o k v) k' = overrideProp (deleteProp o k') k v := by
  induction o with
  | nil => rfl
  | cons kv rest ih =>
    obtain ⟨k0, w⟩ := kv
    rw [overrideProp_cons, deleteProp_cons]
    by_cases h0 : k0 = k
    · have h1 : ¬ k0 = k' := fun e => h (h0.symm.trans e)
      rw [if_pos h0, if_neg h1, deleteProp_cons, if_neg h, overrideProp_cons, if_pos h0, ih]
    · rw [if_neg h0, deleteProp_cons]
      by_cases h1 : k0 = k'
      · rw [if_pos h1, if_pos h1, ih]
      · rw [if_neg h1, if_neg h1, overrideProp_cons, if_neg h0, ih]

theorem deleteProp_setProp_ne (o : Obj) (k k' : String) (v : JVal) (h : k ≠ k') :
    deleteProp (setProp o k v) k' = setProp (deleteProp o k') k v := by
  rw [setProp_eq, setProp_eq]
  have hk : k ∈ keysOf (deleteProp o k') ↔ k ∈ keysOf o := by
    rw [mem_keysOf_deleteProp]; exact ⟨fun x => x.1, fun x => ⟨x, h⟩⟩
  by_cases hm : k ∈ keysOf o
  · rw [if_pos hm, if_pos (hk.2 hm)]
    exact deleteProp_overrideProp_ne o k k' v h
  · rw [if_neg hm, if_neg (fun x => hm (hk.1 x)), deleteProp_append, deleteProp_cons, if_neg h,
      deleteProp_nil]

theorem deleteProp_eq_self (o : Obj) (k : String) (h : getProp o k = none) :
    deleteProp o k = o := by
  induction o with
  | nil => rfl
  | cons kv rest ih =>
    obtain ⟨k0, w⟩ := kv
    rw [getProp_cons] at h
    by_cases h0 : k = k0
    · rw [if_pos h0] at h; cases h
    · rw [if_neg h0] at h
      rw [deleteProp_cons, if_neg (fun e => h0 e.symm), ih h]

theorem getProp_deleteProp_ne (o : Obj) (k k' : String) (h : k ≠ k') :
    getProp (deleteProp o k') k = getProp o k := by
  induction o with
  | nil => rfl
  | cons kv rest ih =>
    obtain ⟨k0, w⟩ := kv
    rw [deleteProp_cons, getProp_cons]
    by_cases h0 : k0 = k'
    · have h1 : ¬ k = k0 := fun e => h (e.trans h0)
      rw [if_pos h0, if_neg h1, ih]
    · rw [if_neg h0, getProp_cons, ih]

theorem rangeValues_setProp_start (o : Obj) (v : JVal) :
    rangeValues (setProp o "start" v) = rangeValues o := by
  simp only [rangeValues, deleteProp_setProp_same]

theorem rangeValues_setProp_end (o : Obj) (v : JVal) :
    rangeValues (setProp o "end" v) = rangeValues o := by
  have h : ("end" : String) ≠ "start" := by decide
  simp only [rangeValues]
  rw [deleteProp_setProp_ne o "end" "start" v h, deleteProp_setProp_same]

theorem rangeValues_eq_self (o : Obj) (hs : getProp o "start" = none)
    (he : getProp o "end" = none) : rangeValues o = o := by
  simp only [rangeValues]
  rw [deleteProp_eq_self o "start" hs, deleteProp_eq_self o "end" he]

theorem getProp_start_setProp_end (o : Obj) (v : JVal) :
    getProp (setProp o "end" v) "start" = getProp o "start" :=
  getProp_setProp_ne o "end" "start" v (by decide)

/-! ## Deep equality is reflexive and symmetric -/

theorem getProp_mem (o : Obj) (k : String) (v : JVal) (h : getProp o k = some v) :
    (k, v) ∈ o := by
  induction o with
  | nil => cases h
  | cons kv rest ih =>
    obtain ⟨k0, w⟩ := kv
    rw [getProp_cons] at h
    by_cases h0 : k = k0
    · rw [if_pos h0] at h
      cases h; subst h0
      exact List.mem_cons_self _ _
    · rw [if_neg h0] at h
      exact List.mem_cons_of_mem _ (ih h)

theorem getProp_isSome_of_mem (o : Obj) (k : String) (h : k ∈ keysOf o) :
    ∃ v, getProp o k = some v := by
  cases hg : getProp o k with
  | none => exact absurd h ((getProp_eq_none_iff o k).1 hg)
  | some v => exact ⟨v, rfl⟩

theorem mem_keysOf_of_getProp (o : Obj) (k : String) (v : JVal) (h : getProp o k = some v) :
    k ∈ keysOf o := by
  by_contra hn
  rw [(getProp_eq_none_iff o k).2 hn] at h
  cases h

theorem deqProps_iff (seen : List String) (a b : Obj) :
    deqProps seen a b = true ↔
      ∀ k, k ∉ seen → ∀ v, getProp a k = some v →
        ∃ w, getProp b k = some w ∧ JVal.deq v w = true := by
  induction a generalizing seen with
  | nil =>
    simp [deqProps, getProp_nil]
  | cons kv rest ih =>
    obtain ⟨k0, v0⟩ := kv
    rw [deqProps, Bool.and_eq_true, ih]
    constructor
    · rintro ⟨h1, h2⟩ k hk v hv
      rw [getProp_cons] at hv
      by_cases h0 : k = k0
      · rw [if_pos h0] at hv
        cases hv; subst h0
        rw [if_neg hk] at h1
        cases hb : getProp b k with
        | none => rw [hb] at h1; cases h1
        | some w => rw [hb] at h1; exact ⟨w, rfl, h1⟩
      · rw [if_neg h0] at hv
        exact h2 k (by simp [h0, hk]) v hv
    · intro h
      constructor
      · by_cases hs : k0 ∈ seen
        · rw [if_pos hs]
        · rw [if_neg hs]
          obtain ⟨w, hw, hd⟩ := h k0 hs v0 (by rw [getProp_cons, if_pos rfl])
          rw [hw]; exact hd
      · intro k hk v hv
        have hk0 : k ≠ k0 := fun e => hk (e ▸ List.mem_cons_self _ _)
        have hks : k ∉ seen := fun e => hk (List.mem_cons_of_mem _ e)
        exact h k hks v (by rw [getProp_cons, if_neg hk0]; exact hv)

theorem deq_obj_iff (a b : Obj) :
    JVal.deq (.obj a) (.obj b) = true ↔
      (∀ k v, getProp a k = some v → ∃ w, getProp b k = some w ∧ JVal.deq v w = true) ∧
      (∀ k, k ∈ keysOf b → k ∈ keysOf a) := by
  rw [JVal.deq, Bool.and_eq_true, deqProps_iff, List.all_eq_true]
  constructor
  · rintro ⟨h1, h2⟩
    refine ⟨fun k v hv => h1 k (List.not_mem_nil k) v hv, ?_⟩
    intro k hk
    obtain ⟨kv, hkv, rfl⟩ := List.mem_map.1 hk
    simpa using h2 kv hkv
  · rintro ⟨h1, h2⟩
    refine ⟨fun k _ v hv => h1 k v hv, ?_⟩
    intro kv hkv
    simpa using h2 kv.1 (List.mem_map_of_mem Prod.fst hkv)

/-- Induction over JSON values: a property of all scalars that passes from the elements to an
array and from the property values to an object holds of every value. -/
theorem JVal.induct {P : JVal → Prop} (hnull : P .null) (hbool : ∀ b, P (.bool b))
    (hnum : ∀ n, P (.num n)) (hstr : ∀ s, P (.str s))
    (harr : ∀ xs, (∀ x ∈ xs, P x) → P (.arr xs))
    (hobj : ∀ kvs, (∀ kv ∈ kvs, P kv.2) → P (.obj kvs)) : ∀ v, P v := by
  intro v
  refine JVal.rec (motive_1 := P) (motive_2 := fun xs => ∀ x ∈ xs, P x)
    (motive_3 := fun kvs => ∀ kv ∈ kvs, P kv.2) (motive_4 := fun kv => P kv.2)
    hnull hbool hnum hstr harr hobj ?_ ?_ ?_ ?_ ?_ v
  · intro x hx; cases hx
  · intro x xs h1 h2 y hy
    rcases List.mem_cons.1 hy with rfl | h
    · exact h1
    · exact h2 y h
  · intro x hx; cases hx
  · intro x xs h1 h2 y hy
    rcases List.mem_cons.1 hy with rfl | h
    · exact h1
    · exact h2 y h
  · intro k v h; exact h

theorem deqList_refl (xs : List JVal) (h : ∀ x ∈ xs, JVal.deq x x = true) :
    deqList xs xs = true := by
  induction xs with
  | nil => rfl
  | cons x xs ih =>
    rw [deqList, Bool.and_eq_true]
    exact ⟨h x (List.mem_cons_self _ _), ih (fun y hy => h y (List.mem_cons_of_mem _ hy))⟩

theorem JVal.deq_refl : ∀ v : JVal, JVal.deq v v = true := by
  apply JVal.induct
  · rfl
  · intro b; simp [JVal.deq]
  · intro n; simp [JVal.deq]
  · intro s; simp [JVal.deq]
  · intro xs ih; rw [JVal.deq]; exact deqList_refl xs ih
  · intro kvs ih
    rw [deq_obj_iff]
    exact ⟨fun k v hv => ⟨v, hv, ih (k, v) (getProp_mem kvs k v hv)⟩, fun _ h => h⟩

theorem deqList_symm (xs : List JVal)
    (h : ∀ x ∈ xs, ∀ w, JVal.deq x w = true → JVal.deq w x = true) :
    ∀ ys, deqList xs ys = true → deqList ys xs = true := by
  induction xs with
  | nil =>
    intro ys hy
    cases ys with
    | nil => rfl
    | cons y ys => simp [deqList] at hy
  | cons x xs ih =>
    intro ys hy
    cases ys with
    | nil => simp [deqList] at hy
    | cons y ys =>
      rw [deqList, Bool.and_eq_true] at hy ⊢
      exact ⟨h x (List.mem_cons_self _ _) y hy.1,
        ih (fun z hz => h z (List.mem_cons_of_mem _ hz)) ys hy.2⟩

theorem JVal.deq_symm : ∀ v w : JVal, JVal.deq v w = true → JVal.deq w v = true := by
  apply JVal.induct
  · intro w h; cases w <;> simp_all [JVal.deq]
  · intro b w h; cases w <;> simp_all [JVal.deq]
  · intro n w h; cases w <;> simp_all [JVal.deq]
  · intro s w h; cases w <;> simp_all [JVal.deq]
  · intro xs ih w h
    cases w with
    | arr ys => rw [JVal.deq] at h ⊢; exact deqList_symm xs ih ys h
    | _ => simp [JVal.deq] at h
  · intro a ih w h
    cases w with
    | obj b =>
      rw [deq_obj_iff] at h ⊢
      obtain ⟨h1, h2⟩ := h
      constructor
      · intro k w hw
        obtain ⟨v, hv⟩ := getProp_isSome_of_mem a k (h2 k (mem_keysOf_of_getProp b k w hw))
        obtain ⟨w', hw', hd⟩ := h1 k v hv
        rw [hw] at hw'
        cases hw'
        exact ⟨v, hv, ih (k, v) (getProp_mem a k v hv) w hd⟩
      · intro k hk
        obtain ⟨v, hv⟩ := getProp_isSome_of_mem a k hk
        obtain ⟨w, hw, _⟩ := h1 k v hv
        exact mem_keysOf_of_getProp b k w hw
    | _ => simp [JVal.deq] at h

theorem deepEqual_refl (a : Obj) : deepEqual a a = true := JVal.deq_refl (.obj a)

theorem deepEqual_symm (a b : Obj) (h : deepEqual a b = true) : deepEqual b a = true :=
  JVal.deq_symm (.obj a) (.obj b) h

theorem deepEqual_comm (a b : Obj) : deepEqual a b = deepEqual b a := by
  cases h1 : deepEqual a b with
  | true => exact (deepEqual_symm a b h1).symm
  | false =>
    cases h2 : deepEqual b a with
    | true => rw [deepEqual_symm b a h2] at h1; cases h1
    | false => rfl

/-! ## The loop of `getLumisectionRanges` -/

theorem RangesFrom_cons (S : List Obj) (lo hi : Nat) (r : Obj) (l : List Obj) (hl : l ≠ []) :
    RangesFrom S lo (r :: l) hi ↔
      ∃ e, GoodRange S lo e r ∧ (∃ d, S[e]? = some d ∧ deepEqual (rangeValues r) d = false) ∧
        RangesFrom S (e + 1) l hi := by
  cases l with
  | nil => exact absurd rfl hl
  | cons r' rest => rfl

theorem lastRange_snoc (init : List Obj) (o : Obj) : lastRange (init ++ [o]) = o := by
  simp [lastRange, spread]

theorem setLastRange_snoc (init : List Obj) (o x : Obj) :
    setLastRange (init ++ [o]) x = init ++ [x] := by
  simp [setLastRange]

theorem GoodRange_extend (S : List Obj) (lo i : Nat) (r d : Obj)
    (h : GoodRange S lo i (setProp r "end" (.num i))) (hd : S[i]? = some d)
    (heq : deepEqual (rangeValues r) d = true) :
    GoodRange S lo (i + 1) (setProp r "end" (.num (i + 1))) := by
  obtain ⟨h1, _, h3, h4, _, h6, h7⟩ := h
  rw [getProp_start_setProp_end] at h1
  rw [rangeValues_setProp_end] at h6 h7
  refine ⟨?_, ?_, h3, by omega, ?_, ?_, ?_⟩
  · rw [getProp_start_setProp_end]; exact h1
  · rw [getProp_setProp_same]; simp
  · have := (List.getElem?_eq_some_iff.1 hd).1
    omega
  · rw [rangeValues_setProp_end]; exact h6
  · intro j hj1 hj2
    rw [rangeValues_setProp_end]
    by_cases hj : j ≤ i
    · exact h7 j hj1 hj
    · have : j = i + 1 := by omega
      subst this
      exact ⟨d, by simpa using hd, heq⟩

theorem RangesFrom_extend (S : List Obj) (i : Nat) (r d : Obj) (hd : S[i]? = some d)
    (heq : deepEqual (rangeValues r) d = true) :
    ∀ (init : List Obj) (lo : Nat),
      RangesFrom S lo (init ++ [setProp r "end" (.num i)]) i →
      RangesFrom S lo (init ++ [setProp r "end" (.num (i + 1))]) (i + 1) := by
  intro init
  induction init with
  | nil =>
    intro lo h
    exact GoodRange_extend S lo i r d h hd heq
  | cons x init ih =>
    intro lo h
    rw [List.cons_append, RangesFrom_cons _ _ _ _ _ (by simp)] at h ⊢
    obtain ⟨e, h1, h2, h3⟩ := h
    exact ⟨e, h1, h2, ih (e + 1) h3⟩

theorem RangesFrom_snoc (S : List Obj) (i : Nat) (x y d : Obj) (hd : S[i]? = some d)
    (hne : deepEqual (rangeValues x) d = false) (hy : GoodRange S (i + 1) (i + 1) y) :
    ∀ (init : List Obj) (lo : Nat),
      RangesFrom S lo (init ++ [x]) i → RangesFrom S lo (init ++ [x, y]) (i + 1) := by
  intro init
  induction init with
  | nil =>
    intro lo h
    exact ⟨i, h, ⟨d, hd, hne⟩, hy⟩
  | cons z init ih =>
    intro lo h
    rw [List.cons_append, RangesFrom_cons _ _ _ _ _ (by simp)] at h ⊢
    obtain ⟨e, h1, h2, h3⟩ := h
    exact ⟨e, h1, h2, ih (e + 1) h3⟩

theorem GoodRange_fresh (S : List Obj) (i : Nat) (d : Obj) (hd : S[i]? = some d) :
    GoodRange S (i + 1) (i + 1)
      (setProp (setProp d "start" (.num (i + 1))) "end" (.num (i + 1))) := by
  have hlen := (List.getElem?_eq_some_iff.1 hd).1
  refine ⟨?_, ?_, by omega, le_refl _, by omega, ⟨d, by simpa using hd, ?_⟩, ?_⟩
  · rw [getProp_start_setProp_end, getProp_setProp_same]; simp
  · rw [getProp_setProp_same]; simp
  · rw [rangeValues_setProp_end, rangeValues_setProp_start]
  · intro j h1 h2; omega

/-- Loop invariant of `getLumisectionRanges`: after the iterations `1..m` the array is a list of
closed ranges followed by the open one, and closing the open range at `m + 1` gives a compaction
of the slices `1..m + 1`. -/
theorem rangesLoop_inv (S : List Obj) :
    ∀ m, m + 1 ≤ S.length →
      ∃ init opn,
        (List.range' 1 m).foldl (rangesStep S) [setProp (spread S[0]?) "start" (.num 1)]
          = init ++ [opn] ∧
        RangesFrom S 1 (init ++ [setProp opn "end" (.num (m + 1))]) (m + 1) := by
  intro m
  induction m with
  | zero =>
    intro hlen
    have h0 : 0 < S.length := by omega
    refine ⟨[], setProp (spread S[0]?) "start" (.num 1), rfl, ?_⟩
    have hd : S[0]? = some S[0] := List.getElem?_eq_getElem h0
    rw [hd]
    have := GoodRange_fresh S 0 S[0] hd
    simpa [spread, RangesFrom] using this
  | succ m ih =>
    intro hlen
    obtain ⟨init, opn, hL, hR⟩ := ih (by omega)
    have hm : m + 1 < S.length := by omega
    have hd : S[m + 1]? = some S[m + 1] := List.getElem?_eq_getElem hm
    rw [List.range'_concat, List.foldl_append, hL]
    simp only [List.foldl_cons, List.foldl_nil]
    have hidx : 1 + 1 * m = m + 1 := by omega
    rw [hidx]
    unfold rangesStep
    simp only [lastRange_snoc, setLastRange_snoc, hd, spread, Option.getD_some]
    by_cases heq : deepEqual (rangeValues opn) S[m + 1] = true
    · rw [if_pos heq]
      refine ⟨init, opn, rfl, ?_⟩
      have := RangesFrom_extend S (m + 1) opn S[m + 1] hd heq init 1 (by exact_mod_cast hR)
      exact_mod_cast this
    · rw [if_neg heq]
      have hne : deepEqual (rangeValues opn) S[m + 1] = false := by
        simpa using heq
      refine ⟨init ++ [setProp opn "end" (.num ((m + 1 : Nat) : Int))],
        setProp S[m + 1] "start" (.num (((m + 1 : Nat) : Int) + 1)), by simp, ?_⟩
      have hx : deepEqual (rangeValues (setProp opn "end" (.num ((m + 1 : Nat) : Int))))
          S[m + 1] = false := by
        rw [rangeValues_setProp_end]; exact hne
      have hy := GoodRange_fresh S (m + 1) S[m + 1] hd
      have := RangesFrom_snoc S (m + 1) _ _ S[m + 1] hd hx hy init 1 (by exact_mod_cast hR)
      simpa using this

theorem length_whitelistAll (S : List Obj) (W : List String) :
    (whitelistAll S W).length = S.length := by
  unfold whitelistAll
  split <;> simp

/-- The result of `getLumisectionRanges` on a non-empty sequence compacts all of its slices. -/
theorem getLumisectionRanges_compacts (S : List Obj) (W : List String) (hS : S ≠ []) :
    RangesFrom (whitelistAll S W) 1 (getLumisectionRanges S W) S.length := by
  have hlen : 0 < S.length := List.length_pos.2 hS
  have hl := length_whitelistAll S W
  obtain ⟨init, opn, hL, hR⟩ := rangesLoop_inv (whitelistAll S W) (S.length - 1) (by omega)
  unfold getLumisectionRanges
  simp only [hl]
  rw [hL, lastRange_snoc, setLastRange_snoc]
  have h1 : S.length - 1 + 1 = S.length := by omega
  rw [h1] at hR
  have h2 : (((S.length - 1 : Nat) : Int) + 1) = ((S.length : Nat) : Int) := by omega
  rw [h2] at hR
  exact hR

/-! ## Consequences of `RangesFrom` -/

theorem RangesFrom_head (S : List Obj) (lo hi : Nat) (R : List Obj)
    (h : RangesFrom S lo R hi) :
    ∃ r, R.head? = some r ∧ getProp r "start" = some (.num lo) := by
  match R, h with
  | [r], h => exact ⟨r, rfl, h.1⟩
  | r :: _ :: _, ⟨_, h1, _⟩ => exact ⟨r, rfl, h1.1⟩

theorem RangesFrom_last (S : List Obj) (hi : Nat) :
    ∀ (R : List Obj) (lo : Nat), RangesFrom S lo R hi →
      ∃ r, R.getLast? = some r ∧ getProp r "end" = some (.num hi) := by
  intro R
  induction R with
  | nil => intro lo h; exact h.elim
  | cons r l ih =>
    intro lo h
    cases l with
    | nil => exact ⟨r, rfl, h.2.1⟩
    | cons r' rest =>
      obtain ⟨e, _, _, h3⟩ := h
      obtain ⟨x, hx, hx'⟩ := ih (e + 1) h3
      exact ⟨x, by rw [List.getLast?_cons_cons]; exact hx, hx'⟩

theorem RangesFrom_chain (S : List Obj) (hi : Nat) :
    ∀ (R : List Obj) (lo : Nat), RangesFrom S lo R hi →
      List.Chain' (fun r r' => ∃ e : Int,
        getProp r "end" = some (.num e) ∧ getProp r' "start" = some (.num (e + 1))) R := by
  intro R
  induction R with
  | nil => intro lo h; exact h.elim
  | cons r l ih =>
    intro lo h
    cases l with
    | nil => exact List.chain'_singleton r
    | cons r' rest =>
      obtain ⟨e, h1, _, h3⟩ := h
      refine List.chain'_cons.2 ⟨⟨e, h1.2.1, ?_⟩, ih (e + 1) h3⟩
      obtain ⟨x, hx, hx'⟩ := RangesFrom_head S (e + 1) hi _ h3
      cases hx
      rw [hx']; simp

theorem RangesFrom_good (S : List Obj) (hi : Nat) :
    ∀ (R : List Obj) (lo : Nat), RangesFrom S lo R hi →
      ∀ r ∈ R, ∃ s e, GoodRange S s e r := by
  intro R
  induction R with
  | nil => intro lo h; exact h.elim
  | cons r l ih =>
    intro lo h x hx
    cases l with
    | nil =>
      rw [List.mem_singleton] at hx
      subst hx
      exact ⟨lo, hi, h⟩
    | cons r' rest =>
      obtain ⟨e, h1, _, h3⟩ := h
      rcases List.mem_cons.1 hx with rfl | hx
      · exact ⟨lo, e, h1⟩
      · exact ih (e + 1) h3 x hx

theorem RangesFrom_boundary (S : List Obj) (hi : Nat) :
    ∀ (R : List Obj) (lo : Nat), RangesFrom S lo R hi →
      List.Chain' (fun r r' => ∃ s' : Nat, getProp r' "start" = some (.num s') ∧
        ∃ d, S[s' - 1]? = some d ∧ deepEqual (rangeValues r) d = false ∧
          rangeValues r' = rangeValues d) R := by
  intro R
  induction R with
  | nil => intro lo h; exact h.elim
  | cons r l ih =>
    intro lo h
    cases l with
    | nil => exact List.chain'_singleton r
    | cons r' rest =>
      obtain ⟨e, _, ⟨d, hd, hne⟩, h3⟩ := h
      refine List.chain'_cons.2 ⟨?_, ih (e + 1) h3⟩
      obtain ⟨s, e', hg⟩ := RangesFrom_good S hi _ (e + 1) h3 r' (List.mem_cons_self _ _)
      have hs : s = e + 1 := by
        obtain ⟨y, hy, hy'⟩ := RangesFrom_head S (e + 1) hi _ h3
        cases hy
        have := hg.1
        rw [hy'] at this
        have h2 : ((e + 1 : Nat) : Int) = (s : Int) := by
          injection this with h1
          injection h1
        omega
      subst hs
      obtain ⟨d', hd', hv⟩ := hg.2.2.2.2.2.1
      have : d' = d := by
        have h' : S[e]? = some d' := by simpa using hd'
        rw [hd] at h'
        cases h'; rfl
      subst this
      exact ⟨e + 1, hg.1, d', by simpa using hd, hne, hv⟩

/-! ## The range compactor `getLumisectionRanges` -/

/-- C1: for every non-empty sequence `S` and every whitelist `W`, the ranges returned by
`getLumisectionRanges S W` partition `[1, len S]` exactly: the first range starts at 1, each
further range starts at the previous end plus one, every range has `start ≤ end`, and the last
range ends at `len S`. -/
theorem getLumisectionRanges_partitions (S : List Obj) (W : List String) (hS : S ≠ []) :
    PartitionsSlices (getLumisectionRanges S W) S.length := by
  have h := getLumisectionRanges_compacts S W hS
  refine ⟨RangesFrom_head _ _ _ _ h, RangesFrom_chain _ _ _ _ h, ?_, RangesFrom_last _ _ _ _ h⟩
  intro r hr
  obtain ⟨s, e, hg⟩ := RangesFrom_good _ _ _ _ h r hr
  exact ⟨s, e, hg.1, hg.2.1, by exact_mod_cast hg.2.2.2.1⟩

/-- The scenario of the spec: `[{a:1},{a:1},{a:2},{a:2},{a:2}]` with whitelist `*` compacts to
`[{a:1,start:1,end:2},{a:2,start:3,end:5}]`. -/
theorem getLumisectionRanges_scenario :
    getLumisectionRanges scenarioSlices ["*"] =
      [[("a", .num 1), ("start", .num 1), ("end", .num 2)],
        [("a", .num 2), ("start", .num 3), ("end", .num 5)]] := rfl

/-- C1 at the scenario of the spec, `[{a:1},{a:1},{a:2},{a:2},{a:2}]` with whitelist `*`. -/
theorem getLumisectionRanges_partitions_scenario :
    scenarioSlices ≠ [] ∧
      PartitionsSlices (getLumisectionRanges scenarioSlices ["*"]) scenarioSlices.length :=
  ⟨by simp [scenarioSlices], getLumisectionRanges_partitions scenarioSlices ["*"]
    (by simp [scenarioSlices])⟩

/-- C2 as stated fails: for the one-slice sequence `[{start: 7}]` with whitelist `*` the single
range is `{start: 1, end: 1}`, which carries the empty value, not deep-equal to `{start: 7}`. -/
theorem getLumisectionRanges_values_collision :
    ¬ CarriesSliceValues (whitelistAll [docStart 7] ["*"])
        (getLumisectionRanges [docStart 7] ["*"]) := by
  intro h
  have hR : getLumisectionRanges [docStart 7] ["*"] = [[("start", .num 1), ("end", .num 1)]] :=
    rfl
  obtain ⟨s, e, hs, he, _, hall⟩ := h _ (by rw [hR]; exact List.mem_singleton.2 rfl)
  have hs1 : s = 1 := by
    have h1 : getProp [("start", JVal.num 1), ("end", JVal.num 1)] "start" = some (.num 1) := rfl
    rw [h1] at hs
    injection hs with h2
    injection h2 with h3
    omega
  have he1 : e = 1 := by
    have h1 : getProp [("start", JVal.num 1), ("end", JVal.num 1)] "end" = some (.num 1) := rfl
    rw [h1] at he
    injection he with h2
    injection h2 with h3
    omega
  subst hs1 he1
  obtain ⟨d, hd, hdeq⟩ := hall 1 (le_refl _) (le_refl _)
  have hd' : d = docStart 7 := by
    have h1 : (whitelistAll [docStart 7] ["*"])[1 - 1]? = some (docStart 7) := rfl
    rw [h1] at hd
    injection hd with h2
    exact h2.symm
  subst hd'
  have hfalse : deepEqual (docStart 7) (rangeValues [("start", .num 1), ("end", .num 1)])
      = false := rfl
  rw [hfalse] at hdeq
  cases hdeq

/-- C2, amended: for every non-empty sequence `S` and whitelist `W` such that no
whitelist-restricted document has a key named `start` or `end`, every slice index `i` with
`r.start ≤ i ≤ r.end` of every returned range `r` has a restricted document deep-equal to the
value carried by `r`. -/
theorem getLumisectionRanges_values (S : List Obj) (W : List String) (hS : S ≠ [])
    (hk : NoRangeKeys (whitelistAll S W)) :
    CarriesSliceValues (whitelistAll S W) (getLumisectionRanges S W) := by
  have h := getLumisectionRanges_compacts S W hS
  intro r hr
  obtain ⟨s, e, hg⟩ := RangesFrom_good _ _ _ _ h r hr
  obtain ⟨h1, h2, h3, _, _, ⟨d0, hd0, hv⟩, h7⟩ := hg
  refine ⟨s, e, h1, h2, h3, ?_⟩
  intro i hi1 hi2
  by_cases hi : i = s
  · subst hi
    refine ⟨d0, hd0, ?_⟩
    have hmem : d0 ∈ whitelistAll S W := List.getElem?_mem hd0
    rw [hv, rangeValues_eq_self d0 (hk d0 hmem).1 (hk d0 hmem).2]
    exact deepEqual_refl d0
  · obtain ⟨d, hd, hdeq⟩ := h7 i (by omega) hi2
    exact ⟨d, hd, deepEqual_symm _ _ hdeq⟩

/-- C2 (amended) at the scenario of the spec. -/
theorem getLumisectionRanges_values_scenario :
    scenarioSlices ≠ [] ∧ NoRangeKeys (whitelistAll scenarioSlices ["*"]) ∧
      CarriesSliceValues (whitelistAll scenarioSlices ["*"])
        (getLumisectionRanges scenarioSlices ["*"]) :=
  have hk : NoRangeKeys (whitelistAll scenarioSlices ["*"]) := by
    intro d hd
    have hS : whitelistAll scenarioSlices ["*"] = [docA 1, docA 1, docA 2, docA 2, docA 2] := rfl
    rw [hS] at hd
    simp only [List.mem_cons, List.mem_singleton, List.not_mem_nil, or_false] at hd
    rcases hd with rfl | rfl | rfl | rfl | rfl <;> exact ⟨rfl, rfl⟩
  ⟨by simp [scenarioSlices], hk,
    getLumisectionRanges_values scenarioSlices ["*"] (by simp [scenarioSlices]) hk⟩

/-- C3 as stated fails: for `[{start: 7}, {start: 7}]` with whitelist `*` the two returned
ranges `{start: 1, end: 1}` and `{start: 2, end: 2}` are adjacent and both carry the empty
value. -/
theorem getLumisectionRanges_maximal_collision :
    ¬ AdjacentValuesDiffer (getLumisectionRanges [docStart 7, docStart 7] ["*"]) := by
  intro h
  have hR : getLumisectionRanges [docStart 7, docStart 7] ["*"] =
      [[("start", .num 1), ("end", .num 1)], [("start", .num 2), ("end", .num 2)]] := rfl
  rw [hR] at h
  have h1 := (List.chain'_cons.1 h).1
  have h2 : deepEqual (rangeValues [("start", .num 1), ("end", .num 1)])
      (rangeValues [("start", .num 2), ("end", .num 2)]) = true := rfl
  rw [h2] at h1
  cases h1

/-- C3, amended: for every non-empty sequence `S` and whitelist `W` such that no
whitelist-restricted document has a key named `start` or `end`, no two adjacent returned ranges
carry deep-equal values, and a range boundary sits at index `i` exactly when the restricted value
at `i` is not deep-equal to the value carried by the range open at that moment. -/
theorem getLumisectionRanges_maximal (S : List Obj) (W : List String) (hS : S ≠ [])
    (hk : NoRangeKeys (whitelistAll S W)) :
    AdjacentValuesDiffer (getLumisectionRanges S W) ∧
      BoundariesWhereValueChanges (whitelistAll S W) (getLumisectionRanges S W) := by
  have h := getLumisectionRanges_compacts S W hS
  have hb := RangesFrom_boundary _ _ _ _ h
  refine ⟨?_, ?_, ?_⟩
  · refine List.Chain'.imp ?_ hb
    rintro r r' ⟨s', _, d, hd, hne, hv⟩
    have hmem : d ∈ whitelistAll S W := List.getElem?_mem hd
    rw [hv, rangeValues_eq_self d (hk d hmem).1 (hk d hmem).2]
    exact hne
  · intro r hr
    obtain ⟨s, e, hg⟩ := RangesFrom_good _ _ _ _ h r hr
    exact ⟨s, e, hg.1, hg.2.1, hg.2.2.2.2.2.2⟩
  · refine List.Chain'.imp ?_ hb
    rintro r r' ⟨s', hs', d, hd, hne, _⟩
    exact ⟨s', hs', d, hd, hne⟩

/-- C3 (amended) at the scenario of the spec. -/
theorem getLumisectionRanges_maximal_scenario :
    scenarioSlices ≠ [] ∧ NoRangeKeys (whitelistAll scenarioSlices ["*"]) ∧
      AdjacentValuesDiffer (getLumisectionRanges scenarioSlices ["*"]) ∧
      BoundariesWhereValueChanges (whitelistAll scenarioSlices ["*"])
        (getLumisectionRanges scenarioSlices ["*"]) :=
  have hk : NoRangeKeys (whitelistAll scenarioSlices ["*"]) := by
    intro d hd
    have hS : whitelistAll scenarioSlices ["*"] = [docA 1, docA 1, docA 2, docA 2, docA 2] := rfl
    rw [hS] at hd
    simp only [List.mem_cons, List.mem_singleton, List.not_mem_nil, or_false] at hd
    rcases hd with rfl | rfl | rfl | rfl | rfl <;> exact ⟨rfl, rfl⟩
  ⟨by simp [scenarioSlices], hk,
    getLumisectionRanges_maximal scenarioSlices ["*"] (by simp [scenarioSlices]) hk⟩

/-- C4 fails on the code: applied to the empty sequence, `getLumisectionRanges` returns, for
every whitelist, the one-element sequence holding the degenerate range `{start: 1, end: 0}`
instead of the empty range sequence. -/
theorem getLumisectionRanges_empty (W : List String) :
    getLumisectionRanges [] W = [[("start", .num 1), ("end", .num 0)]] := by
  have h : whitelistAll [] W = [] := by
    unfold whitelistAll
    split <;> rfl
  unfold getLumisectionRanges
  simp only [h]
  rfl

/-! ## Whitelisting depends on the whitelisted keys only -/

theorem getAttributes_foldl_congr (o o' : Obj) :
    ∀ (W : List String) (acc : Obj), (∀ k ∈ W, getProp o k = getProp o' k) →
      W.foldl (fun acc k => match getProp o k with
        | some v => setProp acc k v
        | none => acc) acc =
      W.foldl (fun acc k => match getProp o' k with
        | some v => setProp acc k v
        | none => acc) acc := by
  intro W
  induction W with
  | nil => intro acc _; rfl
  | cons k W ih =>
    intro acc h
    simp only [List.foldl_cons]
    rw [h k (List.mem_cons_self _ _)]
    exact ih _ (fun k' hk' => h k' (List.mem_cons_of_mem _ hk'))

theorem getAttributes_congr (o o' : Obj) (W : List String)
    (h : ∀ k ∈ W, getProp o k = getProp o' k) :
    getAttributesSpecifiedFromArray o W = getAttributesSpecifiedFromArray o' W :=
  getAttributes_foldl_congr o o' W [] h

/-- C5: for every whitelist `W` whose first entry is not the star (so `W` is not the
all-attributes sentinel) and every two equal-length sequences `S`, `S'` whose documents agree at
every index on every key of `W`, `getLumisectionRanges S W = getLumisectionRanges S' W`; values
under keys outside the whitelist influence neither the boundaries nor the carried values. -/
theorem getLumisectionRanges_whitelist_only (S S' : List Obj) (W : List String)
    (hW : W[0]? ≠ some "*") (hlen : S.length = S'.length)
    (hagree : ∀ (i : Nat) d d', S[i]? = some d → S'[i]? = some d' →
      ∀ k ∈ W, getProp d k = getProp d' k) :
    getLumisectionRanges S W = getLumisectionRanges S' W := by
  have hmap : whitelistAll S W = whitelistAll S' W := by
    unfold whitelistAll
    rw [if_pos hW, if_pos hW]
    apply List.ext_getElem?
    intro n
    rw [List.getElem?_map, List.getElem?_map]
    by_cases hn : n < S.length
    · have hn' : n < S'.length := hlen ▸ hn
      rw [List.getElem?_eq_getElem hn, List.getElem?_eq_getElem hn']
      simp only [Option.map_some']
      exact congrArg some (getAttributes_congr _ _ W
        (hagree n _ _ (List.getElem?_eq_getElem hn) (List.getElem?_eq_getElem hn')))
    · have hn' : ¬ n < S'.length := hlen ▸ hn
      rw [List.getElem?_eq_none (by omega), List.getElem?_eq_none (by omega)]
  unfold getLumisectionRanges
  simp only [hmap]

/-- C5 at `[{a:1,b:1},{a:1,b:2}]` and `[{a:1,b:5},{a:1,b:6}]` with whitelist `[a]`: the two
sequences differ under `b` only and compact to the same ranges. -/
theorem getLumisectionRanges_whitelist_only_sample :
    (["a"] : List String)[0]? ≠ some "*" ∧
      [docAB 1 1, docAB 1 2].length = [docAB 1 5, docAB 1 6].length ∧
      getLumisectionRanges [docAB 1 1, docAB 1 2] ["a"] =
        getLumisectionRanges [docAB 1 5, docAB 1 6] ["a"] :=
  ⟨by decide, rfl,
    getLumisectionRanges_whitelist_only [docAB 1 1, docAB 1 2] [docAB 1 5, docAB 1 6] ["a"]
      (by decide) rfl
      (by
        intro i d d' hd hd' k hk
        rw [List.mem_singleton] at hk
        subst hk
        match i, hd, hd' with
        | 0, hd, hd' => cases hd; cases hd'; rfl
        | 1, hd, hd' => cases hd; cases hd'; rfl
        | (n + 2), hd, _ => cases hd)⟩

/-! ## The differential updater `getNewLumisectionRanges` -/

theorem setLastRange_ne_nil (L : List Obj) (o : Obj) (h : L ≠ []) : setLastRange L o ≠ [] := by
  intro hn
  have := congrArg List.length hn
  simp [setLastRange] at this
  exact h this

theorem newRangesStep_eq_nil_iff (prev next : List Obj) (W : List String) (L : List Obj)
    (i : Nat) :
    newRangesStep prev next W L i = [] ↔
      L = [] ∧ deepEqual (getAttributesSpecifiedFromArray (spread prev[i]?) W)
        (getAttributesSpecifiedFromArray (spread next[i]?) W) = true := by
  simp only [newRangesStep]
  by_cases hm : deepEqual (getAttributesSpecifiedFromArray (spread prev[i]?) W)
      (getAttributesSpecifiedFromArray (spread next[i]?) W) = true
  · rw [if_pos hm]
    by_cases hL : L = []
    · subst hL
      simp [hm]
    · have hpos : L.length > 0 := List.length_pos.2 hL
      rw [if_pos hpos]
      simp only [hL, false_and, iff_false]
      exact setLastRange_ne_nil L _ hL
  · rw [if_neg hm]
    by_cases hL : L = []
    · subst hL
      simp [hm]
    · have hne : ¬ L.length = 0 := fun h => hL (List.length_eq_zero.1 h)
      rw [if_neg hne]
      simp only [hL, false_and, iff_false]
      by_cases hc : deepEqual (rangeValues (lastRange L))
          (getAttributesSpecifiedFromArray (spread next[i]?) W) = true
      · rw [if_pos hc]; exact hL
      · rw [if_neg hc]; simp

theorem newRangesLoop_eq_nil_iff (prev next : List Obj) (W : List String) :
    ∀ m, (List.range m).foldl (newRangesStep prev next W) [] = [] ↔
      ∀ i, i < m → deepEqual (getAttributesSpecifiedFromArray (spread prev[i]?) W)
        (getAttributesSpecifiedFromArray (spread next[i]?) W) = true := by
  intro m
  induction m with
  | zero => simp
  | succ m ih =>
    rw [List.range_succ, List.foldl_append]
    simp only [List.foldl_cons, List.foldl_nil]
    rw [newRangesStep_eq_nil_iff, ih]
    constructor
    · rintro ⟨h1, h2⟩ i hi
      by_cases h : i = m
      · subst h; exact h2
      · exact h1 i (by omega)
    · intro h
      exact ⟨fun i hi => h i (by omega), h m (by omega)⟩

/-- C8: for every two equal-length sequences `prev`, `next` and whitelist `W`,
`getNewLumisectionRanges prev next W` returns the empty range sequence if and only if at every
index the whitelist-restricted value of `prev` is deep-equal to the whitelist-restricted value of
`next`. -/
theorem getNewLumisectionRanges_empty_iff (prev next : List Obj) (W : List String)
    (hlen : prev.length = next.length) :
    getNewLumisectionRanges prev next W = .returned [] ↔
      ∀ (i : Nat) p c, prev[i]? = some p → next[i]? = some c →
        deepEqual (getAttributesSpecifiedFromArray p W)
          (getAttributesSpecifiedFromArray c W) = true := by
  have hloop := newRangesLoop_eq_nil_iff prev next W next.length
  have hidx : (∀ i, i < next.length →
      deepEqual (getAttributesSpecifiedFromArray (spread prev[i]?) W)
        (getAttributesSpecifiedFromArray (spread next[i]?) W) = true) ↔
      ∀ (i : Nat) p c, prev[i]? = some p → next[i]? = some c →
        deepEqual (getAttributesSpecifiedFromArray p W)
          (getAttributesSpecifiedFromArray c W) = true := by
    constructor
    · intro h i p c hp hc
      have hi : i < next.length := (List.getElem?_eq_some_iff.1 hc).1
      have := h i hi
      rw [hp, hc] at this
      exact this
    · intro h i hi
      have hi' : i < prev.length := hlen ▸ hi
      have hp : prev[i]? = some prev[i] := List.getElem?_eq_getElem hi'
      have hc : next[i]? = some next[i] := List.getElem?_eq_getElem hi
      rw [hp, hc]
      exact h i _ _ hp hc
  rw [← hidx, ← hloop]
  unfold getNewLumisectionRanges
  rw [if_pos hlen.symm]
  generalize (List.range next.length).foldl (newRangesStep prev next W) [] = L
  by_cases hL : L = []
  · subst hL
    simp
  · have hpos : L.length > 0 := List.length_pos.2 hL
    simp only [hpos, if_true, hL, iff_false]
    intro h
    injection h with h'
    exact setLastRange_ne_nil L _ hL h'

/-- C8 at `prev = next = [{a:1},{a:2}]` with whitelist `[a]`. -/
theorem getNewLumisectionRanges_empty_iff_sample :
    [docA 1, docA 2].length = [docA 1, docA 2].length ∧
      (getNewLumisectionRanges [docA 1, docA 2] [docA 1, docA 2] ["a"] = .returned [] ↔
        ∀ (i : Nat) p c, [docA 1, docA 2][i]? = some p → [docA 1, docA 2][i]? = some c →
          deepEqual (getAttributesSpecifiedFromArray p ["a"])
            (getAttributesSpecifiedFromArray c ["a"]) = true) :=
  ⟨rfl, getNewLumisectionRanges_empty_iff [docA 1, docA 2] [docA 1, docA 2] ["a"] rfl⟩

/-- C7 as stated fails: with `prev = [{a:1}]` and `next = []` the lengths differ and the call
throws nothing, so it does not fail with a length-mismatch error. -/
theorem getNewLumisectionRanges_mismatch_no_throw :
    [docA 1].length ≠ ([] : List Obj).length ∧
      ¬ ∃ e, getNewLumisectionRanges [docA 1] [] ["a"] = .threw e := by
  refine ⟨by decide, ?_⟩
  rintro ⟨e, h⟩
  have hr : getNewLumisectionRanges [docA 1] [] ["a"] = .returnedUndefined := rfl
  rw [hr] at h
  cases h

/-- C7, amended: whenever `len prev ≠ len next`, `getNewLumisectionRanges prev next W` raises no
error and returns `undefined`; no range sequence is produced. -/
theorem getNewLumisectionRanges_mismatch (prev next : List Obj) (W : List String)
    (hlen : prev.length ≠ next.length) :
    getNewLumisectionRanges prev next W = .returnedUndefined := by
  unfold getNewLumisectionRanges
  rw [if_neg (fun h => hlen h.symm)]

/-- C7 (amended) at `prev = [{a:1}]`, `next = []`. -/
theorem getNewLumisectionRanges_mismatch_sample :
    [docA 1].length ≠ ([] : List Obj).length ∧
      getNewLumisectionRanges [docA 1] [] ["a"] = .returnedUndefined :=
  ⟨by decide, getNewLumisectionRanges_mismatch [docA 1] [] ["a"] (by decide)⟩

/-- C6 fails on the code: for `prev = [{a:1},{a:2}]`, `next = [{a:1},{a:3}]` and whitelist `[a]`
the updater returns the single range `{a:3, start:1, end:2}`; written back it turns slice 1 into
`{a:3}`, whose restricted value is not deep-equal to that of `next` at slice 1, `{a:1}`. -/
theorem getNewLumisectionRanges_roundtrip_broken :
    getNewLumisectionRanges [docA 1, docA 2] [docA 1, docA 3] ["a"] =
      .returned [[("a", .num 3), ("start", .num 1), ("end", .num 2)]] ∧
    overwriteWithRanges [docA 1, docA 2] [[("a", .num 3), ("start", .num 1), ("end", .num 2)]] =
      [docA 3, docA 3] ∧
    deepEqual (getAttributesSpecifiedFromArray (docA 3) ["a"])
      (getAttributesSpecifiedFromArray (docA 1) ["a"]) = false :=
  ⟨rfl, rfl, rfl⟩

/-- C9 fails on the code: for `prev = [{a:1},{a:1},{a:2}]`, `next = [{a:1},{a:1},{a:5}]` and
whitelist `[a]` the restricted values first differ at slice 3, yet the first (and only) returned
range has `start = 1`. -/
theorem getNewLumisectionRanges_first_start_is_one :
    deepEqual (getAttributesSpecifiedFromArray (docA 1) ["a"])
      (getAttributesSpecifiedFromArray (docA 1) ["a"]) = true ∧
    deepEqual (getAttributesSpecifiedFromArray (docA 2) ["a"])
      (getAttributesSpecifiedFromArray (docA 5) ["a"]) = false ∧
    getNewLumisectionRanges [docA 1, docA 1, docA 2] [docA 1, docA 1, docA 5] ["a"] =
      .returned [[("a", .num 5), ("start", .num 1), ("end", .num 3)]] :=
  ⟨rfl, rfl, rfl⟩

/-- C10 fails on the code: for `prev = [{a:0},{a:1},{a:2}]`, `next = [{a:9},{a:1},{a:8}]` and
whitelist `[a]` the first returned range is `{a:9, start:1, end:2}`; it covers slice 2, where the
restricted value of `next` is `{a:1}`, not deep-equal to the carried `{a:9}`. -/
theorem getNewLumisectionRanges_range_spans_unchanged :
    getNewLumisectionRanges [docA 0, docA 1, docA 2] [docA 9, docA 1, docA 8] ["a"] =
      .returned [[("a", .num 9), ("start", .num 1), ("end", .num 2)],
        [("a", .num 8), ("start", .num 3), ("end", .num 3)]] ∧
    deepEqual (getAttributesSpecifiedFromArray (docA 1) ["a"])
      (rangeValues [("a", .num 9), ("start", .num 1), ("end", .num 2)]) = false :=
  ⟨rfl, rfl⟩

/-! ## `calculate_new_runs` -/

theorem foldl_flag_eq_true_iff {α : Type} (p : α → Prop) [DecidablePred p] (l : List α)
    (b : Bool) :
    l.foldl (fun found x => if p x then true else found) b = true ↔
      b = true ∨ ∃ x ∈ l, p x := by
  induction l generalizing b with
  | nil => simp
  | cons a l ih =>
    rw [List.foldl_cons, ih]
    by_cases h : p a
    · simp [h]
    · simp [h]

theorem calculate_new_runs_fold (saved : List RunRow) :
    ∀ (fetched acc : List FetchedRun),
      fetched.foldl
        (fun new_runs fetched_run =>
          let exists_ := saved.foldl
            (fun found existing_run =>
              if fetched_run.run_number = existing_run.run_number then true else found) false
          if !exists_ then
            let already_saved := new_runs.foldl
              (fun found run =>
                if fetched_run.run_number = run.run_number then true else found) false
            if !already_saved then new_runs ++ [fetched_run] else new_runs
          else new_runs) acc =
      acc ++ differenceOfRuns
        (acc.reverse.map (fun r => r.run_number) ++ saved.map (fun r => r.run_number)) fetched := by
  intro fetched
  induction fetched with
  | nil => intro acc; simp [differenceOfRuns]
  | cons r rest ih =>
    intro acc
    rw [List.foldl_cons]
    have hex : saved.foldl (fun found existing_run =>
        if r.run_number = existing_run.run_number then true else found) false = true ↔
        r.run_number ∈ saved.map (fun r => r.run_number) := by
      rw [foldl_flag_eq_true_iff (fun x : RunRow => r.run_number = x.run_number)]
      simp only [Bool.false_eq_true, false_or, List.mem_map]
      constructor
      · rintro ⟨x, hx, h⟩; exact ⟨x, hx, h.symm⟩
      · rintro ⟨x, hx, h⟩; exact ⟨x, hx, h.symm⟩
    have hal : acc.foldl (fun found run =>
        if r.run_number = run.run_number then true else found) false = true ↔
        r.run_number ∈ acc.reverse.map (fun r => r.run_number) := by
      rw [foldl_flag_eq_true_iff (fun x : FetchedRun => r.run_number = x.run_number)]
      simp only [Bool.false_eq_true, false_or, List.mem_map, List.mem_reverse]
      constructor
      · rintro ⟨x, hx, h⟩; exact ⟨x, hx, h.symm⟩
      · rintro ⟨x, hx, h⟩; exact ⟨x, hx, h.symm⟩
    by_cases h1 : r.run_number ∈ saved.map (fun r => r.run_number)
    · have e1 := hex.2 h1
      simp only [e1, Bool.not_true, Bool.false_eq_true, if_false]
      rw [ih acc, differenceOfRuns, if_pos (List.mem_append_right _ h1)]
    · have e1 : saved.foldl (fun found existing_run =>
          if r.run_number = existing_run.run_number then true else found) false = false := by
        cases h : saved.foldl (fun found existing_run =>
          if r.run_number = existing_run.run_number then true else found) false
        · rfl
        · exact absurd (hex.1 h) h1
      simp only [e1, Bool.not_false, if_true]
      by_cases h2 : r.run_number ∈ acc.reverse.map (fun r => r.run_number)
      · have e2 := hal.2 h2
        simp only [e2, Bool.not_true, Bool.false_eq_true, if_false]
        rw [ih acc, differenceOfRuns, if_pos (List.mem_append_left _ h2)]
      · have e2 : acc.foldl (fun found run =>
            if r.run_number = run.run_number then true else found) false = false := by
          cases h : acc.foldl (fun found run =>
            if r.run_number = run.run_number then true else found) false
          · rfl
          · exact absurd (hal.1 h) h2
        simp only [e2, Bool.not_false, if_true]
        have hmem : r.run_number ∉
            acc.reverse.map (fun r => r.run_number) ++ saved.map (fun r => r.run_number) := by
          intro h
          rcases List.mem_append.1 h with h | h
          · exact h2 h
          · exact h1 h
        rw [ih (acc ++ [r]), differenceOfRuns, if_neg hmem]
        simp

theorem calculate_new_runs_eq (fetched : List FetchedRun) (saved : List RunRow) :
    calculate_new_runs fetched saved =
      differenceOfRuns (saved.map (fun r => r.run_number)) fetched := by
  unfold calculate_new_runs
  rw [calculate_new_runs_fold saved fetched []]
  simp

theorem differenceOfRuns_sublist :
    ∀ (fetched : List FetchedRun) (seen : List Int),
      List.Sublist (differenceOfRuns seen fetched) fetched := by
  intro fetched
  induction fetched with
  | nil => intro seen; exact List.Sublist.slnil
  | cons r rest ih =>
    intro seen
    rw [differenceOfRuns]
    split
    · exact List.Sublist.cons _ (ih seen)
    · exact List.Sublist.cons₂ _ (ih _)

theorem differenceOfRuns_not_seen :
    ∀ (fetched : List FetchedRun) (seen : List Int),
      ∀ r ∈ differenceOfRuns seen fetched, r.run_number ∉ seen := by
  intro fetched
  induction fetched with
  | nil => intro seen r hr; cases hr
  | cons x rest ih =>
    intro seen r hr
    rw [differenceOfRuns] at hr
    split at hr
    · exact ih seen r hr
    · rename_i hx
      rcases List.mem_cons.1 hr with rfl | h
      · exact hx
      · exact fun hs => ih _ r h (List.mem_cons_of_mem _ hs)

theorem differenceOfRuns_nodup :
    ∀ (fetched : List FetchedRun) (seen : List Int),
      ((differenceOfRuns seen fetched).map (fun r => r.run_number)).Nodup := by
  intro fetched
  induction fetched with
  | nil => intro seen; exact List.nodup_nil
  | cons x rest ih =>
    intro seen
    rw [differenceOfRuns]
    split
    · exact ih seen
    · rw [List.map_cons, List.nodup_cons]
      refine ⟨?_, ih _⟩
      intro h
      obtain ⟨r, hr, he⟩ := List.mem_map.1 h
      exact differenceOfRuns_not_seen rest _ r hr (he ▸ List.mem_cons_self _ _)

theorem differenceOfRuns_complete :
    ∀ (fetched : List FetchedRun) (seen : List Int),
      ∀ r ∈ fetched, r.run_number ∉ seen →
        ∃ r' ∈ differenceOfRuns seen fetched, r'.run_number = r.run_number := by
  intro fetched
  induction fetched with
  | nil => intro seen r hr; cases hr
  | cons x rest ih =>
    intro seen r hr hs
    rw [differenceOfRuns]
    by_cases hx : x.run_number ∈ seen
    · rw [if_pos hx]
      rcases List.mem_cons.1 hr with rfl | h
      · exact absurd hx hs
      · exact ih seen r h hs
    · rw [if_neg hx]
      rcases List.mem_cons.1 hr with rfl | h
      · exact ⟨r, List.mem_cons_self _ _, rfl⟩
      · by_cases he : r.run_number = x.run_number
        · exact ⟨x, List.mem_cons_self _ _, he.symm⟩
        · obtain ⟨r', hr', hn⟩ := ih (x.run_number :: seen) r h
            (by
              intro hm
              rcases List.mem_cons.1 hm with h1 | h1
              · exact he h1
              · exact hs h1)
          exact ⟨r', List.mem_cons_of_mem _ hr', hn⟩

/-- C17: `calculate_new_runs fetched saved` is the difference of runs: walking `fetched` in
order it keeps exactly the runs whose run number is the run number of no saved run and of no run
kept before (first occurrence only).  So the result is a sublist of `fetched` (order preserved),
holds no run already saved, holds no two runs with the same run number, and has a run for every
fetched run number that is not saved. -/
theorem calculate_new_runs_difference (fetched : List FetchedRun) (saved : List RunRow) :
    calculate_new_runs fetched saved =
        differenceOfRuns (saved.map (fun r => r.run_number)) fetched ∧
      List.Sublist (calculate_new_runs fetched saved) fetched ∧
      (∀ r ∈ calculate_new_runs fetched saved, ∀ s ∈ saved, r.run_number ≠ s.run_number) ∧
      ((calculate_new_runs fetched saved).map (fun r => r.run_number)).Nodup ∧
      (∀ r ∈ fetched, (∀ s ∈ saved, r.run_number ≠ s.run_number) →
        ∃ r' ∈ calculate_new_runs fetched saved, r'.run_number = r.run_number) := by
  rw [calculate_new_runs_eq]
  refine ⟨rfl, differenceOfRuns_sublist _ _, ?_, differenceOfRuns_nodup _ _, ?_⟩
  · intro r hr s hs he
    exact differenceOfRuns_not_seen _ _ r hr (List.mem_map.2 ⟨s, hs, he.symm⟩)
  · intro r hr hs
    apply differenceOfRuns_complete _ _ r hr
    intro hm
    obtain ⟨s, hs', he⟩ := List.mem_map.1 hm
    exact hs s hs' he.symm

/-! ## The gap-filling step of `get_lumisections_for_dataset` -/

theorem getProp_foldl_setProp (f : String → JVal) (k : String) :
    ∀ (components : List String) (acc : Obj),
      getProp (components.foldl (fun record c => setProp record c (f c)) acc) k =
        if k ∈ components then some (f k) else getProp acc k := by
  intro components
  induction components with
  | nil => intro acc; simp
  | cons c rest ih =>
    intro acc
    rw [List.foldl_cons, ih]
    by_cases h : k ∈ rest
    · simp [h]
    · by_cases hc : k = c
      · subst hc
        simp [h, getProp_setProp_same]
      · have hc' : ¬ k ∈ c :: rest := by
          intro hm
          rcases List.mem_cons.1 hm with h1 | h1
          · exact hc h1
          · exact h h1
        rw [if_neg h, if_neg hc', getProp_setProp_ne _ _ _ _ hc]

theorem getProp_emptyRecord (components : List String) (k : String) :
    getProp (emptyRecord components) k =
      if k ∈ components then some emptyTriplet else none := by
  unfold emptyRecord
  rw [getProp_foldl_setProp (fun _ => emptyTriplet) k components []]
  rfl

/-- The value `filledRecord` stores under a component. -/
theorem filledRecord_eq (components : List String) (triplets : Obj) :
    filledRecord components triplets =
      components.foldl (fun record c => setProp record c
        (match getProp triplets c with
         | some v => if typeofIsObject (some v) then v else emptyTriplet
         | none => emptyTriplet)) [] := by
  unfold filledRecord
  congr 1
  funext record c
  cases h : getProp triplets c with
  | none => simp [typeofIsObject]
  | some v =>
    by_cases ht : typeofIsObject (some v) = true
    · simp [ht]
    · simp [ht]

theorem getProp_filledRecord (components : List String) (triplets : Obj) (k : String) :
    getProp (filledRecord components triplets) k =
      if k ∈ components then
        (if typeofIsObject (getProp triplets k) then getProp triplets k else some emptyTriplet)
      else none := by
  rw [filledRecord_eq, getProp_foldl_setProp (fun c =>
    match getProp triplets c with
    | some v => if typeofIsObject (some v) then v else emptyTriplet
    | none => emptyTriplet) k components []]
  by_cases hk : k ∈ components
  · rw [if_pos hk, if_pos hk]
    cases h : getProp triplets k with
    | none => simp [typeofIsObject]
    | some v =>
      by_cases ht : typeofIsObject (some v) = true
      · simp [ht]
      · simp [ht]
  · rw [if_neg hk, if_neg hk]; rfl

theorem mem_foldl_push (ks : List String) (k : String) :
    ∀ acc : List String,
      k ∈ ks.foldl (fun components component =>
        if component ∈ components then components else components ++ [component]) acc ↔
      k ∈ acc ∨ k ∈ ks := by
  induction ks with
  | nil => intro acc; simp
  | cons c rest ih =>
    intro acc
    rw [List.foldl_cons, ih]
    by_cases hc : c ∈ acc
    · rw [if_pos hc]
      constructor
      · rintro (h | h)
        · exact Or.inl h
        · exact Or.inr (List.mem_cons_of_mem _ h)
      · rintro (h | h)
        · exact Or.inl h
        · rcases List.mem_cons.1 h with rfl | h1
          · exact Or.inl hc
          · exact Or.inr h1
    · rw [if_neg hc]
      simp only [List.mem_append, List.mem_singleton, List.mem_cons]
      tauto

theorem mem_componentsPresent_fold (k : String) :
    ∀ (rows : List MergedRow) (acc : List String),
      k ∈ rows.foldl (fun components row =>
        (keysOf row.triplets).foldl
          (fun components component =>
            if component ∈ components then components else components ++ [component])
          components) acc ↔
      k ∈ acc ∨ ∃ row ∈ rows, k ∈ keysOf row.triplets := by
  intro rows
  induction rows with
  | nil => intro acc; simp
  | cons r rest ih =>
    intro acc
    rw [List.foldl_cons, ih, mem_foldl_push]
    simp only [List.mem_cons, exists_eq_or_imp]
    tauto

/-- The components present are exactly the keys that occur in some merged document. -/
theorem mem_componentsPresent (rows : List MergedRow) (k : String) :
    k ∈ componentsPresent rows ↔ ∃ row ∈ rows, k ∈ keysOf row.triplets := by
  unfold componentsPresent
  rw [mem_componentsPresent_fold]
  simp

theorem assignIndex_length (a : List (Option Obj)) (o : Obj) :
    assignIndex a a.length o = a ++ [some o] := by
  simp [assignIndex]

/-- A loop invariant that every iteration below `N` re-establishes holds on exit of the
gap-filling loop, and the loop does not throw. -/
theorem gapLoop_invariant (rows : List MergedRow) (components : List String) (N : Nat)
    (P : Nat → GapState → Prop)
    (hstep : ∀ i st, i < N → P i st →
      ∃ st', gapStep rows components st i = .returned st' ∧ P (i + 1) st') :
    ∀ (m i : Nat) (st : GapState), i + m ≤ N → P i st →
      ∃ st', gapLoop rows components (List.range' i m) st = .returned st' ∧ P (i + m) st' := by
  intro m
  induction m with
  | zero => intro i st _ hP; exact ⟨st, rfl, hP⟩
  | succ m ih =>
    intro i st hN hP
    obtain ⟨st1, h1, hP1⟩ := hstep i st (by omega) hP
    obtain ⟨st2, h2, hP2⟩ := ih (i + 1) st1 (by omega) hP1
    refine ⟨st2, ?_, by rw [show i + (m + 1) = i + 1 + m by omega]; exact hP2⟩
    rw [List.range'_succ, gapLoop, h1]
    exact h2

theorem getLast?_eq_getElem (rows : List MergedRow) (last : MergedRow)
    (h : rows.getLast? = some last) :
    0 < rows.length ∧ rows[rows.length - 1]? = some last := by
  cases rows with
  | nil => cases h
  | cons r rest =>
    refine ⟨by simp, ?_⟩
    rw [List.getLast?_eq_getElem?] at h
    exact h

theorem gapStep_eq (rows : List MergedRow) (components : List String) (st : GapState)
    (i : Nat) (row : MergedRow)
    (hrow : rows[st.current_merged_lumisection_element]? = some row)
    (hlen : st.lumisections_with_empty_wholes.length = i) :
    gapStep rows components st i = .returned
      (if (i : Int) + 1 = row.lumisection_number then
        { lumisections_with_empty_wholes :=
            st.lumisections_with_empty_wholes ++ [some (filledRecord components row.triplets)]
          current_merged_lumisection_element := st.current_merged_lumisection_element + 1 }
      else
        { lumisections_with_empty_wholes :=
            st.lumisections_with_empty_wholes ++ [some (emptyRecord components)]
          current_merged_lumisection_element := st.current_merged_lumisection_element }) := by
  unfold gapStep
  rw [hrow]
  subst hlen
  simp only [assignIndex_length]
  split <;> rfl

theorem getElem?_snoc_lt (a : List (Option Obj)) (x : Option Obj) (j : Nat)
    (h : j < a.length) : (a ++ [x])[j]? = a[j]? := by
  rw [List.getElem?_append_left h]

theorem getElem?_snoc_eq (a : List (Option Obj)) (x : Option Obj) :
    (a ++ [x])[a.length]? = some x := by
  simp

theorem sorted_lt_of_lt (rows : List MergedRow) (hs : StrictlyIncreasing rows)
    (a b : Nat) (ra rb : MergedRow) (ha : rows[a]? = some ra) (hb : rows[b]? = some rb)
    (hab : a < b) : ra.lumisection_number < rb.lumisection_number := by
  obtain ⟨ha1, ha2⟩ := List.getElem?_eq_some_iff.1 ha
  obtain ⟨hb1, hb2⟩ := List.getElem?_eq_some_iff.1 hb
  have := (List.pairwise_iff_getElem.1 hs) a b ha1 hb1 hab
  rw [ha2, hb2] at this
  exact this

/-- One iteration re-establishes `GapInv`. -/
theorem gapStep_GapInv (rows : List MergedRow) (last : MergedRow)
    (hlast : rows.getLast? = some last) (i : Nat) (st : GapState)
    (hi : i < last.lumisection_number.toNat)
    (hinv : GapInv rows last.lumisection_number.toNat i st) :
    ∃ st', gapStep rows (componentsPresent rows) st i = .returned st' ∧
      GapInv rows last.lumisection_number.toNat (i + 1) st' := by
  obtain ⟨h1, _, h3, h4⟩ := hinv
  have hcur : st.current_merged_lumisection_element < rows.length := by
    rcases h3 with h | h
    · exact h
    · omega
  obtain ⟨row, hrow⟩ : ∃ row, rows[st.current_merged_lumisection_element]? = some row :=
    ⟨_, List.getElem?_eq_getElem hcur⟩
  refine ⟨_, gapStep_eq rows _ st i row hrow h1, ?_⟩
  obtain ⟨_, hl⟩ := getLast?_eq_getElem rows last hlast
  by_cases hm : (i : Int) + 1 = row.lumisection_number
  · rw [if_pos hm]
    refine ⟨by simp [h1], by simp only; omega, ?_, ?_⟩
    · by_cases hc : st.current_merged_lumisection_element + 1 < rows.length
      · exact Or.inl hc
      · right
        have he : st.current_merged_lumisection_element = rows.length - 1 := by omega
        have hrl : row = last := by
          have h' := hrow
          rw [he, hl] at h'
          injection h' with h''
          exact h''.symm
        rw [hrl] at hm
        omega
    · intro j hj
      by_cases hji : j < i
      · obtain ⟨e, he, hprop⟩ := h4 j hji
        exact ⟨e, by simp only; rw [getElem?_snoc_lt _ _ _ (by omega)]; exact he, hprop⟩
      · have hje : j = i := by omega
        subst hje
        refine ⟨_, by simp only; rw [← h1]; exact getElem?_snoc_eq _ _, Or.inr ?_⟩
        exact ⟨row, List.getElem?_mem hrow, hm.symm, rfl⟩
  · rw [if_neg hm]
    refine ⟨by simp [h1], by simp only; omega, Or.inl hcur, ?_⟩
    intro j hj
    by_cases hji : j < i
    · obtain ⟨e, he, hprop⟩ := h4 j hji
      exact ⟨e, by simp only; rw [getElem?_snoc_lt _ _ _ (by omega)]; exact he, hprop⟩
    · have hje : j = i := by omega
      subst hje
      exact ⟨_, by simp only; rw [← h1]; exact getElem?_snoc_eq _ _, Or.inl rfl⟩

/-- One iteration re-establishes `GapOrderInv` when the rows are strictly increasing. -/
theorem gapStep_GapOrderInv (rows : List MergedRow) (hs : StrictlyIncreasing rows)
    (i : Nat) (st : GapState) (row : MergedRow)
    (hrow : rows[st.current_merged_lumisection_element]? = some row)
    (hlen : st.lumisections_with_empty_wholes.length = i)
    (hinv : GapOrderInv rows i st) :
    GapOrderInv rows (i + 1)
      (if (i : Int) + 1 = row.lumisection_number then
        { lumisections_with_empty_wholes :=
            st.lumisections_with_empty_wholes ++
              [some (filledRecord (componentsPresent rows) row.triplets)]
          current_merged_lumisection_element := st.current_merged_lumisection_element + 1 }
      else
        { lumisections_with_empty_wholes :=
            st.lumisections_with_empty_wholes ++ [some (emptyRecord (componentsPresent rows))]
          current_merged_lumisection_element := st.current_merged_lumisection_element }) := by
  obtain ⟨b1, b2, b3⟩ := hinv
  have hgt := b2 _ row (le_refl _) hrow
  by_cases hm : (i : Int) + 1 = row.lumisection_number
  · rw [if_pos hm]
    refine ⟨?_, ?_, ?_⟩
    · intro c r hc hr
      simp only at hc
      by_cases hcc : c < st.current_merged_lumisection_element
      · have := b1 c r hcc hr
        push_cast; omega
      · have hce : c = st.current_merged_lumisection_element := by omega
        subst hce
        rw [hrow] at hr
        injection hr with hr
        subst hr
        push_cast; omega
    · intro c r hc hr
      simp only at hc
      have := sorted_lt_of_lt rows hs _ c row r hrow hr (by omega)
      push_cast; omega
    · intro j hj r hr hn
      simp only
      by_cases hji : j < i
      · rw [getElem?_snoc_lt _ _ _ (by omega)]
        exact b3 j hji r hr hn
      · have hje : j = i := by omega
        subst hje
        obtain ⟨c, hc⟩ := List.mem_iff_getElem?.1 hr
        have hce : c = st.current_merged_lumisection_element := by
          by_contra hne
          by_cases hlt : c < st.current_merged_lumisection_element
          · have := b1 c r hlt hc
            omega
          · have := sorted_lt_of_lt rows hs _ c row r hrow hc (by omega)
            omega
        subst hce
        rw [hrow] at hc
        injection hc with hc
        subst hc
        rw [← hlen]
        exact getElem?_snoc_eq _ _
  · rw [if_neg hm]
    refine ⟨?_, ?_, ?_⟩
    · intro c r hc hr
      have := b1 c r hc hr
      push_cast; omega
    · intro c r hc hr
      simp only at hc
      by_cases hce : c = st.current_merged_lumisection_element
      · subst hce
        rw [hrow] at hr
        injection hr with hr
        subst hr
        push_cast; omega
      · have := sorted_lt_of_lt rows hs _ c row r hrow hr (by omega)
        push_cast; omega
    · intro j hj r hr hn
      simp only
      by_cases hji : j < i
      · rw [getElem?_snoc_lt _ _ _ (by omega)]
        exact b3 j hji r hr hn
      · have hje : j = i := by omega
        subst hje
        exfalso
        obtain ⟨c, hc⟩ := List.mem_iff_getElem?.1 hr
        by_cases hlt : c < st.current_merged_lumisection_element
        · have := b1 c r hlt hc
          omega
        · by_cases hce : c = st.current_merged_lumisection_element
          · subst hce
            rw [hrow] at hc
            injection hc with hc
            subst hc
            exact hm hn.symm
          · have := sorted_lt_of_lt rows hs _ c row r hrow hc (by omega)
            omega

/-- The gap-filling loop never throws and ends in a state that satisfies `GapInv`. -/
theorem fillGapsState_GapInv (rows : List MergedRow) (last : MergedRow)
    (hlast : rows.getLast? = some last) :
    ∃ st, fillGapsState rows = .returned st ∧
      GapInv rows last.lumisection_number.toNat last.lumisection_number.toNat st := by
  obtain ⟨hpos, _⟩ := getLast?_eq_getElem rows last hlast
  have h := gapLoop_invariant rows (componentsPresent rows) last.lumisection_number.toNat
    (GapInv rows last.lumisection_number.toNat)
    (fun i st hi hinv => gapStep_GapInv rows last hlast i st hi hinv)
    last.lumisection_number.toNat 0
    { lumisections_with_empty_wholes := [], current_merged_lumisection_element := 0 }
    (by omega)
    ⟨rfl, Nat.zero_le _, Or.inl hpos, fun j hj => absurd hj (Nat.not_lt_zero j)⟩
  obtain ⟨st, hst, hinv⟩ := h
  refine ⟨st, ?_, by simpa using hinv⟩
  unfold fillGapsState
  simp only [hlast, List.range_eq_range']
  exact hst

/-- For strictly increasing positive rows the loop also ends in a state that satisfies
`GapOrderInv`. -/
theorem fillGapsState_GapOrderInv (rows : List MergedRow) (last : MergedRow)
    (hlast : rows.getLast? = some last) (hs : StrictlyIncreasing rows)
    (hp : PositiveSlices rows) :
    ∃ st, fillGapsState rows = .returned st ∧
      GapInv rows last.lumisection_number.toNat last.lumisection_number.toNat st ∧
      GapOrderInv rows last.lumisection_number.toNat st := by
  obtain ⟨hpos, _⟩ := getLast?_eq_getElem rows last hlast
  have h := gapLoop_invariant rows (componentsPresent rows) last.lumisection_number.toNat
    (fun i st => GapInv rows last.lumisection_number.toNat i st ∧ GapOrderInv rows i st)
    (fun i st hi hinv => by
      obtain ⟨st', hst', hinv'⟩ := gapStep_GapInv rows last hlast i st hi hinv.1
      refine ⟨st', hst', hinv', ?_⟩
      have hcur : st.current_merged_lumisection_element < rows.length := by
        rcases hinv.1.2.2.1 with h | h
        · exact h
        · omega
      obtain ⟨row, hrow⟩ : ∃ row, rows[st.current_merged_lumisection_element]? = some row :=
        ⟨_, List.getElem?_eq_getElem hcur⟩
      have heq := gapStep_eq rows (componentsPresent rows) st i row hrow hinv.1.1
      rw [hst'] at heq
      injection heq with heq
      rw [heq]
      exact gapStep_GapOrderInv rows hs i st row hrow hinv.1.1 hinv.2)
    last.lumisection_number.toNat 0
    { lumisections_with_empty_wholes := [], current_merged_lumisection_element := 0 }
    (by omega)
    ⟨⟨rfl, Nat.zero_le _, Or.inl hpos, fun j hj => absurd hj (Nat.not_lt_zero j)⟩,
      fun c row hc _ => absurd hc (Nat.not_lt_zero c),
      fun c row _ hrow => by
        have := hp row (List.getElem?_mem hrow)
        simpa using this,
      fun j hj => absurd hj (Nat.not_lt_zero j)⟩
  obtain ⟨st, hst, hinv⟩ := h
  refine ⟨st, ?_, by simpa using hinv.1, by simpa using hinv.2⟩
  unfold fillGapsState
  simp only [hlast, List.range_eq_range']
  exact hst

theorem fillGaps_of_state (rows : List MergedRow) (st : GapState)
    (h : fillGapsState rows = .returned st) :
    fillGaps rows = .returned st.lumisections_with_empty_wholes := by
  unfold fillGaps
  rw [h]

theorem fillGaps_nil : fillGaps [] = .returned [] := rfl

/-- In strictly increasing rows the last row has the greatest slice number. -/
theorem le_last_of_sorted (rows : List MergedRow) (last : MergedRow)
    (hlast : rows.getLast? = some last) (hs : StrictlyIncreasing rows) :
    ∀ row ∈ rows, row.lumisection_number ≤ last.lumisection_number := by
  intro row hrow
  obtain ⟨hpos, hl⟩ := getLast?_eq_getElem rows last hlast
  obtain ⟨c, hc⟩ := List.mem_iff_getElem?.1 hrow
  have hclt : c < rows.length := (List.getElem?_eq_some_iff.1 hc).1
  by_cases he : c = rows.length - 1
  · rw [he, hl] at hc
    injection hc with hc
    rw [hc]
  · exact le_of_lt (sorted_lt_of_lt rows hs c (rows.length - 1) row last hc hl (by omega))

theorem getLast?_mem (rows : List MergedRow) (last : MergedRow)
    (hlast : rows.getLast? = some last) : last ∈ rows :=
  List.getElem?_mem (getLast?_eq_getElem rows last hlast).2

/-- C11: for every list of merged rows ordered by strictly increasing positive slice number, the
gap-filling step returns a sequence without holes whose length is the greatest slice number, one
entry per slice number from 1 to that maximum; with no rows it returns the empty sequence. -/
theorem fillGaps_dense (rows : List MergedRow) (hs : StrictlyIncreasing rows)
    (hp : PositiveSlices rows) :
    ∃ out, fillGaps rows = .returned out ∧
      (rows = [] → out = []) ∧
      (∀ row ∈ rows, row.lumisection_number ≤ (out.length : Int)) ∧
      (rows ≠ [] → ∃ row ∈ rows, row.lumisection_number = (out.length : Int)) ∧
      (∀ n : Nat, 1 ≤ n → n ≤ out.length → ∃ e, out[n - 1]? = some (some e)) := by
  cases hlast : rows.getLast? with
  | none =>
    have hnil : rows = [] := List.getLast?_eq_none_iff.1 hlast
    subst hnil
    refine ⟨[], rfl, fun _ => rfl, ?_, fun h => absurd rfl h, ?_⟩
    · intro row hrow; cases hrow
    · intro n h1 h2
      simp at h2
      omega
  | some last =>
    obtain ⟨st, hst, hinv⟩ := fillGapsState_GapInv rows last hlast
    obtain ⟨h1, _, _, h4⟩ := hinv
    have hlastpos := hp last (getLast?_mem rows last hlast)
    have hlen : (st.lumisections_with_empty_wholes.length : Int) = last.lumisection_number := by
      rw [h1]; omega
    refine ⟨st.lumisections_with_empty_wholes, fillGaps_of_state rows st hst, ?_, ?_, ?_, ?_⟩
    · intro hnil
      rw [hnil] at hlast
      cases hlast
    · intro row hrow
      rw [hlen]
      exact le_last_of_sorted rows last hlast hs row hrow
    · intro _
      exact ⟨last, getLast?_mem rows last hlast, hlen.symm⟩
    · intro n hn1 hn2
      obtain ⟨e, he, _⟩ := h4 (n - 1) (by omega)
      exact ⟨e, he⟩

/-- Gaps: for strictly increasing rows, a slice between 1 and the greatest slice number that has
no row gets the empty record. -/
theorem fillGaps_gap (rows : List MergedRow) (hs : StrictlyIncreasing rows) :
    ∃ out, fillGaps rows = .returned out ∧
      ∀ n : Nat, 1 ≤ n → (∃ row ∈ rows, (n : Int) ≤ row.lumisection_number) →
        (∀ row ∈ rows, row.lumisection_number ≠ (n : Int)) →
        out[n - 1]? = some (some (emptyRecord (componentsPresent rows))) := by
  cases hlast : rows.getLast? with
  | none =>
    have hnil : rows = [] := List.getLast?_eq_none_iff.1 hlast
    subst hnil
    refine ⟨[], rfl, ?_⟩
    rintro n _ ⟨row, hrow, _⟩ _
    cases hrow
  | some last =>
    obtain ⟨st, hst, hinv⟩ := fillGapsState_GapInv rows last hlast
    obtain ⟨_, _, _, h4⟩ := hinv
    refine ⟨st.lumisections_with_empty_wholes, fillGaps_of_state rows st hst, ?_⟩
    rintro n hn1 ⟨row, hrow, hle⟩ hno
    have hrl := le_last_of_sorted rows last hlast hs row hrow
    obtain ⟨e, he, hprop⟩ := h4 (n - 1) (by omega)
    rcases hprop with rfl | ⟨r, hr, hnum, _⟩
    · exact he
    · exfalso
      apply hno r hr
      rw [hnum]
      omega

/-- Slices with a row: for strictly increasing positive rows, the slice of every row gets the
filled record of that row. -/
theorem fillGaps_filled (rows : List MergedRow) (hs : StrictlyIncreasing rows)
    (hp : PositiveSlices rows) :
    ∃ out, fillGaps rows = .returned out ∧
      ∀ row ∈ rows, ∀ n : Nat, row.lumisection_number = (n : Int) →
        out[n - 1]? = some (some (filledRecord (componentsPresent rows) row.triplets)) := by
  cases hlast : rows.getLast? with
  | none =>
    have hnil : rows = [] := List.getLast?_eq_none_iff.1 hlast
    subst hnil
    refine ⟨[], rfl, ?_⟩
    intro row hrow
    cases hrow
  | some last =>
    obtain ⟨st, hst, _, hord⟩ := fillGapsState_GapOrderInv rows last hlast hs hp
    refine ⟨st.lumisections_with_empty_wholes, fillGaps_of_state rows st hst, ?_⟩
    intro row hrow n hn
    have hpos := hp row hrow
    have hrl := le_last_of_sorted rows last hlast hs row hrow
    exact hord.2.2 (n - 1) (by omega) row hrow (by rw [hn]; omega)

/-! ## The merged query returns its rows in strictly increasing order -/

theorem merged_lumisections_sorted (tables : Tables) (documents : List JSONBDeduplicationRow)
    (run_number : Int) (name : String) :
    StrictlyIncreasing (merged_lumisections tables documents run_number name) := by
  unfold StrictlyIncreasing merged_lumisections
  rw [List.pairwise_map]
  have hsorted : List.Sorted (fun a b : Int => a ≤ b)
      ((((updated_lumisectionEvents tables documents run_number name).map
        (fun r => r.lumisection_number)).dedup).insertionSort (fun a b => a ≤ b)) :=
    List.sorted_insertionSort _ _
  have hnodup : ((((updated_lumisectionEvents tables documents run_number name).map
        (fun r => r.lumisection_number)).dedup).insertionSort (fun a b => a ≤ b)).Nodup :=
    (List.perm_insertionSort _ _).nodup_iff.2 (List.nodup_dedup _)
  exact hsorted.lt_of_le hnodup

/-- C12: in the sequence returned by `get_lumisections_for_dataset`, every slice number `n` from
1 to the greatest assigned slice number that has no merged row has, at position `n`, the record
with exactly the components present as keys, each mapped to the empty triplet
`{status: 'EMPTY', comment: '', cause: ''}`; the components present are the keys that occur in
some merged row. -/
theorem get_lumisections_for_dataset_gap (db : Database) (run_number : Int) (name : String) :
    ∃ out, get_lumisections_for_dataset db run_number name = .returned out ∧
      (∀ k, k ∈ componentsPresent
          (merged_lumisections db.committed db.JSONBDeduplication run_number name) ↔
        ∃ row ∈ merged_lumisections db.committed db.JSONBDeduplication run_number name,
          k ∈ keysOf row.triplets) ∧
      ∀ n : Nat, 1 ≤ n →
        (∃ row ∈ merged_lumisections db.committed db.JSONBDeduplication run_number name,
          (n : Int) ≤ row.lumisection_number) →
        (∀ row ∈ merged_lumisections db.committed db.JSONBDeduplication run_number name,
          row.lumisection_number ≠ (n : Int)) →
        ∃ e, out[n - 1]? = some (some e) ∧
          ∀ k, getProp e k =
            if k ∈ componentsPresent
                (merged_lumisections db.committed db.JSONBDeduplication run_number name)
            then some emptyTriplet else none := by
  obtain ⟨out, hout, h⟩ := fillGaps_gap _
    (merged_lumisections_sorted db.committed db.JSONBDeduplication run_number name)
  refine ⟨out, hout, fun k => mem_componentsPresent _ k, ?_⟩
  intro n hn hmax hno
  exact ⟨_, h n hn hmax hno, fun k => getProp_emptyRecord _ k⟩

/-- The merged rows of `sampleStore`. -/
theorem merged_sampleStore :
    merged_lumisections sampleStore.committed sampleStore.JSONBDeduplication 1 "online" =
      [{ lumisection_number := 2, triplets := [("dt", triplet "GOOD"), ("csc", triplet "BAD")] },
       { lumisection_number := 3, triplets := [("csc", triplet "BAD"), ("dt", triplet "BAD")] },
       { lumisection_number := 5, triplets := [("dt", triplet "BAD")] }] := rfl

/-- The sequence reconstructed from `sampleStore`: the slices 1 and 4 are gaps. -/
theorem get_lumisections_for_dataset_sampleStore :
    get_lumisections_for_dataset sampleStore 1 "online" = .returned
      [some [("dt", emptyTriplet), ("csc", emptyTriplet)],
       some [("dt", triplet "GOOD"), ("csc", triplet "BAD")],
       some [("dt", triplet "BAD"), ("csc", triplet "BAD")],
       some [("dt", emptyTriplet), ("csc", emptyTriplet)],
       some [("dt", triplet "BAD"), ("csc", emptyTriplet)]] := rfl

theorem positive_sampleStore :
    PositiveSlices
      (merged_lumisections sampleStore.committed sampleStore.JSONBDeduplication 1 "online") := by
  rw [merged_sampleStore]
  intro row hrow
  simp only [List.mem_cons, List.mem_singleton, List.not_mem_nil, or_false] at hrow
  rcases hrow with rfl | rfl | rfl <;> decide

/-- C11 at the merged rows of `sampleStore` (slice numbers 2, 3, 5). -/
theorem fillGaps_dense_sample :
    StrictlyIncreasing
        (merged_lumisections sampleStore.committed sampleStore.JSONBDeduplication 1 "online") ∧
      PositiveSlices
        (merged_lumisections sampleStore.committed sampleStore.JSONBDeduplication 1 "online") ∧
      ∃ out, fillGaps
          (merged_lumisections sampleStore.committed sampleStore.JSONBDeduplication 1 "online") =
          .returned out ∧
        (merged_lumisections sampleStore.committed sampleStore.JSONBDeduplication 1 "online" = []
          → out = []) ∧
        (∀ row ∈ merged_lumisections sampleStore.committed sampleStore.JSONBDeduplication 1
            "online", row.lumisection_number ≤ (out.length : Int)) ∧
        (merged_lumisections sampleStore.committed sampleStore.JSONBDeduplication 1 "online" ≠ []
          → ∃ row ∈ merged_lumisections sampleStore.committed sampleStore.JSONBDeduplication 1
            "online", row.lumisection_number = (out.length : Int)) ∧
        (∀ n : Nat, 1 ≤ n → n ≤ out.length → ∃ e, out[n - 1]? = some (some e)) :=
  ⟨merged_lumisections_sorted _ _ _ _, positive_sampleStore,
    fillGaps_dense _ (merged_lumisections_sorted _ _ _ _) positive_sampleStore⟩

/-- C12 at `sampleStore`, whose slices 1 and 4 have no merged row. -/
theorem get_lumisections_for_dataset_gap_sample :
    ∃ out, get_lumisections_for_dataset sampleStore 1 "online" = .returned out ∧
      (∀ k, k ∈ componentsPresent
          (merged_lumisections sampleStore.committed sampleStore.JSONBDeduplication 1 "online") ↔
        ∃ row ∈ merged_lumisections sampleStore.committed sampleStore.JSONBDeduplication 1
          "online", k ∈ keysOf row.triplets) ∧
      ∀ n : Nat, 1 ≤ n →
        (∃ row ∈ merged_lumisections sampleStore.committed sampleStore.JSONBDeduplication 1
          "online", (n : Int) ≤ row.lumisection_number) →
        (∀ row ∈ merged_lumisections sampleStore.committed sampleStore.JSONBDeduplication 1
          "online", row.lumisection_number ≠ (n : Int)) →
        ∃ e, out[n - 1]? = some (some e) ∧
          ∀ k, getProp e k =
            if k ∈ componentsPresent
                (merged_lumisections sampleStore.committed sampleStore.JSONBDeduplication 1
                  "online")
            then some emptyTriplet else none :=
  get_lumisections_for_dataset_gap sampleStore 1 "online"

/-- C13 as stated fails twice.  In `scalarStore` the merged document of slice 1 is `{a: 5}`,
yet the entry of slice 1 holds the empty triplet under `a`.  In `sliceZeroStore` the rows are
those of the slices 0 and 1, and the entry of slice 1, whose merged document is `{dt: GOOD}`,
holds the empty triplet under `dt`. -/
theorem get_lumisections_for_dataset_filled_fails :
    (∃ out, get_lumisections_for_dataset scalarStore 1 "online" = .returned out ∧
      ¬ KeepsMergedValues
        (merged_lumisections scalarStore.committed scalarStore.JSONBDeduplication 1 "online")
        out) ∧
    (∃ out, get_lumisections_for_dataset sliceZeroStore 1 "online" = .returned out ∧
      ¬ KeepsMergedValues
        (merged_lumisections sliceZeroStore.committed sliceZeroStore.JSONBDeduplication 1
          "online") out) := by
  constructor
  · refine ⟨[some [("a", emptyTriplet)]], rfl, ?_⟩
    intro h
    have hrows : merged_lumisections scalarStore.committed scalarStore.JSONBDeduplication 1
        "online" = [{ lumisection_number := 1, triplets := [("a", .num 5)] }] := rfl
    rw [hrows] at h
    obtain ⟨e, he, hk⟩ := h _ (List.mem_singleton.2 rfl) 1 (le_refl _) rfl
    have he' : e = [("a", emptyTriplet)] := by
      have h1 : [some [("a", emptyTriplet)]][1 - 1]? = some (some [("a", emptyTriplet)]) := rfl
      rw [h1] at he
      injection he with he
      injection he with he
      exact he.symm
    subst he'
    have h2 := hk "a"
    have h3 : getProp [("a", emptyTriplet)] "a" = some emptyTriplet := rfl
    have h4 : (if "a" ∈ componentsPresent
        [{ lumisection_number := 1, triplets := [("a", JVal.num 5)] }] then
        (match getProp ({ lumisection_number := 1, triplets := [("a", JVal.num 5)] } :
            MergedRow).triplets "a" with
         | some v => some v
         | none => some emptyTriplet)
        else none) = some (JVal.num 5) := rfl
    rw [h3, h4] at h2
    injection h2 with h2
    cases h2
  · refine ⟨[some [("dt", emptyTriplet)]], rfl, ?_⟩
    intro h
    have hrows : merged_lumisections sliceZeroStore.committed sliceZeroStore.JSONBDeduplication
        1 "online" = [{ lumisection_number := 0, triplets := [("dt", triplet "GOOD")] },
          { lumisection_number := 1, triplets := [("dt", triplet "GOOD")] }] := rfl
    rw [hrows] at h
    obtain ⟨e, he, hk⟩ := h { lumisection_number := 1, triplets := [("dt", triplet "GOOD")] }
      (List.mem_cons_of_mem _ (List.mem_singleton.2 rfl)) 1 (le_refl _) rfl
    have he' : e = [("dt", emptyTriplet)] := by
      have h1 : [some [("dt", emptyTriplet)]][1 - 1]? = some (some [("dt", emptyTriplet)]) := rfl
      rw [h1] at he
      injection he with he
      injection he with he
      exact he.symm
    subst he'
    have h2 := hk "dt"
    have h3 : getProp [("dt", emptyTriplet)] "dt" = some emptyTriplet := rfl
    have h4 : (if "dt" ∈ componentsPresent
        [{ lumisection_number := 0, triplets := [("dt", triplet "GOOD")] },
          { lumisection_number := 1, triplets := [("dt", triplet "GOOD")] }] then
        (match getProp ({ lumisection_number := 1, triplets := [("dt", triplet "GOOD")] } :
            MergedRow).triplets "dt" with
         | some v => some v
         | none => some emptyTriplet)
        else none) = some (triplet "GOOD") := rfl
    rw [h3, h4] at h2
    simp [emptyTriplet, triplet] at h2

/-- C13, amended: when every merged row of the dataset has a positive slice number, the entry at
the position of every merged row has exactly the components present as keys; under a key whose
value in the merged document is of type object (an object, an array or `null`) it holds that
value, and under every other key (absent from the merged document, or holding a boolean, a number
or a string there) it holds the empty triplet `{status: 'EMPTY', comment: '', cause: ''}`. -/
theorem get_lumisections_for_dataset_filled (db : Database) (run_number : Int) (name : String)
    (hp : PositiveSlices
      (merged_lumisections db.committed db.JSONBDeduplication run_number name)) :
    ∃ out, get_lumisections_for_dataset db run_number name = .returned out ∧
      KeepsObjectValues
        (merged_lumisections db.committed db.JSONBDeduplication run_number name) out := by
  obtain ⟨out, hout, h⟩ := fillGaps_filled _
    (merged_lumisections_sorted db.committed db.JSONBDeduplication run_number name) hp
  refine ⟨out, hout, ?_⟩
  intro row hrow n _ hn
  exact ⟨_, h row hrow n hn, fun k => getProp_filledRecord _ _ k⟩

/-- C13 (amended) at `sampleStore`. -/
theorem get_lumisections_for_dataset_filled_sample :
    PositiveSlices
        (merged_lumisections sampleStore.committed sampleStore.JSONBDeduplication 1 "online") ∧
      ∃ out, get_lumisections_for_dataset sampleStore 1 "online" = .returned out ∧
        KeepsObjectValues
          (merged_lumisections sampleStore.committed sampleStore.JSONBDeduplication 1 "online")
          out :=
  ⟨positive_sampleStore, get_lumisections_for_dataset_filled sampleStore 1 "online"
    positive_sampleStore⟩

/-! ## Merge order in the merged query -/

theorem getProp_filter_notin (left : Obj) (ks : List String) (k : String) :
    getProp (left.filter (fun kv => decide (kv.1 ∉ ks))) k =
      if k ∈ ks then none else getProp left k := by
  induction left with
  | nil => simp [getProp_nil]
  | cons kv rest ih =>
    obtain ⟨k0, w⟩ := kv
    by_cases h0 : k0 ∈ ks
    · have hf : List.filter (fun kv => decide (kv.1 ∉ ks)) ((k0, w) :: rest) =
          List.filter (fun kv => decide (kv.1 ∉ ks)) rest := by
        simp [List.filter_cons, h0]
      rw [hf, ih, getProp_cons]
      by_cases hk : k ∈ ks
      · simp [hk]
      · have : ¬ k = k0 := fun e => hk (e ▸ h0)
        simp [hk, this]
    · have hf : List.filter (fun kv => decide (kv.1 ∉ ks)) ((k0, w) :: rest) =
          (k0, w) :: List.filter (fun kv => decide (kv.1 ∉ ks)) rest := by
        simp [List.filter_cons, h0]
      rw [hf, getProp_cons, getProp_cons, ih]
      by_cases hk : k = k0
      · subst hk
        simp [h0]
      · simp [hk]

/-- The operator `||`: the value of the right document under a key it has, else the value of the
left document. -/
theorem getProp_jsonbConcat (left right : Obj) (k : String) :
    getProp (jsonbConcat left right) k =
      match getProp right k with
      | some v => some v
      | none => getProp left k := by
  unfold jsonbConcat
  rw [getProp_append, getProp_filter_notin]
  cases h : getProp right k with
  | none =>
    have hk : k ∉ keysOf right := (getProp_eq_none_iff right k).1 h
    rw [if_neg hk]
    cases getProp left k <;> rfl
  | some v =>
    have hk : k ∈ keysOf right := mem_keysOf_of_getProp right k v h
    rw [if_pos hk]
    rfl

theorem mergejsonb_pair (d1 d2 : Obj) (k : String) :
    getProp (mergejsonb [d1, d2]) k =
      match getProp d2 k with
      | some v => some v
      | none => getProp d1 k := by
  have h : mergejsonb [d1, d2] = jsonbConcat d1 d2 := by
    simp [mergejsonb, jsonbConcat]
  rw [h, getProp_jsonbConcat]

theorem documentsOfSlice_pair (rows : List UpdatedLumisectionEvent) (n : Int)
    (r1 r2 : UpdatedLumisectionEvent) (hv : r1.version < r2.version)
    (hrows : rows.filter (fun r => decide (r.lumisection_number = n)) = [r1, r2] ∨
      rows.filter (fun r => decide (r.lumisection_number = n)) = [r2, r1]) :
    documentsOfSlice rows n = [r1.lumisection_metadata, r2.lumisection_metadata] := by
  unfold documentsOfSlice
  rcases hrows with h | h
  · rw [h]
    have : r1.version ≤ r2.version := le_of_lt hv
    simp [List.insertionSort, List.orderedInsert, this]
  · rw [h]
    have : ¬ r2.version ≤ r1.version := not_le.2 hv
    simp [List.insertionSort, List.orderedInsert, this]

/-- C19: when the events assigned to slice `n` of a run and dataset are two, at versions
`v1 < v2`, the merged document that `get_lumisections_for_dataset` reads for slice `n` has the
value of the `v2` document under every key of that document (so under every key present in
both), and the value of the `v1` document under every key present only there. -/
theorem merged_lumisections_last_write_wins (db : Database) (run_number : Int) (name : String)
    (n : Int) (r1 r2 : UpdatedLumisectionEvent) (hv : r1.version < r2.version)
    (hrows :
      (updated_lumisectionEvents db.committed db.JSONBDeduplication run_number name).filter
          (fun r => decide (r.lumisection_number = n)) = [r1, r2] ∨
      (updated_lumisectionEvents db.committed db.JSONBDeduplication run_number name).filter
          (fun r => decide (r.lumisection_number = n)) = [r2, r1]) :
    ∃ row ∈ merged_lumisections db.committed db.JSONBDeduplication run_number name,
      row.lumisection_number = n ∧
      (∀ k v, getProp r2.lumisection_metadata k = some v → getProp row.triplets k = some v) ∧
      (∀ k, getProp r2.lumisection_metadata k = none →
        getProp row.triplets k = getProp r1.lumisection_metadata k) := by
  have hmem : r1 ∈ (updated_lumisectionEvents db.committed db.JSONBDeduplication run_number
      name).filter (fun r => decide (r.lumisection_number = n)) := by
    rcases hrows with h | h <;> rw [h] <;> simp
  have hn : n ∈ (updated_lumisectionEvents db.committed db.JSONBDeduplication run_number
      name).map (fun r => r.lumisection_number) := by
    rw [List.mem_filter] at hmem
    exact List.mem_map.2 ⟨r1, hmem.1, by simpa using hmem.2⟩
  refine ⟨{ lumisection_number := n
            triplets := mergejsonb (documentsOfSlice
              (updated_lumisectionEvents db.committed db.JSONBDeduplication run_number name)
              n) }, ?_, rfl, ?_, ?_⟩
  · unfold merged_lumisections
    apply List.mem_map.2
    exact ⟨n, (List.mem_insertionSort _).2 (List.mem_dedup.2 hn), rfl⟩
  · intro k v hk
    simp only [documentsOfSlice_pair _ n r1 r2 hv hrows, mergejsonb_pair, hk]
  · intro k hk
    simp only [documentsOfSlice_pair _ n r1 r2 hv hrows, mergejsonb_pair, hk]

/-- C19 at slice 3 of `sampleStore`, assigned by the versions 5 and 6: the merged document has
`dt` from version 6 and keeps `csc` from version 5. -/
theorem merged_lumisections_last_write_wins_sample :
    ∃ row ∈ merged_lumisections sampleStore.committed sampleStore.JSONBDeduplication 1 "online",
      row.lumisection_number = 3 ∧
      (∀ k v, getProp [("dt", triplet "BAD")] k = some v → getProp row.triplets k = some v) ∧
      (∀ k, getProp [("dt", triplet "BAD")] k = none →
        getProp row.triplets k = getProp [("dt", triplet "GOOD"), ("csc", triplet "BAD")] k) :=
  merged_lumisections_last_write_wins sampleStore 1 "online" 3
    { version := 5, lumisection_metadata := [("dt", triplet "GOOD"), ("csc", triplet "BAD")],
      lumisection_number := 3 }
    { version := 6, lumisection_metadata := [("dt", triplet "BAD")], lumisection_number := 3 }
    (by decide) (Or.inl rfl)

/-! ## The store -/

theorem le_foldl_max (l : List Nat) : ∀ (b x : Nat), x = b ∨ x ∈ l → x ≤ l.foldl max b := by
  induction l with
  | nil =>
    intro b x h
    rcases h with rfl | h
    · exact le_refl _
    · cases h
  | cons a l ih =>
    intro b x h
    rw [List.foldl_cons]
    rcases h with rfl | h
    · exact le_trans (le_max_left x a) (ih (max x a) (max x a) (Or.inl rfl))
    · rcases List.mem_cons.1 h with rfl | h
      · exact le_trans (le_max_right b x) (ih (max b x) (max b x) (Or.inl rfl))
      · exact ih (max b a) x (Or.inr h)

theorem le_maxOf (l : List Nat) (x : Nat) (h : x ∈ l) : x ≤ maxOf l :=
  le_foldl_max l 0 x (Or.inr h)

/-- No open transaction has the fresh identifier. -/
theorem freshTransaction_ne (db : Database) (p : Nat × Tables) (hp : p ∈ db.transactions) :
    p.1 ≠ db.freshTransaction := by
  have := le_maxOf (db.transactions.map Prod.fst) p.1 (List.mem_map_of_mem Prod.fst hp)
  unfold Database.freshTransaction
  omega

theorem find?_transactions_fresh (db : Database) (rest : List (Nat × Tables)) :
    (db.transactions ++ rest).find? (fun p => decide (p.1 = db.freshTransaction)) =
      rest.find? (fun p => decide (p.1 = db.freshTransaction)) := by
  rw [List.find?_append]
  have : db.transactions.find? (fun p => decide (p.1 = db.freshTransaction)) = none := by
    rw [List.find?_eq_none]
    intro p hp
    simpa using freshTransaction_ne db p hp
  rw [this]
  rfl

theorem pendingOf_write (db : Database) (t : Nat) (f : Tables → Tables) :
    (db.write t f).pendingOf t = (db.pendingOf t).map f := by
  unfold Database.pendingOf Database.write
  simp only
  induction db.transactions with
  | nil => rfl
  | cons p rest ih =>
    rw [List.map_cons, List.find?_cons, List.find?_cons]
    by_cases hp : p.1 = t
    · simp [hp]
    · have h1 : decide ((if p.1 = t then (p.1, f p.2) else p).1 = t) = false := by simp [hp]
      have h2 : decide (p.1 = t) = false := by simp [hp]
      simp only [h1, h2]
      exact ih

theorem filter_map_write (l : List (Nat × Tables)) (t : Nat) (f : Tables → Tables) :
    (l.map (fun p => if p.1 = t then (p.1, f p.2) else p)).filter (fun p => decide (p.1 ≠ t)) =
      l.filter (fun p => decide (p.1 ≠ t)) := by
  induction l with
  | nil => rfl
  | cons p rest ih =>
    by_cases hp : p.1 = t
    · simpa [List.filter_cons, hp] using ih
    · simpa [List.filter_cons, hp] using ih

theorem filter_fresh (db : Database) :
    db.transactions.filter (fun p => decide (p.1 ≠ db.freshTransaction)) = db.transactions := by
  rw [List.filter_eq_self]
  intro p hp
  simpa using freshTransaction_ne db p hp

theorem SameOutside.refl (t : Nat) (db : Database) : SameOutside t db db := ⟨rfl, rfl⟩

theorem SameOutside.trans {t : Nat} {a b c : Database} (h1 : SameOutside t a b)
    (h2 : SameOutside t b c) : SameOutside t a c :=
  ⟨h2.1.trans h1.1, h2.2.trans h1.2⟩

theorem SameOutside.write (t : Nat) (db : Database) (f : Tables → Tables) :
    SameOutside t db (db.write t f) :=
  ⟨rfl, filter_map_write db.transactions t f⟩

/-! ## The rows built by `update_or_create_lumisection` -/

theorem mem_sliceNumbers (s e i : Int) : i ∈ sliceNumbers s e ↔ s ≤ i ∧ i ≤ e := by
  unfold sliceNumbers
  rw [List.mem_map]
  constructor
  · rintro ⟨k, hk, rfl⟩
    rw [List.mem_range] at hk
    omega
  · rintro ⟨h1, h2⟩
    refine ⟨(i - s).toNat, ?_, ?_⟩
    · rw [List.mem_range]; omega
    · omega

theorem length_sliceNumbers (s e : Int) : (sliceNumbers s e).length = (e - s + 1).toNat := by
  simp [sliceNumbers]

theorem sliceNumbers_increasing (s e : Int) :
    (sliceNumbers s e).Pairwise (fun a b => a < b) := by
  unfold sliceNumbers
  rw [List.pairwise_map]
  have h : (List.range (e - s + 1).toNat).Pairwise (fun a b => a < b) := List.pairwise_lt_range _
  exact h.imp (fun {a b} hab => by omega)

/-! ## `update_or_create_lumisection` -/

theorem write_committed (db : Database) (t : Nat) (f : Tables → Tables) :
    (db.write t f).committed = db.committed := rfl

theorem write_transactions_filter (db : Database) (t : Nat) (f : Tables → Tables) :
    List.filter (fun p => !decide (p.1 = t)) (db.write t f).transactions =
      List.filter (fun p => !decide (p.1 = t)) db.transactions := by
  have h := filter_map_write db.transactions t f
  simpa [Database.write] using h

/-- When the `try` block fails or runs inside a transaction of the caller, nothing changes
outside transaction `t`. -/
theorem lumisectionTry_sameOutside (run_number : Int) (dataset_name : String)
    (lumisection_metadata : Obj) (start_lumisection end_lumisection : Int) (by_ : String)
    (comment : Option String) (LSEvent : LSModels) (t : Nat) (local_transaction : Bool)
    (fault : Option DbStep) (db : Database)
    (h : (lumisectionTry run_number dataset_name lumisection_metadata start_lumisection
        end_lumisection by_ comment LSEvent t local_transaction fault db).1 = none ∨
      local_transaction = false) :
    SameOutside t db
      (lumisectionTry run_number dataset_name lumisection_metadata start_lumisection
        end_lumisection by_ comment LSEvent t local_transaction fault db).2 := by
  cases hp : (db.pendingOf t).isNone
  · rcases fault with _ | f
    · cases local_transaction <;>
        simp [lumisectionTry, hp, SameOutside, findOrCreateJSONB, write_committed,
          write_transactions_filter] at h ⊢
    · cases f <;> cases local_transaction <;>
        simp [lumisectionTry, hp, SameOutside, findOrCreateJSONB, write_committed,
          write_transactions_filter] at h ⊢
  · simp [lumisectionTry, hp, SameOutside]

theorem pendingOf_begin (db : Database) :
    db.begin.2.pendingOf db.begin.1 = some Tables.empty := by
  unfold Database.pendingOf Database.begin
  simp only
  rw [find?_transactions_fresh]
  simp

theorem begin_committed (db : Database) : db.begin.2.committed = db.committed := rfl

theorem begin_transactions_filter (db : Database) :
    List.filter (fun p => !decide (p.1 = db.begin.1)) db.begin.2.transactions =
      db.transactions := by
  have h := filter_fresh db
  simp only [Database.begin, List.filter_append]
  simp only [ne_eq, decide_not] at h
  rw [h]
  simp

theorem rollback_transactions (db : Database) (t : Nat) :
    (db.rollback t).transactions = List.filter (fun p => !decide (p.1 = t)) db.transactions := by
  simp [Database.rollback]

/-- The actor of a request is missing exactly when neither `req.email` nor the `email` header is
a non-empty string. -/
theorem actor_missing (req : Request) (h1 : truthy req.email = false)
    (h2 : truthy (req.get "email") = false) :
    jsOr req.email (req.get "email") = none ∨ jsOr req.email (req.get "email") = some "" := by
  unfold jsOr
  rw [h1]
  simp only [Bool.false_eq_true, if_false]
  cases h : req.get "email" with
  | none => exact Or.inl rfl
  | some s =>
    rw [h] at h2
    right
    simp [truthy] at h2
    rw [h2]

theorem actor_present (req : Request) (h : truthy (jsOr req.email (req.get "email")) = true) :
    ∃ author, jsOr req.email (req.get "email") = some author ∧ author ≠ "" := by
  cases hj : jsOr req.email (req.get "email") with
  | none => rw [hj] at h; simp [truthy] at h
  | some s =>
    rw [hj] at h
    exact ⟨s, rfl, by simpa [truthy] using h⟩

/-- C15: whenever the request supplies no non-empty actor, neither as `req.email` nor as the
`email` header, `update_or_create_lumisection` and `update_or_create_run` throw the missing-actor
error and leave the store exactly as it was: no event, lumisection or run event, assignment or
transaction is created. -/
theorem missing_actor_no_side_effect (req : Request) (h1 : truthy req.email = false)
    (h2 : truthy (req.get "email") = false) :
    (∀ (run_number : Int) (dataset_name : String) (lumisection_metadata : Obj)
        (start_lumisection end_lumisection : Int) (LSEvent : LSModels)
        (transaction : Option Nat) (fault : Option DbStep) (db : Database),
      update_or_create_lumisection run_number dataset_name lumisection_metadata
        start_lumisection end_lumisection req LSEvent transaction fault db =
        (.threw missingActorMessage, db)) ∧
    (∀ (run_number : Int) (oms_metadata rr_metadata : Obj) (transaction : Option Nat)
        (fault : Option DbStep) (db : Database),
      update_or_create_run run_number oms_metadata rr_metadata req transaction fault db =
        (.threw missingActorMessage, db)) := by
  constructor
  · intro run_number dataset_name lumisection_metadata start_lumisection end_lumisection LSEvent
      transaction fault db
    unfold update_or_create_lumisection
    rcases actor_missing req h1 h2 with h | h
    · simp only [h]
    · simp only [h, if_true]
  · intro run_number oms_metadata rr_metadata transaction fault db
    unfold update_or_create_run
    rcases actor_missing req h1 h2 with h | h
    · simp only [h]
    · simp only [h, if_true]

/-- C15 at a request without any actor. -/
theorem missing_actor_no_side_effect_sample :
    truthy anonymousRequest.email = false ∧ truthy (anonymousRequest.get "email") = false ∧
      update_or_create_lumisection 1 "online" (docA 1) 3 5 anonymousRequest .rr none none
        emptyStore = (.threw missingActorMessage, emptyStore) ∧
      update_or_create_run 1 [] [("state", .str "OPEN")] anonymousRequest none none emptyStore =
        (.threw missingActorMessage, emptyStore) :=
  ⟨rfl, rfl,
    (missing_actor_no_side_effect anonymousRequest rfl rfl).1 1 "online" (docA 1) 3 5 .rr none
      none emptyStore,
    (missing_actor_no_side_effect anonymousRequest rfl rfl).2 1 [] [("state", .str "OPEN")] none
      none emptyStore⟩

theorem lumisectionTry_fails (run_number : Int) (dataset_name : String)
    (lumisection_metadata : Obj) (start_lumisection end_lumisection : Int) (by_ : String)
    (comment : Option String) (LSEvent : LSModels) (t : Nat) (local_transaction : Bool)
    (inserted : Nat) (fault : DbStep) (hfault : fault ∈ lumisectionSteps inserted)
    (db : Database) :
    (lumisectionTry run_number dataset_name lumisection_metadata start_lumisection
      end_lumisection by_ comment LSEvent t local_transaction (some fault) db).1 = none := by
  simp only [lumisectionSteps, List.mem_cons, List.mem_singleton, List.not_mem_nil,
    or_false] at hfault
  rcases hfault with rfl | rfl | rfl | rfl <;>
    cases hp : (db.pendingOf t).isNone <;> simp [lumisectionTry, hp]

/-- The `try` block without a failing step, inside the open transaction `t` of a caller: the
event, the lumisection event and the assignment rows join the rows written through `t`. -/
theorem lumisectionTry_success (run_number : Int) (dataset_name : String)
    (lumisection_metadata : Obj) (start_lumisection end_lumisection : Int) (by_ : String)
    (comment : Option String) (LSEvent : LSModels) (t : Nat) (db : Database) (p : Tables)
    (hp : db.pendingOf t = some p) :
    (lumisectionTry run_number dataset_name lumisection_metadata start_lumisection
        end_lumisection by_ comment LSEvent t false none db).1 =
      some { run_number := run_number, name := dataset_name,
             lumisection_metadata_id :=
               (internDocument db.JSONBDeduplication lumisection_metadata).1.id,
             version := db.nextVersion } ∧
    (lumisectionTry run_number dataset_name lumisection_metadata start_lumisection
        end_lumisection by_ comment LSEvent t false none db).2.committed = db.committed ∧
    (lumisectionTry run_number dataset_name lumisection_metadata start_lumisection
        end_lumisection by_ comment LSEvent t false none db).2.pendingOf t = some
      (LSEvent.insertAssignations
        (lumisection_entries db.nextVersion start_lumisection end_lumisection)
        (LSEvent.insertEvent
          { run_number := run_number, name := dataset_name,
            lumisection_metadata_id :=
              (internDocument db.JSONBDeduplication lumisection_metadata).1.id,
            version := db.nextVersion }
          { p with
            Event := p.Event ++
              [{ version := db.nextVersion, by_ := by_, comment := comment }] })) := by
  have hn : (db.pendingOf t).isNone = false := by rw [hp]; rfl
  have h0 : ({ db with nextVersion := db.nextVersion + 1 } : Database).pendingOf t = some p := hp
  have h2 : ∀ d : Database, (findOrCreateJSONB d lumisection_metadata).2.pendingOf t =
      d.pendingOf t := fun d => rfl
  refine ⟨?_, ?_, ?_⟩
  · simp [lumisectionTry, hn]
    rfl
  · simp [lumisectionTry, hn, findOrCreateJSONB, write_committed]
  · simp only [lumisectionTry, hn]
    simp only [Bool.false_eq_true, or_false, reduceCtorEq, if_false]
    rw [pendingOf_write, pendingOf_write, h2, pendingOf_write, h0]
    rfl

theorem lumisectionTry_local (run_number : Int) (dataset_name : String)
    (lumisection_metadata : Obj) (start_lumisection end_lumisection : Int) (by_ : String)
    (comment : Option String) (LSEvent : LSModels) (t : Nat) (db : Database) (p : Tables)
    (hp : db.pendingOf t = some p) :
    lumisectionTry run_number dataset_name lumisection_metadata start_lumisection
        end_lumisection by_ comment LSEvent t true none db =
      ((lumisectionTry run_number dataset_name lumisection_metadata start_lumisection
          end_lumisection by_ comment LSEvent t false none db).1,
        (lumisectionTry run_number dataset_name lumisection_metadata start_lumisection
          end_lumisection by_ comment LSEvent t false none db).2.commit t) := by
  have hn : (db.pendingOf t).isNone = false := by rw [hp]; rfl
  simp [lumisectionTry, hn]

theorem commit_committed (db : Database) (t : Nat) (p : Tables) (hp : db.pendingOf t = some p) :
    (db.commit t).committed = db.committed.append p := by
  unfold Database.commit
  rw [hp]

theorem view_eq (db : Database) (t : Nat) (p : Tables) (hp : db.pendingOf t = some p) :
    db.view t = db.committed.append p := by
  unfold Database.view
  rw [hp]

theorem lumisection_entries_facts (version : Nat) (s e : Int) :
    (lumisection_entries version s e).map (fun row => row.lumisection_number) =
        sliceNumbers s e ∧
      (∀ row ∈ lumisection_entries version s e, row.version = version) ∧
      (lumisection_entries version s e).length = (e - s + 1).toNat := by
  refine ⟨?_, ?_, ?_⟩
  · simp [lumisection_entries, List.map_map, Function.comp_def]
  · intro row hrow
    simp only [lumisection_entries, List.mem_map] at hrow
    obtain ⟨i, _, rfl⟩ := hrow
    rfl
  · simp [lumisection_entries, length_sliceNumbers]

/-- C14: a call of `update_or_create_lumisection` by a named actor in which no step fails, in a
transaction of its own or in an open transaction of the caller, creates one Event, whose version
the returned LumisectionEvent carries, and adds exactly the assignment rows of that version for
the slice numbers `start..end`: one row per slice number, in increasing order and so pairwise
distinct, `end - start + 1` of them when `start ≤ end` and none when `start > end`. -/
theorem update_or_create_lumisection_assigns (run_number : Int) (dataset_name : String)
    (lumisection_metadata : Obj) (start_lumisection end_lumisection : Int) (req : Request)
    (LSEvent : LSModels) (transaction : Option Nat) (db : Database)
    (hactor : truthy (jsOr req.email (req.get "email")) = true)
    (htx : ∀ t, transaction = some t → ∃ p, db.pendingOf t = some p) :
    ∃ lumisectionEvent db',
      update_or_create_lumisection run_number dataset_name lumisection_metadata
        start_lumisection end_lumisection req LSEvent transaction none db =
        (.returned lumisectionEvent, db') ∧
      lumisectionEvent.version = db.nextVersion ∧
      (∃ author, (db'.visible transaction).Event = (db.visible transaction).Event ++
        [{ version := db.nextVersion, by_ := author,
           comment := jsOr req.comment (req.get "comment") }]) ∧
      LSEvent.events (db'.visible transaction) =
        LSEvent.events (db.visible transaction) ++ [lumisectionEvent] ∧
      LSEvent.assignations (db'.visible transaction) =
        LSEvent.assignations (db.visible transaction) ++
          lumisection_entries db.nextVersion start_lumisection end_lumisection ∧
      (lumisection_entries db.nextVersion start_lumisection end_lumisection).map
        (fun row => row.lumisection_number) = sliceNumbers start_lumisection end_lumisection ∧
      (∀ row ∈ lumisection_entries db.nextVersion start_lumisection end_lumisection,
        row.version = db.nextVersion) ∧
      (lumisection_entries db.nextVersion start_lumisection end_lumisection).length =
        (end_lumisection - start_lumisection + 1).toNat ∧
      (∀ i, i ∈ sliceNumbers start_lumisection end_lumisection ↔
        start_lumisection ≤ i ∧ i ≤ end_lumisection) ∧
      (sliceNumbers start_lumisection end_lumisection).Pairwise (fun a b => a < b) := by
  obtain ⟨author, hauthor, hne⟩ := actor_present req hactor
  obtain ⟨f1, f2, f3⟩ :=
    lumisection_entries_facts db.nextVersion start_lumisection end_lumisection
  cases transaction with
  | none =>
    have hp0 := pendingOf_begin db
    obtain ⟨s1, s2, s3⟩ := lumisectionTry_success run_number dataset_name lumisection_metadata
      start_lumisection end_lumisection author (jsOr req.comment (req.get "comment")) LSEvent
      db.begin.1 db.begin.2 Tables.empty hp0
    have hloc := lumisectionTry_local run_number dataset_name lumisection_metadata
      start_lumisection end_lumisection author (jsOr req.comment (req.get "comment")) LSEvent
      db.begin.1 db.begin.2 Tables.empty hp0
    refine ⟨LumisectionEventRow.mk run_number dataset_name
        (internDocument db.JSONBDeduplication lumisection_metadata).1.id db.nextVersion,
      (lumisectionTry run_number dataset_name lumisection_metadata start_lumisection
        end_lumisection author (jsOr req.comment (req.get "comment")) LSEvent db.begin.1 false
        none db.begin.2).2.commit db.begin.1,
      ?_, rfl, ⟨author, ?_⟩, ?_, ?_, f1, f2, f3, mem_sliceNumbers _ _,
      sliceNumbers_increasing _ _⟩
    · unfold update_or_create_lumisection
      simp only [hauthor, if_neg hne]
      simp only [reduceCtorEq, if_false, hloc, s1]
      rfl
    · simp only [Database.visible]
      rw [commit_committed _ _ _ s3, s2]
      cases LSEvent <;>
        simp [Database.begin, Tables.append, Tables.empty, LSModels.insertEvent,
          LSModels.insertAssignations]
    · simp only [Database.visible]
      rw [commit_committed _ _ _ s3, s2]
      cases LSEvent <;>
        simp [Database.begin, Tables.append, Tables.empty, LSModels.insertEvent,
          LSModels.insertAssignations, LSModels.events]
    · simp only [Database.visible]
      rw [commit_committed _ _ _ s3, s2]
      cases LSEvent <;>
        simp [Database.begin, Tables.append, Tables.empty, LSModels.insertEvent,
          LSModels.insertAssignations, LSModels.assignations]
  | some t =>
    obtain ⟨p, hp⟩ := htx t rfl
    obtain ⟨s1, s2, s3⟩ := lumisectionTry_success run_number dataset_name lumisection_metadata
      start_lumisection end_lumisection author (jsOr req.comment (req.get "comment")) LSEvent
      t db p hp
    refine ⟨LumisectionEventRow.mk run_number dataset_name
        (internDocument db.JSONBDeduplication lumisection_metadata).1.id db.nextVersion,
      (lumisectionTry run_number dataset_name lumisection_metadata
        start_lumisection end_lumisection author (jsOr req.comment (req.get "comment")) LSEvent
        t false none db).2, ?_, rfl, ⟨author, ?_⟩, ?_, ?_, f1, f2, f3, mem_sliceNumbers _ _,
      sliceNumbers_increasing _ _⟩
    · unfold update_or_create_lumisection
      simp only [hauthor, if_neg hne]
      cases hres : lumisectionTry run_number dataset_name lumisection_metadata
        start_lumisection end_lumisection author (jsOr req.comment (req.get "comment")) LSEvent
        t false none db with
      | mk r d =>
        rw [hres] at s1
        simp only at s1
        subst s1
        rfl
    · simp only [Database.visible]
      rw [view_eq _ _ _ s3, view_eq _ _ _ hp, s2]
      cases LSEvent <;>
        simp [Tables.append, LSModels.insertEvent, LSModels.insertAssignations]
    · simp only [Database.visible]
      rw [view_eq _ _ _ s3, view_eq _ _ _ hp, s2]
      cases LSEvent <;>
        simp [Tables.append, LSModels.insertEvent, LSModels.insertAssignations, LSModels.events]
    · simp only [Database.visible]
      rw [view_eq _ _ _ s3, view_eq _ _ _ hp, s2]
      cases LSEvent <;>
        simp [Tables.append, LSModels.insertEvent, LSModels.insertAssignations,
          LSModels.assignations]

/-- C14 at the call that writes `{a: 1}` to the slices 3..5 of dataset `online` of run 1, in a
transaction of its own on the empty store. -/
theorem update_or_create_lumisection_assigns_sample :
    truthy (jsOr sampleRequest.email (sampleRequest.get "email")) = true ∧
    ∃ lumisectionEvent db',
      update_or_create_lumisection 1 "online" (docA 1) 3 5 sampleRequest .rr none none
        emptyStore = (.returned lumisectionEvent, db') ∧
      lumisectionEvent.version = emptyStore.nextVersion ∧
      (∃ author, (db'.visible none).Event = (emptyStore.visible none).Event ++
        [{ version := emptyStore.nextVersion, by_ := author,
           comment := jsOr sampleRequest.comment (sampleRequest.get "comment") }]) ∧
      LSModels.rr.events (db'.visible none) =
        LSModels.rr.events (emptyStore.visible none) ++ [lumisectionEvent] ∧
      LSModels.rr.assignations (db'.visible none) =
        LSModels.rr.assignations (emptyStore.visible none) ++
          lumisection_entries emptyStore.nextVersion 3 5 ∧
      (lumisection_entries emptyStore.nextVersion 3 5).map
        (fun row => row.lumisection_number) = sliceNumbers 3 5 ∧
      (∀ row ∈ lumisection_entries emptyStore.nextVersion 3 5,
        row.version = emptyStore.nextVersion) ∧
      (lumisection_entries emptyStore.nextVersion 3 5).length = ((5 : Int) - 3 + 1).toNat ∧
      (∀ i, i ∈ sliceNumbers 3 5 ↔ (3 : Int) ≤ i ∧ i ≤ 5) ∧
      (sliceNumbers 3 5).Pairwise (fun a b => a < b) :=
  ⟨rfl, update_or_create_lumisection_assigns 1 "online" (docA 1) 3 5 sampleRequest .rr none
    emptyStore rfl (fun t ht => by cases ht)⟩

/-- The slice numbers of the sample call are 3, 4 and 5. -/
theorem sliceNumbers_sample : sliceNumbers 3 5 = [3, 4, 5] ∧ sliceNumbers 5 3 = [] :=
  ⟨rfl, rfl⟩

theorem pendingOf_findOrCreateJSONB (db : Database) (document : Obj) (t : Nat) :
    (findOrCreateJSONB db document).2.pendingOf t = db.pendingOf t := rfl

theorem pendingOf_nextVersion (db : Database) (n t : Nat) :
    ({ db with nextVersion := n } : Database).pendingOf t = db.pendingOf t := rfl

/-- Inside an open transaction of the caller the `try` block never ends that transaction,
whichever step fails. -/
theorem lumisectionTry_open (run_number : Int) (dataset_name : String)
    (lumisection_metadata : Obj) (start_lumisection end_lumisection : Int) (by_ : String)
    (comment : Option String) (LSEvent : LSModels) (t : Nat) (fault : Option DbStep)
    (db : Database) (p : Tables) (hp : db.pendingOf t = some p) :
    ∃ p', (lumisectionTry run_number dataset_name lumisection_metadata start_lumisection
      end_lumisection by_ comment LSEvent t false fault db).2.pendingOf t = some p' := by
  have hn : (db.pendingOf t).isNone = false := by rw [hp]; rfl
  rcases fault with _ | f
  · simp [lumisectionTry, hn, pendingOf_write, pendingOf_findOrCreateJSONB,
      pendingOf_nextVersion, hp]
  · cases f <;>
      simp [lumisectionTry, hn, pendingOf_write, pendingOf_findOrCreateJSONB,
        pendingOf_nextVersion, hp]

/-- When the interning of the document fails inside an open transaction of the caller, the event
already created stays written in that transaction. -/
theorem lumisectionTry_interning_fails (run_number : Int) (dataset_name : String)
    (lumisection_metadata : Obj) (start_lumisection end_lumisection : Int) (by_ : String)
    (comment : Option String) (LSEvent : LSModels) (t : Nat) (db : Database) (p : Tables)
    (hp : db.pendingOf t = some p) :
    (lumisectionTry run_number dataset_name lumisection_metadata start_lumisection
      end_lumisection by_ comment LSEvent t false (some .findOrCreateJSONB) db).2.pendingOf t =
      some { p with
        Event := p.Event ++ [{ version := db.nextVersion, by_ := by_, comment := comment }] } := by
  have hn : (db.pendingOf t).isNone = false := by rw [hp]; rfl
  simp [lumisectionTry, hn, pendingOf_write, pendingOf_nextVersion, hp]

/-- C16 as stated fails: called with the open transaction 1 of a caller, with the interning of
the document failing, `update_or_create_lumisection` throws and leaves transaction 1 open with
the event of version 7 written in it and no lumisection event or assignment row; nothing is
undone, and a commit of the caller makes that event visible on its own. -/
theorem update_or_create_lumisection_leaves_rows :
    (∃ e, (update_or_create_lumisection 1 "online" (docA 1) 3 5 sampleRequest .rr (some 1)
        (some .findOrCreateJSONB) emptyStore.begin.2).1 = .threw e) ∧
    (emptyStore.begin.2.transactions.map
      (fun p => (p.1, p.2.Event.map (fun r => r.version))) = [(1, [])]) ∧
    ((update_or_create_lumisection 1 "online" (docA 1) 3 5 sampleRequest .rr (some 1)
        (some .findOrCreateJSONB) emptyStore.begin.2).2.transactions.map
      (fun p => (p.1, p.2.Event.map (fun r => r.version),
        p.2.LumisectionEvent.map (fun r => r.version),
        p.2.LumisectionEventAssignation.map (fun r => (r.version, r.lumisection_number)))) =
      [(1, [7], [], [])]) ∧
    (((update_or_create_lumisection 1 "online" (docA 1) 3 5 sampleRequest .rr (some 1)
        (some .findOrCreateJSONB) emptyStore.begin.2).2.commit 1).committed.Event.map
      (fun r => r.version) = [7]) ∧
    ¬ Undone emptyStore.begin.2
      (update_or_create_lumisection 1 "online" (docA 1) 3 5 sampleRequest .rr (some 1)
        (some .findOrCreateJSONB) emptyStore.begin.2).2 := by
  refine ⟨⟨_, rfl⟩, rfl, rfl, rfl, ?_⟩
  intro h
  have h1 := congrArg (List.map (fun p : Nat × Tables => p.2.Event.length)) h.2
  have h2 : (update_or_create_lumisection 1 "online" (docA 1) 3 5 sampleRequest .rr (some 1)
      (some .findOrCreateJSONB) emptyStore.begin.2).2.transactions.map
      (fun p : Nat × Tables => p.2.Event.length) = [1] := rfl
  have h3 : emptyStore.begin.2.transactions.map (fun p : Nat × Tables => p.2.Event.length) =
      [0] := rfl
  rw [h2, h3] at h1
  exact absurd h1 (by decide)

/-- C16, amended: when one of the steps after the actor check fails (event creation, document
interning, lumisection-event creation or the bulk insert, possibly after some rows), the call
throws.  If it opened its own transaction, that transaction is rolled back: the committed tables
and the open transactions are as before.  If it ran in an open transaction of the caller, the call
does not end that transaction, neither by a rollback nor by a commit: the transaction is still
open after the throw, nothing changes outside it, and only a rollback of the caller leaves the
store as a rollback before the call would have.  In particular, when the interning of the
document fails, the event created before it stays written in the transaction of the caller, the
store is not as before, and a commit of the caller makes that event visible. -/
theorem update_or_create_lumisection_atomic (run_number : Int) (dataset_name : String)
    (lumisection_metadata : Obj) (start_lumisection end_lumisection : Int) (req : Request)
    (LSEvent : LSModels) (inserted : Nat) (fault : DbStep) (db : Database)
    (hfault : fault ∈ lumisectionSteps inserted)
    (hactor : truthy (jsOr req.email (req.get "email")) = true) :
    (∃ e db',
      update_or_create_lumisection run_number dataset_name lumisection_metadata
        start_lumisection end_lumisection req LSEvent none (some fault) db = (.threw e, db') ∧
      Undone db db') ∧
    (∀ t, ∃ e db',
      update_or_create_lumisection run_number dataset_name lumisection_metadata
        start_lumisection end_lumisection req LSEvent (some t) (some fault) db =
        (.threw e, db') ∧
      SameOutside t db db' ∧ Undone (db.rollback t) (db'.rollback t) ∧
      ∀ p, db.pendingOf t = some p →
        (∃ p', db'.pendingOf t = some p') ∧
        (fault = .findOrCreateJSONB →
          db'.pendingOf t = some
            { p with
              Event := p.Event ++
                [{ version := db.nextVersion,
                   by_ := (jsOr req.email (req.get "email")).getD "",
                   comment := jsOr req.comment (req.get "comment") }] } ∧
          (db'.commit t).committed.Event = db.committed.Event ++ (p.Event ++
            [{ version := db.nextVersion,
               by_ := (jsOr req.email (req.get "email")).getD "",
               comment := jsOr req.comment (req.get "comment") }]) ∧
          ¬ Undone db db')) := by
  obtain ⟨author, hauthor, hne⟩ := actor_present req hactor
  have hnb : fault ≠ .transactionBegin := by
    intro h
    subst h
    simp [lumisectionSteps] at hfault
  constructor
  · have hfail := lumisectionTry_fails run_number dataset_name lumisection_metadata
      start_lumisection end_lumisection author (jsOr req.comment (req.get "comment")) LSEvent
      db.begin.1 true inserted fault hfault db.begin.2
    have hsame := lumisectionTry_sameOutside run_number dataset_name lumisection_metadata
      start_lumisection end_lumisection author (jsOr req.comment (req.get "comment")) LSEvent
      db.begin.1 true (some fault) db.begin.2 (Or.inl hfail)
    cases hres : lumisectionTry run_number dataset_name lumisection_metadata
      start_lumisection end_lumisection author (jsOr req.comment (req.get "comment")) LSEvent
      db.begin.1 true (some fault) db.begin.2 with
    | mk r d =>
      rw [hres] at hfail hsame
      simp only at hfail hsame
      subst hfail
      refine ⟨"Error updating/saving dataset " ++ dataset_name ++ " of run " ++
        toString run_number ++ " lumisections", d.rollback db.begin.1, ?_, ?_, ?_⟩
      · unfold update_or_create_lumisection
        simp only [hauthor, if_neg hne]
        have hb : ¬ (some fault = some DbStep.transactionBegin) := by
          intro h
          injection h with h
          exact hnb h
        rw [if_neg hb]
        have hpair : db.begin = (db.begin.1, db.begin.2) := rfl
        rw [hpair]
        simp only [hres]
      · exact hsame.1
      · rw [rollback_transactions]
        have h2 := hsame.2
        simp only [ne_eq, decide_not] at h2
        rw [h2, begin_transactions_filter]
  · intro t
    have hfail := lumisectionTry_fails run_number dataset_name lumisection_metadata
      start_lumisection end_lumisection author (jsOr req.comment (req.get "comment")) LSEvent
      t false inserted fault hfault db
    have hsame := lumisectionTry_sameOutside run_number dataset_name lumisection_metadata
      start_lumisection end_lumisection author (jsOr req.comment (req.get "comment")) LSEvent
      t false (some fault) db (Or.inl hfail)
    have hopen := lumisectionTry_open run_number dataset_name lumisection_metadata
      start_lumisection end_lumisection author (jsOr req.comment (req.get "comment")) LSEvent
      t (some fault) db
    have hint := lumisectionTry_interning_fails run_number dataset_name lumisection_metadata
      start_lumisection end_lumisection author (jsOr req.comment (req.get "comment")) LSEvent
      t db
    cases hres : lumisectionTry run_number dataset_name lumisection_metadata
      start_lumisection end_lumisection author (jsOr req.comment (req.get "comment")) LSEvent
      t false (some fault) db with
    | mk r d =>
      rw [hres] at hfail hsame hopen
      simp only at hfail hsame hopen
      subst hfail
      refine ⟨"Error updating/saving dataset " ++ dataset_name ++ " of run " ++
        toString run_number ++ " lumisections", d, ?_, hsame, ?_, ?_⟩
      · unfold update_or_create_lumisection
        simp only [hauthor, if_neg hne, hres]
      · refine ⟨hsame.1, ?_⟩
        rw [rollback_transactions, rollback_transactions]
        have h2 := hsame.2
        simp only [ne_eq, decide_not] at h2
        exact h2
      · intro p hp
        refine ⟨hopen p hp, ?_⟩
        intro hf
        subst hf
        have hpend : d.pendingOf t = some
            { p with
              Event := p.Event ++
                [{ version := db.nextVersion, by_ := author,
                   comment := jsOr req.comment (req.get "comment") }] } := by
          have h := hint p hp
          rw [hres] at h
          exact h
        rw [hauthor]
        refine ⟨hpend, ?_, ?_⟩
        · rw [commit_committed d t _ hpend, hsame.1]
          rfl
        · intro hund
          have h1 : d.pendingOf t = db.pendingOf t := by
            unfold Database.pendingOf
            rw [hund.2]
          rw [hpend, hp] at h1
          injection h1 with h1
          have h2 := congrArg (fun x : Tables => x.Event.length) h1
          simp at h2

/-- C16 (amended) at the sample call inside the open transaction 1 of a caller, with the interning
of the document failing. -/
theorem update_or_create_lumisection_atomic_sample :
    DbStep.findOrCreateJSONB ∈ lumisectionSteps 1 ∧
    truthy (jsOr sampleRequest.email (sampleRequest.get "email")) = true ∧
    emptyStore.begin.2.pendingOf 1 = some Tables.empty ∧
    (∃ e db',
      update_or_create_lumisection 1 "online" (docA 1) 3 5 sampleRequest .rr none
        (some .findOrCreateJSONB) emptyStore.begin.2 = (.threw e, db') ∧
      Undone emptyStore.begin.2 db') ∧
    (∀ t, ∃ e db',
      update_or_create_lumisection 1 "online" (docA 1) 3 5 sampleRequest .rr (some t)
        (some .findOrCreateJSONB) emptyStore.begin.2 = (.threw e, db') ∧
      SameOutside t emptyStore.begin.2 db' ∧
      Undone (emptyStore.begin.2.rollback t) (db'.rollback t) ∧
      ∀ p, emptyStore.begin.2.pendingOf t = some p →
        (∃ p', db'.pendingOf t = some p') ∧
        (DbStep.findOrCreateJSONB = .findOrCreateJSONB →
          db'.pendingOf t = some
            { p with
              Event := p.Event ++
                [{ version := emptyStore.begin.2.nextVersion,
                   by_ := (jsOr sampleRequest.email (sampleRequest.get "email")).getD "",
                   comment := jsOr sampleRequest.comment (sampleRequest.get "comment") }] } ∧
          (db'.commit t).committed.Event = emptyStore.begin.2.committed.Event ++ (p.Event ++
            [{ version := emptyStore.begin.2.nextVersion,
               by_ := (jsOr sampleRequest.email (sampleRequest.get "email")).getD "",
               comment := jsOr sampleRequest.comment (sampleRequest.get "comment") }]) ∧
          ¬ Undone emptyStore.begin.2 db')) :=
  ⟨by decide, rfl, rfl,
    update_or_create_lumisection_atomic 1 "online" (docA 1) 3 5 sampleRequest .rr 1
      .findOrCreateJSONB emptyStore.begin.2 (by decide) rfl⟩
/-! ## `moveRun` -/

theorem tripletCheck_threw_iff (to_state : String) :
    ∀ rr : Obj, NoNullTriplets rr →
      ((∃ e, tripletCheck to_state rr = .threw e) ↔
        (to_state = "SIGNOFF" ∧ ∃ kv ∈ rr,
          stringIncludes kv.1 "_triplet" = true ∧ tripletStatusEmpty kv.2 = true)) ∧
      ((¬ ∃ e, tripletCheck to_state rr = .threw e) → tripletCheck to_state rr = .returned ()) := by
  intro rr
  induction rr with
  | nil =>
    intro _
    simp [tripletCheck]
  | cons kv rest ih =>
    intro hnull
    obtain ⟨k, v⟩ := kv
    have hrest : NoNullTriplets rest := fun kv hkv => hnull kv (List.mem_cons_of_mem _ hkv)
    obtain ⟨ih1, ih2⟩ := ih hrest
    by_cases hk : stringIncludes k "_triplet" = true
    · by_cases hs : to_state = "SIGNOFF"
      · have hv : v ≠ .null := hnull (k, v) (List.mem_cons_self _ _) hk
        obtain ⟨status, hst, hse⟩ : ∃ status, statusOf v = .returned status ∧
            statusIsEmpty status = tripletStatusEmpty v := by
          cases v <;> first | exact ⟨_, rfl, rfl⟩ | exact absurd rfl hv
        by_cases he : tripletStatusEmpty v = true
        · constructor
          · constructor
            · intro _
              exact ⟨hs, (k, v), List.mem_cons_self _ _, hk, he⟩
            · intro _
              rw [tripletCheck, if_pos hk, if_pos hs, hst]
              simp only [hse, he, if_true]
              exact ⟨_, rfl⟩
          · intro hno
            exfalso
            apply hno
            rw [tripletCheck, if_pos hk, if_pos hs, hst]
            simp only [hse, he, if_true]
            exact ⟨_, rfl⟩
        · have hstep : tripletCheck to_state ((k, v) :: rest) = tripletCheck to_state rest := by
            rw [tripletCheck, if_pos hk, if_pos hs, hst]
            simp only [hse, he, Bool.false_eq_true, if_false]
          rw [hstep]
          refine ⟨?_, ih2⟩
          rw [ih1]
          constructor
          · rintro ⟨h1, kv, hkv, h2, h3⟩
            exact ⟨h1, kv, List.mem_cons_of_mem _ hkv, h2, h3⟩
          · rintro ⟨h1, kv, hkv, h2, h3⟩
            rcases List.mem_cons.1 hkv with rfl | hkv
            · exact absurd h3 he
            · exact ⟨h1, kv, hkv, h2, h3⟩
      · have hstep : tripletCheck to_state ((k, v) :: rest) = tripletCheck to_state rest := by
          rw [tripletCheck, if_pos hk, if_neg hs]
        rw [hstep]
        refine ⟨?_, ih2⟩
        rw [ih1]
        constructor
        · rintro ⟨h1, _⟩
          exact absurd h1 hs
        · rintro ⟨h1, _⟩
          exact absurd h1 hs
    · have hstep : tripletCheck to_state ((k, v) :: rest) = tripletCheck to_state rest := by
        rw [tripletCheck, if_neg hk]
      rw [hstep]
      refine ⟨?_, ih2⟩
      rw [ih1]
      constructor
      · rintro ⟨h1, kv, hkv, h2, h3⟩
        exact ⟨h1, kv, List.mem_cons_of_mem _ hkv, h2, h3⟩
      · rintro ⟨h1, kv, hkv, h2, h3⟩
        rcases List.mem_cons.1 hkv with rfl | hkv
        · exact absurd h2 hk
        · exact ⟨h1, kv, hkv, h2, h3⟩

/-- The checks of `moveRun` on the attributes of the run throw exactly under the last three of
the four conditions, and return otherwise. -/
theorem moveRunChecks_threw_iff (to_state : String) (rr : Obj) (hnull : NoNullTriplets rr) :
    ((∃ e, moveRunChecks to_state rr = .threw e) ↔
      (isString (getProp rr "state") to_state = true ∨
        (to_state = "SIGNOFF" ∧ ∃ kv ∈ rr,
          stringIncludes kv.1 "_triplet" = true ∧ tripletStatusEmpty kv.2 = true) ∨
        isString (getProp rr "class") "" = true)) ∧
    ((¬ ∃ e, moveRunChecks to_state rr = .threw e) → moveRunChecks to_state rr = .returned ()) := by
  obtain ⟨h1, h2⟩ := tripletCheck_threw_iff to_state rr hnull
  unfold moveRunChecks
  by_cases hs : isString (getProp rr "state") to_state = true
  · rw [if_pos hs]
    exact ⟨⟨fun _ => Or.inl hs, fun _ => ⟨_, rfl⟩⟩, fun hno => absurd ⟨_, rfl⟩ hno⟩
  · rw [if_neg hs]
    by_cases ht : ∃ e, tripletCheck to_state rr = .threw e
    · obtain ⟨e, he⟩ := ht
      rw [he]
      exact ⟨⟨fun _ => Or.inr (Or.inl (h1.1 ⟨e, he⟩)), fun _ => ⟨_, rfl⟩⟩,
        fun hno => absurd ⟨_, rfl⟩ hno⟩
    · rw [h2 ht]
      simp only
      by_cases hc : isString (getProp rr "class") "" = true
      · rw [if_pos hc]
        exact ⟨⟨fun _ => Or.inr (Or.inr hc), fun _ => ⟨_, rfl⟩⟩, fun hno => absurd ⟨_, rfl⟩ hno⟩
      · rw [if_neg hc]
        refine ⟨⟨?_, ?_⟩, fun _ => rfl⟩
        · rintro ⟨e, he⟩
          cases he
        · rintro (h | h | h)
          · exact absurd h hs
          · exact absurd (h1.2 h) ht
          · exact absurd h hc

theorem any_upsertRun (n : Int) (runs : List RunRow) (row : RunRow)
    (h : runs.any (fun r => decide (r.run_number = n)) = true) :
    (upsertRun runs row).any (fun r => decide (r.run_number = n)) = true := by
  unfold upsertRun
  split
  · rw [List.any_eq_true] at h ⊢
    obtain ⟨r, hr, hn⟩ := h
    by_cases hrow : r.run_number = row.run_number
    · refine ⟨row, List.mem_map.2 ⟨r, hr, by rw [if_pos hrow]⟩, ?_⟩
      simp only [decide_eq_true_eq] at hn ⊢
      rw [← hrow, hn]
    · exact ⟨r, List.mem_map.2 ⟨r, hr, by rw [if_neg hrow]⟩, hn⟩
  · rw [List.any_append, h]
    rfl

theorem any_foldl_upsertRun (n : Int) (rows : List RunRow) :
    ∀ runs : List RunRow, runs.any (fun r => decide (r.run_number = n)) = true →
      (rows.foldl upsertRun runs).any (fun r => decide (r.run_number = n)) = true := by
  induction rows with
  | nil => intro runs h; exact h
  | cons row rest ih =>
    intro runs h
    exact ih _ (any_upsertRun n runs row h)

/-- A run that is stored is still stored after a transaction is committed. -/
theorem findByPk_commit (db : Database) (t : Nat) (n : Int) (r : RunRow)
    (h : findByPk db n = some r) : ∃ saved, findByPk (db.commit t) n = some saved := by
  have h0 : db.committed.Run.find? (fun r => decide (r.run_number = n)) = some r := h
  have hr : decide (r.run_number = n) = true := by
    have h1 := List.find?_some h0
    exact h1
  have hany : db.committed.Run.any (fun r => decide (r.run_number = n)) = true := by
    rw [List.any_eq_true]
    exact ⟨r, List.mem_of_find?_eq_some h0, hr⟩
  cases hp : db.pendingOf t with
  | none =>
    refine ⟨r, ?_⟩
    unfold Database.commit
    rw [hp]
    exact h
  | some p =>
    have h2 := any_foldl_upsertRun n p.Run _ hany
    rw [List.any_eq_true] at h2
    obtain ⟨x, hx, hxn⟩ := h2
    have hsome : (findByPk (db.commit t) n).isSome = true := by
      unfold findByPk
      rw [List.find?_isSome]
      refine ⟨x, ?_, hxn⟩
      rw [commit_committed db t p hp]
      exact hx
    exact Option.isSome_iff_exists.1 hsome

theorem commit_transactions (db : Database) (t : Nat) (p : Tables)
    (hp : db.pendingOf t = some p) :
    (db.commit t).transactions = List.filter (fun p => !decide (p.1 = t)) db.transactions := by
  unfold Database.commit
  rw [hp]
  simp

/-- With an open transaction, an actor and no failing step, the `try` block of
`update_or_create_run` writes one event and one run event through the transaction. -/
theorem runTry_success (run_number : Int) (oms_metadata rr_metadata : Obj) (by_ : String)
    (comment : Option String) (t : Nat) (db : Database) (p : Tables)
    (hp : db.pendingOf t = some p) :
    (runTry run_number oms_metadata rr_metadata by_ comment t false none db).1 =
      some { run_number := run_number, oms_metadata := oms_metadata,
             rr_metadata := rr_metadata, version := db.nextVersion, deleted := false } ∧
    (runTry run_number oms_metadata rr_metadata by_ comment t false none db).2.committed =
      db.committed ∧
    (∃ q, (runTry run_number oms_metadata rr_metadata by_ comment t false none db).2.pendingOf t =
        some q ∧
      q.RunEvent = p.RunEvent ++
        [{ run_number := run_number, oms_metadata := oms_metadata,
           rr_metadata := rr_metadata, version := db.nextVersion, deleted := false }]) ∧
    List.filter (fun p => !decide (p.1 = t))
        (runTry run_number oms_metadata rr_metadata by_ comment t false none db).2.transactions =
      List.filter (fun p => !decide (p.1 = t)) db.transactions := by
  have hn : (db.pendingOf t).isNone = false := by rw [hp]; rfl
  have h0 : ({ db with nextVersion := db.nextVersion + 1 } : Database).pendingOf t = some p := hp
  refine ⟨?_, ?_, ?_, ?_⟩
  · simp [runTry, hn]
  · simp [runTry, hn, write_committed]
  · simp only [runTry, hn]
    simp only [Bool.false_eq_true, or_false, reduceCtorEq, if_false]
    rw [pendingOf_write, pendingOf_write, pendingOf_write, h0]
    exact ⟨_, rfl, rfl⟩
  · simp only [runTry, hn]
    simp only [Bool.false_eq_true, or_false, reduceCtorEq, if_false]
    rw [write_transactions_filter, write_transactions_filter, write_transactions_filter]

theorem moveRunTry_success (to_state : String) (run_number : Int) (req : Request) (t : Nat)
    (db : Database) (p : Tables) (r : RunRow) (hp : db.pendingOf t = some p)
    (hrun : findByPk db run_number = some r)
    (hactor : truthy (jsOr req.email (req.get "email")) = true) :
    ∃ saved db2, moveRunTry to_state run_number req t none db = (some saved, db2) ∧
      db2.committed.RunEvent = db.committed.RunEvent ++ (p.RunEvent ++
        [{ run_number := run_number, oms_metadata := [],
           rr_metadata := [("state", .str to_state)], version := db.nextVersion,
           deleted := false }]) ∧
      db2.transactions = List.filter (fun p => !decide (p.1 = t)) db.transactions := by
  obtain ⟨author, hauthor, hne⟩ := actor_present req hactor
  obtain ⟨hres, hc, ⟨q, hq, hqr⟩, htr⟩ := runTry_success run_number []
    [("state", .str to_state)] author (jsOr req.comment (req.get "comment")) t db p hp
  have hpair : runTry run_number [] [("state", .str to_state)] author
      (jsOr req.comment (req.get "comment")) t false none db =
      ((runTry run_number [] [("state", .str to_state)] author
        (jsOr req.comment (req.get "comment")) t false none db).1,
       (runTry run_number [] [("state", .str to_state)] author
        (jsOr req.comment (req.get "comment")) t false none db).2) := rfl
  rw [hres] at hpair
  have hrun3 : findByPk (runTry run_number [] [("state", .str to_state)] author
        (jsOr req.comment (req.get "comment")) t false none db).2 run_number = some r := by
    unfold findByPk
    rw [hc]
    exact hrun
  obtain ⟨saved, hsaved⟩ := findByPk_commit _ t run_number r hrun3
  refine ⟨saved, (runTry run_number [] [("state", .str to_state)] author
        (jsOr req.comment (req.get "comment")) t false none db).2.commit t, ?_, ?_, ?_⟩
  · unfold moveRunTry update_or_create_run
    simp only [hauthor, if_neg hne]
    rw [hpair]
    simp only [reduceCtorEq, and_false, if_false, hsaved]
  · rw [commit_committed _ t q hq, hc]
    show db.committed.RunEvent ++ q.RunEvent = _
    rw [hqr]
  · rw [commit_transactions _ t q hq, htr]

theorem moveRunTry_missing_actor (to_state : String) (run_number : Int) (req : Request) (t : Nat)
    (fault : Option DbStep) (db : Database) (h1 : truthy req.email = false)
    (h2 : truthy (req.get "email") = false) :
    moveRunTry to_state run_number req t fault db = (none, db) := by
  unfold moveRunTry update_or_create_run
  rcases actor_missing req h1 h2 with h | h
  · simp only [h]
  · simp only [h, if_true]

theorem rollback_begin (db : Database) : db.begin.2.rollback db.begin.1 = db := by
  have h := begin_transactions_filter db
  have h2 := rollback_transactions db.begin.2 db.begin.1
  rw [h] at h2
  cases db
  simp only [Database.rollback] at h2 ⊢
  simp only [Database.begin] at h2 ⊢
  simp only [Database.mk.injEq, true_and]
  simpa using h2

/-- C18, amended: for a run that is stored and none of whose `_triplet` attributes is `null`,
`moveRun` rejects the request in its validation, with the store untouched, whenever one of the
four conditions holds (the target state is not `SIGNOFF`, `OPEN` or `COMPLETED`; the run is in the
target state already; the target state is `SIGNOFF` and some attribute whose name contains
`_triplet` has status `'NO VALUE FOUND'` or `''`; the class of the run is the empty string).  When
none of them holds, a request that names an actor commits, when no database step fails, one run
event whose rr metadata is exactly `{state: to_state}` and whose oms metadata is empty, and
returns the stored run; a request that names no actor is rejected as well, and leaves the store
exactly as it was. -/
theorem moveRun_validation (to_state : String) (run_number : Int) (req : Request)
    (db : Database) (run : RunRow) (hrun : findByPk db run_number = some run)
    (hnull : NoNullTriplets run.rr_attributes) :
    (MoveRunRejects to_state run.rr_attributes →
      ∀ fault, ∃ e, moveRun to_state run_number req fault db = (.threw e, db)) ∧
    (¬ MoveRunRejects to_state run.rr_attributes →
      (truthy (jsOr req.email (req.get "email")) = true →
        ∃ saved db2, moveRun to_state run_number req none db = (.returned saved, db2) ∧
          db2.committed.RunEvent = db.committed.RunEvent ++
            [{ run_number := run_number, oms_metadata := [],
               rr_metadata := [("state", .str to_state)], version := db.nextVersion,
               deleted := false }] ∧
          db2.transactions = db.transactions) ∧
      (truthy req.email = false → truthy (req.get "email") = false →
        ∀ fault, ∃ e, moveRun to_state run_number req fault db = (.threw e, db))) := by
  obtain ⟨hiff, hret⟩ := moveRunChecks_threw_iff to_state run.rr_attributes hnull
  constructor
  · intro hrej fault
    by_cases hstate : to_state ∈ ["SIGNOFF", "OPEN", "COMPLETED"]
    · have hthrew : ∃ e, moveRunChecks to_state run.rr_attributes = .threw e := by
        rw [hiff]
        rcases hrej with h | h
        · exact absurd hstate h
        · exact h
      obtain ⟨e, he⟩ := hthrew
      refine ⟨e, ?_⟩
      unfold moveRun
      have hc : ["SIGNOFF", "OPEN", "COMPLETED"].contains to_state = true :=
        List.elem_eq_true_of_mem hstate
      simp only [hc, Bool.not_true, Bool.false_eq_true, if_false, hrun, he]
    · refine ⟨"The final state must be SIGNOFF, OPEN OR COMPLETED, no other option is valid", ?_⟩
      unfold moveRun
      have hc : ["SIGNOFF", "OPEN", "COMPLETED"].contains to_state = false := by
        rw [← Bool.not_eq_true]
        exact fun h => hstate (List.mem_of_elem_eq_true h)
      simp only [hc, Bool.not_false, if_true]
  · intro hno
    have hstate : to_state ∈ ["SIGNOFF", "OPEN", "COMPLETED"] := by
      by_contra h
      exact hno (Or.inl h)
    have hc : ["SIGNOFF", "OPEN", "COMPLETED"].contains to_state = true :=
      List.elem_eq_true_of_mem hstate
    have hchecks : moveRunChecks to_state run.rr_attributes = .returned () := by
      apply hret
      intro h
      exact hno (Or.inr (hiff.1 h))
    have hpair : db.begin = (db.begin.1, db.begin.2) := rfl
    constructor
    · intro hactor
      have hrun0 : findByPk db.begin.2 run_number = some run := hrun
      obtain ⟨saved, db2, hres, hev, htr⟩ := moveRunTry_success to_state run_number req
        db.begin.1 db.begin.2 Tables.empty run (pendingOf_begin db) hrun0 hactor
      refine ⟨saved, db2, ?_, ?_, ?_⟩
      · unfold moveRun
        simp only [hc, Bool.not_true, Bool.false_eq_true, if_false, hrun, hchecks, reduceCtorEq]
        rw [hpair]
        simp only [hres]
      · rw [hev]
        rfl
      · rw [htr, begin_transactions_filter]
    · intro h1 h2 fault
      by_cases hf : fault = some .transactionBegin
      · refine ⟨"TypeError: cannot read property rollback of undefined", ?_⟩
        unfold moveRun
        simp only [hc, Bool.not_true, Bool.false_eq_true, if_false, hrun, hchecks, hf, if_true]
      · refine ⟨"Error SIGNING OFF run, creating the datasets from run in OFFLINE", ?_⟩
        unfold moveRun
        simp only [hc, Bool.not_true, Bool.false_eq_true, if_false, hrun, hchecks, if_neg hf]
        rw [hpair]
        simp only [moveRunTry_missing_actor to_state run_number req db.begin.1 fault db.begin.2
          h1 h2, rollback_begin]

theorem noNullTriplets_runRow : NoNullTriplets runRow.rr_attributes := by
  intro kv hkv _
  simp only [runRow, List.mem_cons, List.mem_singleton, List.not_mem_nil, or_false] at hkv
  rcases hkv with rfl | rfl | rfl <;> simp [triplet]

theorem not_moveRunRejects_runRow : ¬ MoveRunRejects "SIGNOFF" runRow.rr_attributes := by
  unfold MoveRunRejects
  rintro (h | h | ⟨_, kv, hkv, h1, h2⟩ | h)
  · exact h (by decide)
  · exact absurd h (by decide)
  · simp only [runRow, List.mem_cons, List.mem_singleton, List.not_mem_nil, or_false] at hkv
    rcases hkv with rfl | rfl | rfl
    · exact absurd h2 (by decide)
    · exact absurd h2 (by decide)
    · exact absurd h2 (by decide)
  · exact absurd h (by decide)

/-- C18 at the run 5 of `runStore`, moved to `SIGNOFF` by a request that names an actor. -/
theorem moveRun_validation_sample :
    findByPk runStore 5 = some runRow ∧ NoNullTriplets runRow.rr_attributes ∧
    ((MoveRunRejects "SIGNOFF" runRow.rr_attributes →
      ∀ fault, ∃ e, moveRun "SIGNOFF" 5 sampleRequest fault runStore = (.threw e, runStore)) ∧
    (¬ MoveRunRejects "SIGNOFF" runRow.rr_attributes →
      (truthy (jsOr sampleRequest.email (sampleRequest.get "email")) = true →
        ∃ saved db2, moveRun "SIGNOFF" 5 sampleRequest none runStore = (.returned saved, db2) ∧
          db2.committed.RunEvent = runStore.committed.RunEvent ++
            [{ run_number := 5, oms_metadata := [],
               rr_metadata := [("state", .str "SIGNOFF")], version := runStore.nextVersion,
               deleted := false }] ∧
          db2.transactions = runStore.transactions) ∧
      (truthy sampleRequest.email = false → truthy (sampleRequest.get "email") = false →
        ∀ fault, ∃ e, moveRun "SIGNOFF" 5 sampleRequest fault runStore =
          (.threw e, runStore)))) :=
  ⟨rfl, noNullTriplets_runRow,
    moveRun_validation "SIGNOFF" 5 sampleRequest runStore runRow rfl noNullTriplets_runRow⟩

/-- C18 as stated fails: none of the four conditions holds for the run 5 of `runStore` and the
target state `SIGNOFF`, yet `moveRun` rejects the request, which names no actor, and the store is
exactly as before: no run event is written. -/
theorem moveRun_rejects_anonymous :
    findByPk runStore 5 = some runRow ∧
    ¬ MoveRunRejects "SIGNOFF" runRow.rr_attributes ∧
    moveRun "SIGNOFF" 5 anonymousRequest none runStore =
      (.threw "Error SIGNING OFF run, creating the datasets from run in OFFLINE", runStore) :=
  ⟨rfl, not_moveRunRejects_runRow, rfl⟩

/-- The request that names an actor does move the run 5 of `runStore` to `SIGNOFF`: the run event
of version 8 with rr metadata `{state: 'SIGNOFF'}` is committed. -/
theorem moveRun_sample_commits :
    (moveRun "SIGNOFF" 5 sampleRequest none runStore).2.committed.RunEvent.map
        (fun e => (e.version, e.rr_metadata)) =
      [(7, [("state", .str "OPEN"), ("class", .str "Cosmics"), ("dt_triplet", triplet "GOOD")]),
       (8, [("state", .str "SIGNOFF")])] := rfl

/-! ## The `create_*_lumisections` functions -/

theorem sliceNumbers_append (s e h : Int) (h1 : s ≤ e + 1) (h2 : e ≤ h) :
    sliceNumbers s e ++ sliceNumbers (e + 1) h = sliceNumbers s h := by
  unfold sliceNumbers
  have hlen : (h - s + 1).toNat = (e - s + 1).toNat + (h - (e + 1) + 1).toNat := by omega
  rw [hlen, List.range_add, List.map_append, List.map_map]
  congr 1
  apply List.map_congr_left
  intro k _
  simp only [Function.comp]
  omega

theorem RangesFrom_le (S : List Obj) (hi : Nat) :
    ∀ (R : List Obj) (lo : Nat), RangesFrom S lo R hi → lo ≤ hi := by
  intro R
  induction R with
  | nil => intro lo h; exact h.elim
  | cons r l ih =>
    intro lo h
    cases l with
    | nil => exact h.2.2.2.1
    | cons r' rest =>
      obtain ⟨e, h1, _, h3⟩ := h
      have h4 := ih (e + 1) h3
      have h5 := h1.2.2.2.1
      omega

/-- The calls issued for ranges that compact the slices `lo..hi` assign the slice numbers
`lo, lo + 1, ..., hi`, each once and in this order. -/
theorem rangeCalls_slices (LSEvent : LSModels) (S : List Obj) (hi : Nat) :
    ∀ (R : List Obj) (lo : Nat), RangesFrom S lo R hi →
      (rangeCalls LSEvent R).flatMap callSlices = sliceNumbers lo hi := by
  intro R
  induction R with
  | nil => intro lo h; exact h.elim
  | cons r l ih =>
    intro lo h
    cases l with
    | nil =>
      have hg : GoodRange S lo hi r := h
      simp [rangeCalls, callSlices, hg.1, hg.2.1]
    | cons r' rest =>
      obtain ⟨e, h1, _, h3⟩ := h
      have h4 := ih (e + 1) h3
      have h5 := RangesFrom_le S hi _ _ h3
      have h6 := h1.2.2.2.1
      have hhead : callSlices
          { lumisection_metadata := rangeValues r, start_lumisection := getProp r "start",
            end_lumisection := getProp r "end", LSEvent := LSEvent } = sliceNumbers lo e := by
        simp [callSlices, h1.1, h1.2.1]
      have hstep : (rangeCalls LSEvent (r :: r' :: rest)).flatMap callSlices =
          sliceNumbers lo e ++ (rangeCalls LSEvent (r' :: rest)).flatMap callSlices := by
        rw [← hhead]
        simp [rangeCalls, List.flatMap_cons]
      rw [hstep, h4]
      have h7 := sliceNumbers_append lo e hi (by omega) (by omega)
      exact_mod_cast h7

theorem count_sliceNumbers (n : Nat) (i : Int) (h1 : 1 ≤ i) (h2 : i ≤ n) :
    (sliceNumbers 1 n).count i = 1 := by
  have hnodup : (sliceNumbers 1 n).Nodup :=
    (sliceNumbers_increasing 1 n).imp (fun {a b} hab => ne_of_lt hab)
  exact List.count_eq_one_of_mem hnodup ((mem_sliceNumbers 1 n i).2 ⟨h1, h2⟩)

/-- C20: for every non-empty sequence `S`, `create_rr_lumisections` (likewise
`create_oms_lumisections` and `create_signed_off_dataset_lumisections`, with their whitelists and
models) issues exactly one call of `update_or_create_lumisection` per range of
`getLumisectionRanges`, with the range less its `start` and `end` as the document and the `start`
and `end` of the range as the slice bounds; the slice numbers the calls assign are
`1, 2, ..., len S` in this order, so every slice number of `[1, len S]` is assigned by exactly one
of the created events. -/
theorem create_lumisections_calls (S : List Obj) (W : List String) (hS : S ≠ []) :
    (create_rr_lumisections S W =
        (getLumisectionRanges S W).map
          (fun r => { lumisection_metadata := rangeValues r,
                      start_lumisection := getProp r "start",
                      end_lumisection := getProp r "end", LSEvent := .rr }) ∧
      create_oms_lumisections S W =
        (getLumisectionRanges S W).map
          (fun r => { lumisection_metadata := rangeValues r,
                      start_lumisection := getProp r "start",
                      end_lumisection := getProp r "end", LSEvent := .oms }) ∧
      create_signed_off_dataset_lumisections S =
        (getLumisectionRanges S ["*"]).map
          (fun r => { lumisection_metadata := rangeValues r,
                      start_lumisection := getProp r "start",
                      end_lumisection := getProp r "end", LSEvent := .rr })) ∧
    ∀ calls ∈ [create_rr_lumisections S W, create_oms_lumisections S W,
        create_signed_off_dataset_lumisections S],
      calls.flatMap callSlices = sliceNumbers 1 S.length ∧
      ∀ i : Int, 1 ≤ i → i ≤ S.length → (calls.flatMap callSlices).count i = 1 := by
  have h : ∀ (LSEvent : LSModels) (V : List String),
      (rangeCalls LSEvent (getLumisectionRanges S V)).flatMap callSlices =
        sliceNumbers 1 S.length := by
    intro LSEvent V
    have h0 := rangeCalls_slices LSEvent _ _ _ _ (getLumisectionRanges_compacts S V hS)
    exact_mod_cast h0
  refine ⟨⟨rfl, rfl, rfl⟩, ?_⟩
  intro calls hcalls
  have hc : calls.flatMap callSlices = sliceNumbers 1 S.length := by
    simp only [List.mem_cons, List.mem_singleton, List.not_mem_nil, or_false] at hcalls
    rcases hcalls with rfl | rfl | rfl
    · exact h .rr W
    · exact h .oms W
    · exact h .rr ["*"]
  refine ⟨hc, ?_⟩
  intro i hi1 hi2
  rw [hc]
  exact count_sliceNumbers S.length i hi1 hi2

/-- C20 at the scenario of the spec, `[{a:1},{a:1},{a:2},{a:2},{a:2}]` with the whitelist
`['a']`. -/
theorem create_lumisections_calls_scenario :
    scenarioSlices ≠ [] ∧
    ((create_rr_lumisections scenarioSlices ["a"] =
        (getLumisectionRanges scenarioSlices ["a"]).map
          (fun r => { lumisection_metadata := rangeValues r,
                      start_lumisection := getProp r "start",
                      end_lumisection := getProp r "end", LSEvent := .rr }) ∧
      create_oms_lumisections scenarioSlices ["a"] =
        (getLumisectionRanges scenarioSlices ["a"]).map
          (fun r => { lumisection_metadata := rangeValues r,
                      start_lumisection := getProp r "start",
                      end_lumisection := getProp r "end", LSEvent := .oms }) ∧
      create_signed_off_dataset_lumisections scenarioSlices =
        (getLumisectionRanges scenarioSlices ["*"]).map
          (fun r => { lumisection_metadata := rangeValues r,
                      start_lumisection := getProp r "start",
                      end_lumisection := getProp r "end", LSEvent := .rr })) ∧
    ∀ calls ∈ [create_rr_lumisections scenarioSlices ["a"],
        create_oms_lumisections scenarioSlices ["a"],
        create_signed_off_dataset_lumisections scenarioSlices],
      calls.flatMap callSlices = sliceNumbers 1 scenarioSlices.length ∧
      ∀ i : Int, 1 ≤ i → i ≤ scenarioSlices.length →
        (calls.flatMap callSlices).count i = 1) :=
  ⟨by simp [scenarioSlices], create_lumisections_calls scenarioSlices ["a"]
    (by simp [scenarioSlices])⟩

/-- The calls of the scenario, evaluated: the document `{a:1}` for the slices 1 and 2, the
document `{a:2}` for the slices 3, 4 and 5. -/
theorem create_rr_lumisections_scenario :
    (create_rr_lumisections scenarioSlices ["a"]).map
        (fun call => (call.lumisection_metadata, callSlices call)) =
      [([("a", .num 1)], [1, 2]), ([("a", .num 2)], [3, 4, 5])] := rfl

/-! ## The cursor of the gap-filling loop -/

/-- For strictly increasing positive rows, the first `i` iterations of the loop end in a state
that satisfies both invariants. -/
theorem gapLoop_prefix (rows : List MergedRow) (last : MergedRow)
    (hlast : rows.getLast? = some last) (hs : StrictlyIncreasing rows)
    (hp : PositiveSlices rows) (i : Nat) (hi : i ≤ last.lumisection_number.toNat) :
    ∃ st, gapLoop rows (componentsPresent rows) (List.range i) gapStart = .returned st ∧
      GapInv rows last.lumisection_number.toNat i st ∧ GapOrderInv rows i st := by
  obtain ⟨hpos, _⟩ := getLast?_eq_getElem rows last hlast
  have h := gapLoop_invariant rows (componentsPresent rows) last.lumisection_number.toNat
    (fun i st => GapInv rows last.lumisection_number.toNat i st ∧ GapOrderInv rows i st)
    (fun i st hi hinv => by
      obtain ⟨st', hst', hinv'⟩ := gapStep_GapInv rows last hlast i st hi hinv.1
      refine ⟨st', hst', hinv', ?_⟩
      have hcur : st.current_merged_lumisection_element < rows.length := by
        rcases hinv.1.2.2.1 with h | h
        · exact h
        · omega
      obtain ⟨row, hrow⟩ : ∃ row, rows[st.current_merged_lumisection_element]? = some row :=
        ⟨_, List.getElem?_eq_getElem hcur⟩
      have heq := gapStep_eq rows (componentsPresent rows) st i row hrow hinv.1.1
      rw [hst'] at heq
      injection heq with heq
      rw [heq]
      exact gapStep_GapOrderInv rows hs i st row hrow hinv.1.1 hinv.2)
    i 0 gapStart (by omega)
    ⟨⟨rfl, Nat.zero_le _, Or.inl hpos, fun j hj => absurd hj (Nat.not_lt_zero j)⟩,
      fun c row hc _ => absurd hc (Nat.not_lt_zero c),
      fun c row _ hrow => by
        have := hp row (List.getElem?_mem hrow)
        simpa using this,
      fun j hj => absurd hj (Nat.not_lt_zero j)⟩
  obtain ⟨st, hst, hinv⟩ := h
  refine ⟨st, ?_, by simpa using hinv.1, by simpa using hinv.2⟩
  rw [List.range_eq_range']
  exact hst

/-- C22: for merged rows ordered by strictly increasing positive slice number, the gap-filling
loop never reads past the end of the rows.  Before every iteration `i` the cursor
`current_merged_lumisection_element` is a valid index, of the first row whose slice number exceeds
`i`, and the iteration returns; every row is consumed once, by the iteration of its own slice
number, which moves the cursor from the index of the row to the next one; and on exit the cursor
equals the number of rows. -/
theorem gapLoop_cursor_in_bounds (rows : List MergedRow) (hs : StrictlyIncreasing rows)
    (hp : PositiveSlices rows) :
    (∀ last, rows.getLast? = some last → ∀ i : Nat, (i : Int) < last.lumisection_number →
      ∃ st row st',
        gapLoop rows (componentsPresent rows) (List.range i) gapStart = .returned st ∧
        st.current_merged_lumisection_element < rows.length ∧
        rows[st.current_merged_lumisection_element]? = some row ∧
        (i : Int) < row.lumisection_number ∧
        (∀ c r, c < st.current_merged_lumisection_element → rows[c]? = some r →
          r.lumisection_number ≤ (i : Int)) ∧
        gapStep rows (componentsPresent rows) st i = .returned st') ∧
    (∀ c row, rows[c]? = some row →
      ∃ st st',
        gapLoop rows (componentsPresent rows)
          (List.range (row.lumisection_number.toNat - 1)) gapStart = .returned st ∧
        st.current_merged_lumisection_element = c ∧
        gapStep rows (componentsPresent rows) st (row.lumisection_number.toNat - 1) =
          .returned st' ∧
        st'.current_merged_lumisection_element = c + 1) ∧
    ∃ st, fillGapsState rows = .returned st ∧
      st.current_merged_lumisection_element = rows.length := by
  have hbefore : ∀ last, rows.getLast? = some last → ∀ i : Nat,
      (i : Int) < last.lumisection_number →
      ∃ st row,
        gapLoop rows (componentsPresent rows) (List.range i) gapStart = .returned st ∧
        st.current_merged_lumisection_element < rows.length ∧
        rows[st.current_merged_lumisection_element]? = some row ∧
        (i : Int) < row.lumisection_number ∧
        (∀ c r, c < st.current_merged_lumisection_element → rows[c]? = some r →
          r.lumisection_number ≤ (i : Int)) ∧
        st.lumisections_with_empty_wholes.length = i := by
    intro last hlast i hi
    obtain ⟨st, hst, hinv, hord⟩ := gapLoop_prefix rows last hlast hs hp i (by omega)
    have hcur : st.current_merged_lumisection_element < rows.length := by
      rcases hinv.2.2.1 with h | h
      · exact h
      · omega
    obtain ⟨row, hrow⟩ : ∃ row, rows[st.current_merged_lumisection_element]? = some row :=
      ⟨_, List.getElem?_eq_getElem hcur⟩
    exact ⟨st, row, hst, hcur, hrow, hord.2.1 _ row (le_refl _) hrow, hord.1, hinv.1⟩
  refine ⟨?_, ?_, ?_⟩
  · intro last hlast i hi
    obtain ⟨st, row, hst, hcur, hrow, hlt, hle, hlen⟩ := hbefore last hlast i hi
    exact ⟨st, row, _, hst, hcur, hrow, hlt, hle,
      gapStep_eq rows (componentsPresent rows) st i row hrow hlen⟩
  · intro c row hrow
    have hmem : row ∈ rows := List.getElem?_mem hrow
    have hpos := hp row hmem
    cases hlast : rows.getLast? with
    | none =>
      have hnil : rows = [] := List.getLast?_eq_none_iff.1 hlast
      rw [hnil] at hmem
      cases hmem
    | some last =>
      have hle := le_last_of_sorted rows last hlast hs row hmem
      obtain ⟨st, cur, hst, hcur, hcurrow, hlt, hbelow, hlen⟩ :=
        hbefore last hlast (row.lumisection_number.toNat - 1) (by omega)
      have hc : st.current_merged_lumisection_element = c := by
        rcases Nat.lt_trichotomy st.current_merged_lumisection_element c with h | h | h
        · have := sorted_lt_of_lt rows hs _ c cur row hcurrow hrow h
          omega
        · exact h
        · have := hbelow c row h hrow
          omega
      have hsame : cur = row := by
        rw [hc, hrow] at hcurrow
        injection hcurrow with h
        exact h.symm
      subst hsame
      have hstep := gapStep_eq rows (componentsPresent rows) st
        (cur.lumisection_number.toNat - 1) cur hcurrow hlen
      have hmatch : ((cur.lumisection_number.toNat - 1 : Nat) : Int) + 1 =
          cur.lumisection_number := by omega
      rw [if_pos hmatch] at hstep
      exact ⟨st, _, hst, hc, hstep, by rw [hc]⟩
  · cases hlast : rows.getLast? with
    | none =>
      have hnil : rows = [] := List.getLast?_eq_none_iff.1 hlast
      subst hnil
      exact ⟨_, rfl, rfl⟩
    | some last =>
      obtain ⟨st, hst, hinv, hord⟩ := fillGapsState_GapOrderInv rows last hlast hs hp
      refine ⟨st, hst, ?_⟩
      have h1 := hinv.2.1
      by_contra hne
      have hcur : st.current_merged_lumisection_element < rows.length := by omega
      obtain ⟨row, hrow⟩ : ∃ row, rows[st.current_merged_lumisection_element]? = some row :=
        ⟨_, List.getElem?_eq_getElem hcur⟩
      have h2 := hord.2.1 _ row (le_refl _) hrow
      have h3 := le_last_of_sorted rows last hlast hs row (List.getElem?_mem hrow)
      have h4 := hp last (getLast?_mem rows last hlast)
      omega

theorem sampleRows_increasing : StrictlyIncreasing sampleRows := by
  unfold StrictlyIncreasing sampleRows
  simp

theorem sampleRows_positive : PositiveSlices sampleRows := by
  intro row hrow
  simp only [sampleRows, List.mem_cons, List.mem_singleton, List.not_mem_nil, or_false] at hrow
  rcases hrow with rfl | rfl | rfl <;> decide

/-- C22 at the rows of the slices 2, 3 and 5. -/
theorem gapLoop_cursor_in_bounds_sample :
    StrictlyIncreasing sampleRows ∧ PositiveSlices sampleRows ∧
    ((∀ last, sampleRows.getLast? = some last → ∀ i : Nat, (i : Int) < last.lumisection_number →
      ∃ st row st',
        gapLoop sampleRows (componentsPresent sampleRows) (List.range i) gapStart =
          .returned st ∧
        st.current_merged_lumisection_element < sampleRows.length ∧
        sampleRows[st.current_merged_lumisection_element]? = some row ∧
        (i : Int) < row.lumisection_number ∧
        (∀ c r, c < st.current_merged_lumisection_element → sampleRows[c]? = some r →
          r.lumisection_number ≤ (i : Int)) ∧
        gapStep sampleRows (componentsPresent sampleRows) st i = .returned st') ∧
    (∀ c row, sampleRows[c]? = some row →
      ∃ st st',
        gapLoop sampleRows (componentsPresent sampleRows)
          (List.range (row.lumisection_number.toNat - 1)) gapStart = .returned st ∧
        st.current_merged_lumisection_element = c ∧
        gapStep sampleRows (componentsPresent sampleRows) st
          (row.lumisection_number.toNat - 1) = .returned st' ∧
        st'.current_merged_lumisection_element = c + 1) ∧
    ∃ st, fillGapsState sampleRows = .returned st ∧
      st.current_merged_lumisection_element = sampleRows.length) :=
  ⟨sampleRows_increasing, sampleRows_positive,
    gapLoop_cursor_in_bounds sampleRows sampleRows_increasing sampleRows_positive⟩

/-- The cursor of the loop on the rows of the slices 2, 3 and 5, before each of the five
iterations and on exit. -/
theorem gapLoop_cursor_sample :
    ((List.range 6).map (fun i =>
      match gapLoop sampleRows (componentsPresent sampleRows) (List.range i) gapStart with
      | .returned st => some st.current_merged_lumisection_element
      | _ => none)) = [some 0, some 0, some 1, some 2, some 2, some 3] := by
  decide

/-! ## The ranges of `getNewLumisectionRanges` cover all slices -/

theorem chain'_snoc_imp {α : Type} (R : α → α → Prop) (init : List α) (a b : α)
    (h : ∀ x, R x a → R x b) (hc : List.Chain' R (init ++ [a])) :
    List.Chain' R (init ++ [b]) := by
  rw [List.chain'_append] at hc ⊢
  refine ⟨hc.1, List.chain'_singleton b, ?_⟩
  intro x hx y hy
  simp only [List.head?_cons, Option.mem_def, Option.some.injEq] at hy
  subst hy
  exact h x (hc.2.2 x hx a (by simp))

theorem chain'_snoc_snoc {α : Type} (R : α → α → Prop) (init : List α) (a b : α)
    (hab : R a b) (hc : List.Chain' R (init ++ [a])) :
    List.Chain' R (init ++ [a] ++ [b]) := by
  rw [List.chain'_append]
  refine ⟨hc, List.chain'_singleton b, ?_⟩
  intro x hx y hy
  simp only [List.head?_cons, Option.mem_def, Option.some.injEq] at hy
  have hlast : (init ++ [a]).getLast? = some a := by simp
  rw [hlast] at hx
  simp only [Option.mem_def, Option.some.injEq] at hx
  subst hy
  subst hx
  exact hab

theorem head_start_snoc (init : List Obj) (a b : Obj)
    (hab : getProp b "start" = getProp a "start")
    (h : ∃ r, (init ++ [a]).head? = some r ∧ getProp r "start" = some (.num 1)) :
    ∃ r, (init ++ [b]).head? = some r ∧ getProp r "start" = some (.num 1) := by
  cases init with
  | nil =>
    obtain ⟨r, hr, hs⟩ := h
    simp only [List.nil_append, List.head?_cons, Option.some.injEq] at hr
    subst hr
    exact ⟨b, rfl, by rw [hab]; exact hs⟩
  | cons x rest =>
    obtain ⟨r, hr, hs⟩ := h
    exact ⟨r, hr, hs⟩

theorem head_start_append (R : List Obj) (b : Obj) (hR : R ≠ [])
    (h : ∃ r, R.head? = some r ∧ getProp r "start" = some (.num 1)) :
    ∃ r, (R ++ [b]).head? = some r ∧ getProp r "start" = some (.num 1) := by
  cases R with
  | nil => exact absurd rfl hR
  | cons x rest => exact h

/-- Writing `end` on the open range keeps the invariant. -/
theorem OpenPartition_setEnd (init : List Obj) (opn : Obj) (i j : Nat) (v : Int) (hij : i ≤ j)
    (h : OpenPartition (init ++ [opn]) i) :
    OpenPartition (init ++ [setProp opn "end" (.num v)]) j := by
  obtain ⟨init', opn', heq, hhead, hchain, hclosed, s, hs, hsi⟩ := h
  obtain ⟨h1, h2⟩ := List.append_inj' heq rfl
  have h3 : opn = opn' := by simpa using h2
  subst h1
  subst h3
  refine ⟨init, _, rfl, ?_, ?_, hclosed, s, ?_, by omega⟩
  · exact head_start_snoc init opn _ (getProp_start_setProp_end opn _) hhead
  · apply chain'_snoc_imp _ init opn _ _ hchain
    rintro x ⟨e, he1, he2⟩
    exact ⟨e, he1, by rw [getProp_start_setProp_end]; exact he2⟩
  · rw [getProp_start_setProp_end]
    exact hs

theorem OpenPartition_mono (R : List Obj) (i j : Nat) (hij : i ≤ j) (h : OpenPartition R i) :
    OpenPartition R j := by
  obtain ⟨init, opn, heq, hhead, hchain, hclosed, s, hs, hsi⟩ := h
  exact ⟨init, opn, heq, hhead, hchain, hclosed, s, hs, by omega⟩

/-- Closing the open range at index `i` and opening a new one at `i + 1` keeps the invariant. -/
theorem OpenPartition_push (init : List Obj) (opn cur : Obj) (i : Nat)
    (h : OpenPartition (init ++ [opn]) i) :
    OpenPartition
      (init ++ [setProp opn "end" (.num i)] ++ [setProp cur "start" (.num (i + 1))]) (i + 1) := by
  have hset := OpenPartition_setEnd init opn i i i (le_refl _) h
  obtain ⟨init', opn', heq, hhead, hchain, hclosed, s, hs, hsi⟩ := hset
  obtain ⟨h1, h2⟩ := List.append_inj' heq rfl
  have h3 : setProp opn "end" (.num i) = opn' := by simpa using h2
  subst h1
  subst h3
  refine ⟨init ++ [setProp opn "end" (.num i)], _, rfl, ?_, ?_, ?_, (i : Int) + 1, ?_, ?_⟩
  · exact head_start_append _ _ (by simp) hhead
  · apply chain'_snoc_snoc _ init _ _ _ hchain
    exact ⟨i, getProp_setProp_same _ _ _, getProp_setProp_same _ _ _⟩
  · intro r hr
    rcases List.mem_append.1 hr with hr | hr
    · exact hclosed r hr
    · rw [List.mem_singleton] at hr
      subst hr
      exact ⟨s, i, hs, getProp_setProp_same _ _ _, hsi⟩
  · exact getProp_setProp_same _ _ _
  · push_cast
    omega

theorem exists_snoc_of_ne_nil (L : List Obj) (h : L ≠ []) : ∃ init opn, L = init ++ [opn] :=
  ⟨L.dropLast, L.getLast h, (List.dropLast_append_getLast h).symm⟩

/-- One iteration keeps the ranges empty or re-establishes the invariant. -/
theorem newRangesStep_OpenPartition (prev next : List Obj) (W : List String) (L : List Obj)
    (i : Nat) (h : L = [] ∨ OpenPartition L i) :
    newRangesStep prev next W L i = [] ∨ OpenPartition (newRangesStep prev next W L i) (i + 1) := by
  rcases h with h | h
  · subst h
    simp only [newRangesStep]
    by_cases hm : deepEqual (getAttributesSpecifiedFromArray (spread prev[i]?) W)
        (getAttributesSpecifiedFromArray (spread next[i]?) W) = true
    · left
      simp [hm]
    · right
      rw [if_neg hm]
      simp only [List.length_nil, if_true, List.nil_append]
      refine ⟨[], _, rfl, ⟨_, rfl, getProp_setProp_same _ _ _⟩, List.chain'_singleton _, ?_,
        1, getProp_setProp_same _ _ _, by omega⟩
      intro r hr
      cases hr
  · right
    obtain ⟨init, opn, heq, _⟩ := id h
    subst heq
    have hpos : (init ++ [opn]).length > 0 := by simp
    have hne : ¬ (init ++ [opn]).length = 0 := by simp
    simp only [newRangesStep]
    by_cases hm : deepEqual (getAttributesSpecifiedFromArray (spread prev[i]?) W)
        (getAttributesSpecifiedFromArray (spread next[i]?) W) = true
    · rw [if_pos hm, if_pos hpos, lastRange_snoc, setLastRange_snoc]
      exact OpenPartition_setEnd init opn i (i + 1) i (by omega) h
    · rw [if_neg hm, if_neg hne, lastRange_snoc]
      by_cases hc : deepEqual (rangeValues opn)
          (getAttributesSpecifiedFromArray (spread next[i]?) W) = true
      · rw [if_pos hc]
        exact OpenPartition_mono _ i (i + 1) (by omega) h
      · rw [if_neg hc, setLastRange_snoc]
        exact OpenPartition_push init opn _ i h

theorem newRangesLoop_OpenPartition (prev next : List Obj) (W : List String) :
    ∀ m, (List.range m).foldl (newRangesStep prev next W) [] = [] ∨
      OpenPartition ((List.range m).foldl (newRangesStep prev next W) []) m := by
  intro m
  induction m with
  | zero => left; rfl
  | succ m ih =>
    rw [List.range_succ, List.foldl_append]
    simp only [List.foldl_cons, List.foldl_nil]
    exact newRangesStep_OpenPartition prev next W _ m ih

/-- Writing the final `end` on the open range turns the invariant into the partition. -/
theorem OpenPartition_close (L : List Obj) (n : Nat) (h : OpenPartition L n) :
    PartitionsSlices (setLastRange L (setProp (lastRange L) "end" (.num n))) n := by
  obtain ⟨init, opn, heq, _⟩ := id h
  subst heq
  rw [lastRange_snoc, setLastRange_snoc]
  obtain ⟨init', opn', heq, hhead, hchain, hclosed, s, hs, hsn⟩ :=
    OpenPartition_setEnd init opn n n n (le_refl _) h
  obtain ⟨h1, h2⟩ := List.append_inj' heq rfl
  have h3 : setProp opn "end" (.num n) = opn' := by simpa using h2
  subst h1
  subst h3
  refine ⟨hhead, hchain, ?_, ⟨setProp opn "end" (.num n), by simp, getProp_setProp_same _ _ _⟩⟩
  intro r hr
  rcases List.mem_append.1 hr with hr | hr
  · exact hclosed r hr
  · rw [List.mem_singleton] at hr
    subst hr
    exact ⟨s, n, hs, getProp_setProp_same _ _ _, hsn⟩

/-- C21: for every two sequences `prev` and `next` of the same length `n`, whenever the ranges
returned by `getNewLumisectionRanges prev next W` are not empty they cover the whole of `[1, n]`:
the first range has `start = 1`, each further range starts at the end of the one before it plus
one, and the last range has `end = n` (and every range has `start ≤ end`), wherever the first and
the last differing index lie. -/
theorem getNewLumisectionRanges_covers (prev next : List Obj) (W : List String)
    (hlen : prev.length = next.length) :
    ∃ R, getNewLumisectionRanges prev next W = .returned R ∧
      (R ≠ [] → PartitionsSlices R next.length) := by
  unfold getNewLumisectionRanges
  rw [if_pos hlen.symm]
  refine ⟨_, rfl, ?_⟩
  intro hne
  rcases newRangesLoop_OpenPartition prev next W next.length with h | h
  · exfalso
    apply hne
    simp only [h, List.length_nil, gt_iff_lt, lt_self_iff_false, if_false]
  · have hpos : ((List.range next.length).foldl (newRangesStep prev next W) []).length > 0 := by
      obtain ⟨init, opn, heq, _⟩ := h
      rw [heq]
      simp
    simp only [hpos, if_true]
    exact OpenPartition_close _ _ h

/-- C21 at `prev = [{a:1},{a:1},{a:2},{a:3}]`, `next = [{a:1},{a:5},{a:2},{a:7}]` with whitelist
`[a]`, whose first differing slice is the second one. -/
theorem getNewLumisectionRanges_covers_sample :
    [docA 1, docA 1, docA 2, docA 3].length = [docA 1, docA 5, docA 2, docA 7].length ∧
    ∃ R, getNewLumisectionRanges [docA 1, docA 1, docA 2, docA 3]
        [docA 1, docA 5, docA 2, docA 7] ["a"] = .returned R ∧
      (R ≠ [] → PartitionsSlices R [docA 1, docA 5, docA 2, docA 7].length) :=
  ⟨rfl, getNewLumisectionRanges_covers [docA 1, docA 1, docA 2, docA 3]
    [docA 1, docA 5, docA 2, docA 7] ["a"] rfl⟩

/-- The ranges of the sample, evaluated: they start at slice 1 although slice 1 did not change,
and end at slice 4. -/
theorem getNewLumisectionRanges_sample_ranges :
    getNewLumisectionRanges [docA 1, docA 1, docA 2, docA 3]
        [docA 1, docA 5, docA 2, docA 7] ["a"] =
      .returned [[("a", .num 5), ("start", .num 1), ("end", .num 3)],
        [("a", .num 7), ("start", .num 4), ("end", .num 4)]] := rfl

end RunRegistry
